import Mathlib

/-!
# steganographer: LSB codec, header parsers, row padding and capacity checks

A shallow embedding of the core of the `steganographer` C program
(`stego.c`, `bitmap.c`, `pcm.c`, `memory.c`, `block_copy` of `file_io.c`,
`find_type` of `helpers.c`, and of `main` the head and the writing of the output in
hide mode) and theorems about it.

Conventions of the embedding

* C `int`, `int16_t`, `int32_t` and `int64_t` values are `Int`; `/` on `int` is
  `Int.tdiv` (truncation toward zero).  The header arithmetic of the program
  (`width * height`, `colordepth * width + 31`, `size * width + pad`,
  `chunkSize + 8`, `filesize - subchunk2size`, `(subchunk2size / block_align) *
  channels`) is done in 32-bit `int`; a result outside `-2^31 .. 2^31 - 1` is
  reduced to 32 bits in two's complement, as the compiled program does (`wrap32`),
  and the quotient `-2^31 / -1`, which has no `int` value, is a fault of its own.
* An `unsigned char` is a `Nat`; a value stored into one is reduced `% 256`.
* A heap buffer is a `List`; an access outside the buffer has no defined
  behaviour and makes the surrounding function return `none`.
* Loop counters that start at `0` and are only incremented (`i`, `j`,
  `bitcount`, `bytecount`) are `Nat` and are cast to `Int` where they are
  compared with a signed field.
* A `for (k = 0; k < bound; k++)` loop is a recursion on the number of
  iterations that remain (`bound.toNat` at entry); the WAV loops, whose stride
  is a header field, recurse on an explicit step budget.
* An open file is the list of its bytes and a position indicator.  An `fread`
  that meets the end of the file stores the bytes it did read over the start of
  its destination and leaves the rest of the destination as it was; the content
  an object has before the program writes it is a parameter of the model.
-/

namespace Steganographer

/-! ## Data model (`steganographer.h`) -/

/-- The record `struct payload`: the byte count and the byte buffer. -/
structure payload where
  size : Int
  bytes : List Nat
deriving DecidableEq

/-- The record `struct bitmap`: header fields, derived fields, pixel byte matrix. -/
structure bitmap where
  data_offset : Int
  width : Int
  height : Int
  depth : Int
  start : Int
  size : Int
  pad : Int
  rowlen : Int
  pixel : List (List Nat)
deriving DecidableEq

/-- The record `struct pcm`: RIFF / fmt / data header fields, the sample stream
and the derived fields. -/
structure pcm where
  chunkID : Int
  chunkSize : Int
  format : Int
  subchunk1ID : Int
  subchunk1size : Int
  audioformat : Int
  channels : Int
  rate : Int
  bytes_per_second : Int
  block_align : Int
  depth : Int
  subchunk2ID : Int
  subchunk2size : Int
  samples : List Nat
  data_offset : Int
  sample_size : Int
  total_samples : Int
deriving DecidableEq

/-- The ways the program stops before it has done its work: the `exit` calls of
the validators, of the header parsers, of the allocators and of `main`, plus the
two arithmetic faults (`x / 0` and `-2^31 / -1`) and the exhaustion of a model
step budget. -/
inductive Failure where
  | unsupported_depth
  | insufficient_capacity
  | division_by_zero
  | division_overflow
  | unrecognized_file
  | tag_not_found
  | not_pcm
  | allocation_failed
  | unknown_data_type
  | out_of_steps
deriving DecidableEq

/-- The `int` that holds the mathematical result `x` of a 32-bit signed
operation: `x` itself when `-2^31 ≤ x < 2^31`, and otherwise the value congruent
to `x` modulo `2^32` in that range. -/
def wrap32 (x : Int) : Int := (x + 2147483648) % 4294967296 - 2147483648

/-! ## `bitmap.c` -/

/-- The function `calculate_padding`.  The products `width * colordepth` and
`colordepth * width` and the sum `.. + 31` are `int` operations.  The quotient
`(colordepth * width + 31) / 32` is an `int` division, so `floor` of it is the
identity, and `4 * floor(..)` is a `double` of magnitude at most `2^28`, converted
back to `int` exactly; the final difference cannot leave the `int` range. -/
def calculate_padding (width colordepth : Int) : Int :=
  let natural_length_of_row := Int.tdiv (wrap32 (width * colordepth)) 8
  let nearest_multiple_of_four := 4 * Int.tdiv (wrap32 (wrap32 (colordepth * width) + 31)) 32
  nearest_multiple_of_four - natural_length_of_row

/-- The function `validate_bitmap`: `Except.ok ()` when it returns, an error
when it calls `exit` (or when the division faults).  `bitmap_size` is an `int`,
the 32-bit product of the two `int32_t` fields. -/
def validate_bitmap (b : bitmap) (p : payload) : Except Failure Unit :=
  if b.depth ≠ 24 then Except.error Failure.unsupported_depth
  else
    let bitmap_size := wrap32 (b.width * b.height)
    if p.size = 0 then Except.error Failure.division_by_zero
    else if bitmap_size = -2147483648 ∧ p.size = -1 then
      Except.error Failure.division_overflow
    else if Int.tdiv bitmap_size p.size < 8 then Except.error Failure.insufficient_capacity
    else Except.ok ()

/-! ## `pcm.c` -/

/-- The function `validate_wavfile`. -/
def validate_wavfile (w : pcm) (p : payload) : Except Failure Unit :=
  if w.depth < 16 then Except.error Failure.unsupported_depth
  else if p.size = 0 then Except.error Failure.division_by_zero
  else if Int.tdiv w.total_samples p.size < 8 then Except.error Failure.insufficient_capacity
  else Except.ok ()

/-- The two derived fields that end `get_pcm_info`: `sample_size = depth / 8`
and `total_samples = (subchunk2size / block_align) * channels`, an `int`
expression whose value is then widened to the `int64_t` field.  A zero
`block_align` makes the division fault, and so does `-2^31 / -1`. -/
def derive_pcm_fields (w : pcm) : Option pcm :=
  if w.block_align = 0 then none
  else if w.subchunk2size = -2147483648 ∧ w.block_align = -1 then none
  else some { w with
    sample_size := Int.tdiv w.depth 8
    total_samples := wrap32 (Int.tdiv w.subchunk2size w.block_align * w.channels) }

/-! ## `memory.c` -/

/-- The size of `unsigned char *`, the element size `init_pixel_matrix` passes to `malloc`. -/
def sizeof_pointer : Int := 8

/-- The function `init_pixel_matrix`.  `junk i j` is the indeterminate content of
the freshly allocated byte `j` of row `i`.  `rowlen` is an `int32_t`, the 32-bit
value of `size * width + pad`.  A negative `int` count converts to a `size_t` no
allocator can serve, so `malloc` fails and the program exits (`none`); every other
request is taken to be served. -/
def init_pixel_matrix (junk : Nat → Nat → Nat) (b : bitmap) : Option bitmap :=
  let pad := calculate_padding b.width b.depth
  let size := Int.tdiv b.depth 8
  let start := b.data_offset
  let rowlen := wrap32 (wrap32 (size * b.width) + pad)
  if b.height < 0 then none
  else if 0 < b.height ∧ rowlen < 0 then none
  else some { b with
    pad := pad
    size := size
    start := start
    rowlen := rowlen
    pixel := (List.range b.height.toNat).map
      (fun i => (List.range (rowlen * sizeof_pointer).toNat).map (junk i)) }

/-- The function `init_payload_storage`: `malloc(p->size)` without initialisation;
`junk n` is the indeterminate content of the fresh byte `n`. -/
def init_payload_storage (junk : Nat → Nat) (p : payload) : Option payload :=
  if p.size < 0 then none
  else some { p with bytes := (List.range p.size.toNat).map junk }

/-! ## `stego.c` -/

/-- The right-hand side `(x & ~1) | (1 & (byte >> (7 - (bitcount % 8))))` of the
embed assignment, as stored into an `unsigned char`; `~1` is the `int`
`0xFFFFFFFE`. -/
def lsb_mix (x byte bitcount : Nat) : Nat :=
  ((x &&& 0xFFFFFFFE) ||| (1 &&& (byte >>> (7 - bitcount % 8)))) % 256

/-- Read of `pixel[i][j]`. -/
def pixel_read (pixel : List (List Nat)) (i j : Nat) : Option Nat :=
  match pixel[i]? with
  | some row => row[j]?
  | none => none

/-- Write of `pixel[i][j] = v` (the cell was read just before, so it exists). -/
def pixel_write (pixel : List (List Nat)) (i j v : Nat) : List (List Nat) :=
  match pixel[i]? with
  | some row => pixel.set i (row.set j v)
  | none => pixel

/-- Inner `for (j = 0; j < rowlen; j++)` loop of `bitmap_cover` on row `i`;
the first argument counts the iterations that remain.  The `Bool` of the result
is `true` when the loop was left through `goto GALOIS_FIELD_2`. -/
def bitmap_cover_cols (lastbyte : Int) (p : payload) (i : Nat) :
    Nat → Nat → List (List Nat) → Nat → Nat → Option (List (List Nat) × Nat × Nat × Bool)
  | 0, _, pixel, bitcount, bytecount => some (pixel, bitcount, bytecount, false)
  | n + 1, j, pixel, bitcount, bytecount =>
    if (j : Int) = lastbyte then some (pixel, bitcount, bytecount, false)
    else
      match pixel_read pixel i j, p.bytes[bytecount]? with
      | some x, some byte =>
        let pixel1 := pixel_write pixel i j (lsb_mix x byte bitcount)
        let bitcount1 := bitcount + 1
        let bytecount1 := if bitcount1 % 8 = 0 then bytecount + 1 else bytecount
        if (bytecount1 : Int) = p.size then some (pixel1, bitcount1, bytecount1, true)
        else bitmap_cover_cols lastbyte p i n (j + 1) pixel1 bitcount1 bytecount1
      | _, _ => none

/-- Outer `for (i = 0; i < height; i++)` loop of `bitmap_cover`. -/
def bitmap_cover_rows (rowlen lastbyte : Int) (p : payload) :
    Nat → Nat → List (List Nat) → Nat → Nat → Option (List (List Nat))
  | 0, _, pixel, _, _ => some pixel
  | n + 1, i, pixel, bitcount, bytecount =>
    match bitmap_cover_cols lastbyte p i rowlen.toNat 0 pixel bitcount bytecount with
    | some (pixel1, bitcount1, bytecount1, finished) =>
      if finished then some pixel1
      else bitmap_cover_rows rowlen lastbyte p n (i + 1) pixel1 bitcount1 bytecount1
    | none => none

/-- The function `bitmap_cover`: the container's bitmap after the embed. -/
def bitmap_cover (b : bitmap) (p : payload) : Option bitmap :=
  let lastbyte := b.rowlen - b.pad
  match bitmap_cover_rows b.rowlen lastbyte p b.height.toNat 0 b.pixel 0 0 with
  | some pixel => some { b with pixel := pixel }
  | none => none

/-- The byte `(bits[0] << 7) | (bits[1] << 6) | ... | (bits[7] << 0)` stored into
an `unsigned char`. -/
def assemble (bits : Fin 8 → Nat) : Nat :=
  ((bits 0 <<< 7) ||| (bits 1 <<< 6) ||| (bits 2 <<< 5) ||| (bits 3 <<< 4) |||
   (bits 4 <<< 3) ||| (bits 5 <<< 2) ||| (bits 6 <<< 1) ||| (bits 7 <<< 0)) % 256

/-- Inner loop of `bitmap_uncover` on row `i`.  `bits` is the local array
`int bits[8]`, `bytes` the payload buffer being filled. -/
def bitmap_uncover_cols (lastbyte size : Int) (pixel : List (List Nat)) (i : Nat) :
    Nat → Nat → (Fin 8 → Nat) → List Nat → Nat → Nat →
      Option ((Fin 8 → Nat) × List Nat × Nat × Nat × Bool)
  | 0, _, bits, bytes, bitcount, bytecount => some (bits, bytes, bitcount, bytecount, false)
  | n + 1, j, bits, bytes, bitcount, bytecount =>
    if (j : Int) = lastbyte then some (bits, bytes, bitcount, bytecount, false)
    else
      match pixel_read pixel i j with
      | some x =>
        let bits1 := Function.update bits ⟨bitcount % 8, Nat.mod_lt _ (by decide)⟩ (x &&& 1)
        let bitcount1 := bitcount + 1
        if bitcount1 % 8 = 0 then
          if bytecount < bytes.length then
            let bytes1 := bytes.set bytecount (assemble bits1)
            let bytecount1 := bytecount + 1
            if (bytecount1 : Int) = size then some (bits1, bytes1, bitcount1, bytecount1, true)
            else bitmap_uncover_cols lastbyte size pixel i n (j + 1) bits1 bytes1 bitcount1 bytecount1
          else none
        else
          if (bytecount : Int) = size then some (bits1, bytes, bitcount1, bytecount, true)
          else bitmap_uncover_cols lastbyte size pixel i n (j + 1) bits1 bytes bitcount1 bytecount
      | none => none

/-- Outer loop of `bitmap_uncover`. -/
def bitmap_uncover_rows (rowlen lastbyte size : Int) (pixel : List (List Nat)) :
    Nat → Nat → (Fin 8 → Nat) → List Nat → Nat → Nat → Option (List Nat)
  | 0, _, _, bytes, _, _ => some bytes
  | n + 1, i, bits, bytes, bitcount, bytecount =>
    match bitmap_uncover_cols lastbyte size pixel i rowlen.toNat 0 bits bytes bitcount bytecount with
    | some (bits1, bytes1, bitcount1, bytecount1, finished) =>
      if finished then some bytes1
      else bitmap_uncover_rows rowlen lastbyte size pixel n (i + 1) bits1 bytes1 bitcount1 bytecount1
    | none => none

/-- The function `bitmap_uncover`: the payload after the extract.  `bits` is the
indeterminate initial content of the local array `bits[8]`. -/
def bitmap_uncover (bits : Fin 8 → Nat) (b : bitmap) (p : payload) : Option payload :=
  let lastbyte := b.rowlen - b.pad
  match bitmap_uncover_rows b.rowlen lastbyte p.size b.pixel b.height.toNat 0 bits p.bytes 0 0 with
  | some bytes => some { p with bytes := bytes }
  | none => none

/-- The loop of `pcm_cover`.  The first argument is the step budget: `none` also
when it is used up before the loop ends. -/
def pcm_cover_loop (subchunk2size sample_size : Int) (p : payload) :
    Nat → Int → List Nat → Nat → Nat → Option (List Nat)
  | 0, _, _, _, _ => none
  | fuel + 1, i, samples, bitcount, bytecount =>
    if i < subchunk2size then
      if i < 0 then none
      else
        match samples[i.toNat]?, p.bytes[bytecount]? with
        | some x, some byte =>
          let samples1 := samples.set i.toNat (lsb_mix x byte bitcount)
          let bitcount1 := bitcount + 1
          let bytecount1 := if bitcount1 % 8 = 0 then bytecount + 1 else bytecount
          if (bytecount1 : Int) = p.size then some samples1
          else pcm_cover_loop subchunk2size sample_size p fuel (i + sample_size)
            samples1 bitcount1 bytecount1
        | _, _ => none
    else some samples

/-- The function `pcm_cover`, run with a step budget. -/
def pcm_cover (fuel : Nat) (w : pcm) (p : payload) : Option pcm :=
  match pcm_cover_loop w.subchunk2size w.sample_size p fuel 0 w.samples 0 0 with
  | some samples => some { w with samples := samples }
  | none => none

/-- The right-hand side of `p->bytes[bytecount] |= (x & 1) << (7 - (bitcount % 8))`,
as stored into an `unsigned char`. -/
def lsb_collect (old x bitcount : Nat) : Nat :=
  (old ||| ((x &&& 1) <<< (7 - bitcount % 8))) % 256

/-- The loop of `pcm_uncover`, with a step budget. -/
def pcm_uncover_loop (subchunk2size sample_size size : Int) (samples : List Nat) :
    Nat → Int → List Nat → Nat → Nat → Option (List Nat)
  | 0, _, _, _, _ => none
  | fuel + 1, i, bytes, bitcount, bytecount =>
    if i < subchunk2size then
      if i < 0 then none
      else
        match samples[i.toNat]?, bytes[bytecount]? with
        | some x, some old =>
          let bytes1 := bytes.set bytecount (lsb_collect old x bitcount)
          let bitcount1 := bitcount + 1
          let bytecount1 := if bitcount1 % 8 = 0 then bytecount + 1 else bytecount
          if (bytecount1 : Int) = size then some bytes1
          else pcm_uncover_loop subchunk2size sample_size size samples fuel (i + sample_size)
            bytes1 bitcount1 bytecount1
        | _, _ => none
    else some bytes

/-- The function `pcm_uncover`, run with a step budget. -/
def pcm_uncover (fuel : Nat) (w : pcm) (p : payload) : Option payload :=
  match pcm_uncover_loop w.subchunk2size w.sample_size p.size w.samples fuel 0 p.bytes 0 0 with
  | some bytes => some { p with bytes := bytes }
  | none => none

/-! ## Files and the records of `main` -/

/-- A `FILE *` opened for reading: the bytes of the file and the position indicator. -/
structure file_handle where
  data : List Nat
  pos : Nat
deriving DecidableEq

/-- The record `struct container`: the open base file, its size field, the type
tag (`enum { bitmap, wavfile }`) and the two format records `b` and `w` (in the
program only the one `main` allocated is meaningful). -/
structure container where
  fp : file_handle
  filesize : Int
  type : Int
  b : bitmap
  w : pcm
deriving DecidableEq

/-- The enum `MODE`. -/
inductive MODE where
  | hide
  | recover
deriving DecidableEq

/-- Value of the enum constant `bitmap` of `container.type`. -/
def enum_bitmap : Int := 0

/-- Value of the enum constant `wavfile` of `container.type`. -/
def enum_wavfile : Int := 1

/-- Indeterminate contents of the objects the program reads before it has written
them: the buffer `b[12]` of `find_type`, `magic_bytes[2]` of `get_bitmap_info`,
`buf[4]` of the k-th call of `pcm_find_string`, and the records `data` and
`pload` of `main`. -/
structure uninitialised where
  find_type_b : List Nat
  magic_bytes : List Nat
  find_string_buf : Nat → List Nat
  data : container
  pload : payload

/-! ## `stdio` -/

/-- The bytes one `fread` of `n` bytes takes from the file (fewer than `n` at the
end of the file) and the file with the position advanced past them. -/
def fread_bytes (n : Nat) (fp : file_handle) : List Nat × file_handle :=
  let avail := (fp.data.drop fp.pos).take n
  (avail, { fp with pos := fp.pos + avail.length })

/-- The destination of an `fread` after the call: the bytes read, followed by what
the destination held beyond them. -/
def store_bytes (avail old : List Nat) : List Nat :=
  avail ++ old.drop avail.length

/-- The `n` bytes of the two's-complement little-endian representation of `v`. -/
def int_bytes (n : Nat) (v : Int) : List Nat :=
  (List.range n).map (fun k => (v / 256 ^ k % 256).toNat)

/-- The unsigned little-endian value of a byte string. -/
def bytes_unsigned : List Nat → Nat
  | [] => 0
  | x :: xs => x + 256 * bytes_unsigned xs

/-- The signed (`intN_t`, `N = 8n`) little-endian value of `n` bytes. -/
def bytes_int (n : Nat) (bs : List Nat) : Int :=
  if 2 * (bytes_unsigned bs : Int) < 256 ^ n then (bytes_unsigned bs : Int)
  else (bytes_unsigned bs : Int) - 256 ^ n

/-- The call `fread(&field, n, 1, fp)` on a signed `n`-byte field holding `old`. -/
def fread_int (n : Nat) (old : Int) (fp : file_handle) : Int × file_handle :=
  (bytes_int n (store_bytes (fread_bytes n fp).1 (int_bytes n old)), (fread_bytes n fp).2)

/-- The call `fseek(fp, offset, SEEK_SET)`; a negative offset makes it fail and
leaves the position where it was. -/
def fseek_set (fp : file_handle) (offset : Int) : file_handle :=
  if offset < 0 then fp else { fp with pos := offset.toNat }

/-- The call `fseek(fp, offset, SEEK_CUR)`. -/
def fseek_cur (fp : file_handle) (offset : Int) : file_handle :=
  if (fp.pos : Int) + offset < 0 then fp else { fp with pos := ((fp.pos : Int) + offset).toNat }

/-- The value `fgetc(fp)` leaves in an `unsigned char`: the next byte, or `0xFF`
(`EOF`, -1) at the end of the file. -/
def fgetc_byte (fp : file_handle) : Nat × file_handle :=
  match fp.data[fp.pos]? with
  | some x => (x, { fp with pos := fp.pos + 1 })
  | none => (255, fp)

/-- Whether `strncmp(a, b, n) == 0`; a string that ends is followed by its NUL. -/
def strncmp_eq : Nat → List Nat → List Nat → Bool
  | 0, _, _ => true
  | n + 1, a, b =>
    if a.headD 0 ≠ b.headD 0 then false
    else if a.headD 0 = 0 then true
    else strncmp_eq n a.tail b.tail

/-! ## `pcm.c`: header parsing -/

/-- The string literal "WAVE". -/
def tag_WAVE : List Nat := [87, 65, 86, 69]

/-- The string literal "fmt " (with the trailing blank). -/
def tag_fmt : List Nat := [102, 109, 116, 32]

/-- The string literal "data". -/
def tag_data : List Nat := [100, 97, 116, 97]

/-- The `while (1)` loop of `pcm_find_string`; `i` is the local counter, `buf` the
local array.  The first argument bounds the number of iterations. -/
def pcm_find_string_loop (id : List Nat) :
    Nat → file_handle → Nat → List Nat → Except Failure (Int × file_handle)
  | 0, _, _, _ => Except.error Failure.out_of_steps
  | steps + 1, fp, i, buf =>
    let n : Int := if (fread_bytes 4 fp).1.length = 4 then 1 else 0
    let buf1 := store_bytes (fread_bytes 4 fp).1 buf
    if strncmp_eq 4 buf1 id = true then Except.ok (n, (fread_bytes 4 fp).2)
    else if n = 0 then Except.error Failure.tag_not_found
    else pcm_find_string_loop id steps (fseek_set (fread_bytes 4 fp).2 i) (i + 1) buf1

/-- The function `pcm_find_string`: the value of `n` and the file as the function
leaves it, or the `exit(1)`.  `buf` is the indeterminate initial content of the
local `buf[4]`.  The loop is given `length + 2` iterations, more than it can use. -/
def pcm_find_string (id buf : List Nat) (fp : file_handle) : Except Failure (Int × file_handle) :=
  pcm_find_string_loop id (fp.data.length + 2) fp 0 buf

/-- The function `get_pcm_info`; `stack k` is the initial content of `buf` in the
k-th call of `pcm_find_string`.  `filesize`, `data_offset` and the `int` value
assigned to `total_samples` are 32-bit results. -/
def get_pcm_info (stack : Nat → List Nat) (c : container) : Except Failure container :=
  let r1 := fread_int 4 c.w.chunkID c.fp
  let r2 := fread_int 4 c.w.chunkSize r1.2
  let filesize := wrap32 (r2.1 + 8)
  match pcm_find_string tag_WAVE (stack 0) r2.2 with
  | Except.error e => Except.error e
  | Except.ok f1 =>
    match pcm_find_string tag_fmt (stack 1) f1.2 with
    | Except.error e => Except.error e
    | Except.ok f2 =>
      let r3 := fread_int 2 c.w.audioformat (fseek_cur f2.2 4)
      let r4 := fread_int 2 c.w.channels r3.2
      let r5 := fread_int 4 c.w.rate r4.2
      let r6 := fread_int 4 c.w.bytes_per_second r5.2
      let r7 := fread_int 2 c.w.block_align r6.2
      let r8 := fread_int 2 c.w.depth r7.2
      if r3.1 ≠ 1 then Except.error Failure.not_pcm
      else
        let sample_size := Int.tdiv r8.1 8
        match pcm_find_string tag_data (stack 2) r8.2 with
        | Except.error e => Except.error e
        | Except.ok f3 =>
          let r9 := fread_int 4 c.w.subchunk2size f3.2
          let data_offset := wrap32 (filesize - r9.1)
          if r7.1 = 0 then Except.error Failure.division_by_zero
          else if r9.1 = -2147483648 ∧ r7.1 = -1 then
            Except.error Failure.division_overflow
          else
            Except.ok { c with
              fp := r9.2
              filesize := filesize
              w := { c.w with
                chunkID := r1.1
                chunkSize := r2.1
                audioformat := r3.1
                channels := r4.1
                rate := r5.1
                bytes_per_second := r6.1
                block_align := r7.1
                depth := r8.1
                sample_size := sample_size
                subchunk2size := r9.1
                data_offset := data_offset
                total_samples := wrap32 (Int.tdiv r9.1 r7.1 * r4.1) } }

/-- The `for` loop of `get_samples`: `samples[i] = fgetc(fp)`. -/
def get_samples_loop : Nat → Nat → file_handle → List Nat → Option (List Nat × file_handle)
  | 0, _, fp, samples => some (samples, fp)
  | n + 1, i, fp, samples =>
    if i < samples.length then
      get_samples_loop n (i + 1) (fgetc_byte fp).2 (samples.set i (fgetc_byte fp).1)
    else none

/-- The function `get_samples`: the container with the sample store loaded. -/
def get_samples (c : container) : Option container :=
  match get_samples_loop c.w.subchunk2size.toNat 0 (fseek_set c.fp c.w.data_offset)
      c.w.samples with
  | some r => some { c with fp := r.2, w := { c.w with samples := r.1 } }
  | none => none

/-! ## `bitmap.c`: header parsing -/

/-- The function `get_bitmap_info`; `magic` is the initial content of `magic_bytes`. -/
def get_bitmap_info (magic : List Nat) (c : container) : Except Failure container :=
  let m := store_bytes (fread_bytes 2 (fseek_set c.fp 0)).1 magic
  if m.getD 0 0 ≠ 66 ∨ m.getD 1 0 ≠ 77 then Except.error Failure.unrecognized_file
  else
    let r1 := fread_int 4 c.filesize (fread_bytes 2 (fseek_set c.fp 0)).2
    let r2 := fread_int 4 c.b.data_offset (fseek_set r1.2 0x0A)
    let r3 := fread_int 4 c.b.width (fseek_set r2.2 0x12)
    let r4 := fread_int 4 c.b.height r3.2
    let r5 := fread_int 2 c.b.depth (fseek_set r4.2 0x1C)
    Except.ok { c with
      fp := r5.2
      filesize := r1.1
      b := { c.b with data_offset := r2.1, width := r3.1, height := r4.1, depth := r5.1 } }

/-! ## `memory.c`: the sample store -/

/-- The function `init_sample_storage`: `malloc(subchunk2size * sizeof(unsigned char *))`;
`junk n` is the indeterminate content of the fresh byte `n`. -/
def init_sample_storage (junk : Nat → Nat) (w : pcm) : Option pcm :=
  if w.subchunk2size < 0 then none
  else some { w with samples := (List.range (w.subchunk2size * sizeof_pointer).toNat).map junk }

/-! ## `helpers.c` and `main.c` -/

/-- The function `find_type` on the bytes of the named file; `junk` is the initial
content of the local `b[12]`.  The result is `bitmap` (0), `wavfile` (1) or -1. -/
def find_type (junk : List Nat) (data : List Nat) : Int :=
  let b := store_bytes (data.take 12) junk
  if b.getD 0 0 = 66 ∧ b.getD 1 0 = 77 then enum_bitmap
  else if b.getD 0 0 = 82 ∧ b.getD 1 0 = 73 ∧ b.getD 2 0 = 70 ∧ b.getD 3 0 = 70 ∧
      b.getD 8 0 = 87 ∧ b.getD 9 0 = 65 ∧ b.getD 10 0 = 86 ∧ b.getD 11 0 = 69 then
    enum_wavfile
  else -1

/-- The part of `main` from `find_type` to the end of the payload-management
block: type detection, the `switch` that selects the callbacks, `get_info`, and
in hide mode the payload size (the length of the hide-file) and `validate_data`;
in recover mode the payload size is the user's `-s` argument. -/
def main_parse_and_validate (u : uninitialised) (m : MODE) (basefile hidefile : List Nat)
    (payload_size : Int) : Except Failure (container × payload) :=
  let type := find_type u.find_type_b basefile
  if type ≠ enum_bitmap ∧ type ≠ enum_wavfile then Except.error Failure.unknown_data_type
  else
    let data := { u.data with type := type, fp := file_handle.mk basefile 0 }
    match (if type = enum_bitmap then get_bitmap_info u.magic_bytes data
           else get_pcm_info u.find_string_buf data) with
    | Except.error e => Except.error e
    | Except.ok data1 =>
      match m with
      | MODE.hide =>
        let pload := { u.pload with size := (hidefile.length : Int) }
        match (if type = enum_bitmap then validate_bitmap data1.b pload
               else validate_wavfile data1.w pload) with
        | Except.error e => Except.error e
        | Except.ok _ => Except.ok (data1, pload)
      | MODE.recover => Except.ok (data1, { u.pload with size := payload_size })

/-! ## `file_io.c` and the writers of `bitmap.c` and `pcm.c` -/

/-- The call `rewind(fp)`. -/
def rewind (fp : file_handle) : file_handle :=
  { fp with pos := 0 }

/-- The file after `fwrite(bs, 1, n, out)` of the `n` bytes `bs`: they go to the
position indicator, over what the file holds there, and the indicator moves past
them; a gap left by a seek past the end of the file reads as zeros. -/
def fwrite_bytes (bs : List Nat) (out : file_handle) : file_handle :=
  { data := out.data.take out.pos ++ List.replicate (out.pos - out.data.length) 0 ++ bs ++
      out.data.drop (out.pos + bs.length)
    pos := out.pos + bs.length }

/-- A file just opened with mode "wb": empty, at position 0. -/
def fopen_wb : file_handle :=
  { data := [], pos := 0 }

/-- The function `block_copy`: the count `fwrite` returns, and the two files after
the call.  `junk n` is the indeterminate content of byte `n` of the buffer
`malloc(size)` returns; a negative `size` converts to a `size_t` no allocator can
serve, `malloc` returns `NULL` and the `fread` / `fwrite` through it have no
defined behaviour (`none`). -/
def block_copy (junk : Nat → Nat) (inp out : file_handle) (size : Int) :
    Option (Int × file_handle × file_handle) :=
  if size < 0 then none
  else
    let buf := (List.range size.toNat).map junk
    let r := fread_bytes size.toNat (rewind inp)
    let buf1 := store_bytes r.1 buf
    some (size, r.2, fwrite_bytes buf1 (rewind out))

/-- The function `write_bitmap_header`: the count, the container (its file read
by `block_copy`) and the target. -/
def write_bitmap_header (junk : Nat → Nat) (target : file_handle) (c : container) :
    Option (Int × container × file_handle) :=
  match block_copy junk c.fp target c.b.data_offset with
  | some r => some (r.1, { c with fp := r.2.1 }, r.2.2)
  | none => none

/-- The function `write_pcm_header`. -/
def write_pcm_header (junk : Nat → Nat) (target : file_handle) (c : container) :
    Option (Int × container × file_handle) :=
  match block_copy junk c.fp target c.w.data_offset with
  | some r => some (r.1, { c with fp := r.2.1 }, r.2.2)
  | none => none

/-- Inner `for (j = 0; j < rowlen; j++)` loop of `write_bitmap` on row `i`:
`w += fwrite(&pixel[i][j], 1, 1, out)`. -/
def write_bitmap_cols (pixel : List (List Nat)) (i : Nat) :
    Nat → Nat → file_handle → Int → Option (file_handle × Int)
  | 0, _, out, w => some (out, w)
  | n + 1, j, out, w =>
    match pixel_read pixel i j with
    | some x => write_bitmap_cols pixel i n (j + 1) (fwrite_bytes [x] out) (w + 1)
    | none => none

/-- Outer `for (i = 0; i < height; i++)` loop of `write_bitmap`. -/
def write_bitmap_rows (rowlen : Int) (pixel : List (List Nat)) :
    Nat → Nat → file_handle → Int → Option (file_handle × Int)
  | 0, _, out, w => some (out, w)
  | n + 1, i, out, w =>
    match write_bitmap_cols pixel i rowlen.toNat 0 out w with
    | some r => write_bitmap_rows rowlen pixel n (i + 1) r.1 r.2
    | none => none

/-- The function `write_bitmap`: the count `w` and the file written. -/
def write_bitmap (out : file_handle) (c : container) : Option (Int × file_handle) :=
  match write_bitmap_rows c.b.rowlen c.b.pixel c.b.height.toNat 0 (fseek_set out c.b.start) 0 with
  | some r => some (r.2, r.1)
  | none => none

/-- The `for` loop of `write_samples`: `fwrite(&samples[i], 1, 1, out)`. -/
def write_samples_loop (samples : List Nat) : Nat → Nat → file_handle → Option file_handle
  | 0, _, out => some out
  | n + 1, i, out =>
    match samples[i]? with
    | some x => write_samples_loop samples n (i + 1) (fwrite_bytes [x] out)
    | none => none

/-- The function `write_samples`: the final value of `i` and the file written. -/
def write_samples (out : file_handle) (c : container) : Option (Int × file_handle) :=
  match write_samples_loop c.w.samples c.w.subchunk2size.toNat 0
      (fseek_set out c.w.data_offset) with
  | some out1 => some ((c.w.subchunk2size.toNat : Int), out1)
  | none => none

/-- Inner loop of `get_bitmap` on row `i`: `pixel[i][j] = fgetc(fp); r++`. -/
def get_bitmap_cols (i : Nat) :
    Nat → Nat → file_handle → List (List Nat) → Int →
      Option (file_handle × List (List Nat) × Int)
  | 0, _, fp, pixel, r => some (fp, pixel, r)
  | n + 1, j, fp, pixel, r =>
    match pixel_read pixel i j with
    | some _ =>
      get_bitmap_cols i n (j + 1) (fgetc_byte fp).2 (pixel_write pixel i j (fgetc_byte fp).1)
        (r + 1)
    | none => none

/-- Outer loop of `get_bitmap`. -/
def get_bitmap_rows (rowlen : Int) :
    Nat → Nat → file_handle → List (List Nat) → Int →
      Option (file_handle × List (List Nat) × Int)
  | 0, _, fp, pixel, r => some (fp, pixel, r)
  | n + 1, i, fp, pixel, r =>
    match get_bitmap_cols i rowlen.toNat 0 fp pixel r with
    | some s => get_bitmap_rows rowlen n (i + 1) s.1 s.2.1 s.2.2
    | none => none

/-- The function `get_bitmap`: the count `r` and the container with the pixel
matrix loaded. -/
def get_bitmap (c : container) : Option (Int × container) :=
  match get_bitmap_rows c.b.rowlen c.b.height.toNat 0 (fseek_set c.fp c.b.start) c.b.pixel 0 with
  | some s => some (s.2.2, { c with fp := s.1, b := { c.b with pixel := s.2.1 } })
  | none => none

/-- The end of `main` in hide mode: the output file is opened, `write_header` and
`write_data` (the callbacks the `switch` on the type selected) write to it; the
result is the byte count `main` reports, the container and the output file. -/
def main_write_hide (junk : Nat → Nat) (c : container) :
    Option (Int × container × file_handle) :=
  if c.type = enum_bitmap then
    match write_bitmap_header junk fopen_wb c with
    | some h =>
      match write_bitmap h.2.2 h.2.1 with
      | some d => some (h.1 + d.1, h.2.1, d.2)
      | none => none
    | none => none
  else if c.type = enum_wavfile then
    match write_pcm_header junk fopen_wb c with
    | some h =>
      match write_samples h.2.2 h.2.1 with
      | some d => some (h.1 + d.1, h.2.1, d.2)
      | none => none
    | none => none
  else none

/-! ## Vocabulary of the proofs: loop invariants, store well-formedness, concrete inputs -/

/-- A bitmap record as `get_bitmap_info` leaves it: the header fields of a 24-bit
file, no derived value and no pixel store yet. -/
def bitmap_header_only : bitmap :=
  { data_offset := 54, width := 1, height := 1, depth := 24, start := 0, size := 0,
    pad := 0, rowlen := 0, pixel := [] }

/-- A 100 x 100 bitmap of depth 24 (Scenario A), with the derived fields
`init_pixel_matrix` computes for it and an all-zero pixel matrix. -/
def scenario_A : bitmap :=
  { data_offset := 54, width := 100, height := 100, depth := 24, start := 54, size := 3,
    pad := 0, rowlen := 300, pixel := List.replicate 100 (List.replicate 300 0) }

/-- The sample stream after the first `t` targets (indices `0, ss, .., (t-1)*ss`)
of `s0` have received their payload bit. -/
def pcm_cover_inv (ss : Nat) (bytes s0 : List Nat) (t : Nat) (cur : List Nat) : Prop :=
  cur.length = s0.length ∧
  ∀ m, cur[m]? =
    if m % ss = 0 ∧ m / ss < t then
      (s0[m]?).map (fun x => lsb_mix x (bytes.getD (m / ss / 8) 0) (m / ss))
    else s0[m]?

/-- Payload byte `n` after the bits of targets `8n, .., 8n+k-1` have been OR-ed
into the initial value `old`. -/
def pcm_gather (samples : List Nat) (ss n old : Nat) : Nat → Nat
  | 0 => old
  | k + 1 => lsb_collect (pcm_gather samples ss n old k)
      (samples.getD ((8 * n + k) * ss) 0) (8 * n + k)

/-- The payload buffer after `t` targets have been read, starting from `b0`. -/
def pcm_uncover_inv (samples : List Nat) (ss : Nat) (b0 : List Nat) (t : Nat)
    (cur : List Nat) : Prop :=
  cur.length = b0.length ∧
  ∀ n, cur[n]? = (b0[n]?).map (fun old => pcm_gather samples ss n old (min 8 (t - 8 * n)))

/-- A 16-bit mono WAV record with sixteen sample bytes, each `0x04`. -/
def wav_16 : pcm :=
  { chunkID := 0x46464952, chunkSize := 52, format := 0x45564157, subchunk1ID := 0x20746d66,
    subchunk1size := 16, audioformat := 1, channels := 1, rate := 8000,
    bytes_per_second := 16000, block_align := 2, depth := 16, subchunk2ID := 0x61746164,
    subchunk2size := 16, samples := List.replicate 16 4, data_offset := 44,
    sample_size := 2, total_samples := 8 }

/-- A 16-bit mono WAV record with thirty-two sample bytes, each `0x04`. -/
def wav_32 : pcm :=
  { wav_16 with
    chunkSize := 68, subchunk2size := 32, samples := List.replicate 32 4,
    total_samples := 16 }

/-- A WAV header whose frame size disagrees with its channel count: 16-bit
samples, `channels = 2` but `block_align = 1`, sixteen sample bytes; the derived
fields are not yet set. -/
def wav_short_frames : pcm :=
  { wav_16 with channels := 2, block_align := 1, sample_size := 0, total_samples := 0 }

/-- The record `wav_short_frames` with the derived fields the parser computes. -/
def wav_short_frames_parsed : pcm :=
  { wav_short_frames with sample_size := 2, total_samples := 32 }

/-- The pixel matrix after the usable bytes with scan index below `k` have
received their payload bit; the shape of the matrix is that of `px0`. -/
def bitmap_cover_inv (W : Nat) (bytes : List Nat) (px0 : List (List Nat)) (k : Nat)
    (px : List (List Nat)) : Prop :=
  px.map List.length = px0.map List.length ∧
  ∀ i c, pixel_read px i c =
    if c < W ∧ i * W + c < k then
      (pixel_read px0 i c).map
        (fun x => lsb_mix x (bytes.getD ((i * W + c) / 8) 0) (i * W + c))
    else pixel_read px0 i c

/-- Least-significant bit of the usable byte with scan index `m` (row `m / W`,
column `m % W`); `0` when the cell does not exist. -/
def usable_lsb (px : List (List Nat)) (W m : Nat) : Nat :=
  ((pixel_read px (m / W) (m % W)).getD 0) &&& 1

/-- State of the extract after `k` usable bytes: payload bytes below `k / 8` are
assembled from their eight carrier bits, the others still hold `b0`, and the
first `k % 8` slots of `bits` hold the bits of the byte in progress. -/
def bitmap_uncover_inv (W : Nat) (px : List (List Nat)) (b0 : List Nat) (k : Nat)
    (bits : Fin 8 → Nat) (cur : List Nat) : Prop :=
  cur.length = b0.length ∧
  (∀ n, cur[n]? =
    if n < k / 8 then
      (b0[n]?).map (fun _ => assemble (fun q => usable_lsb px W (8 * n + q.val)))
    else b0[n]?) ∧
  (∀ q : Fin 8, q.val < k % 8 → bits q = usable_lsb px W (k - k % 8 + q.val))

/-- A pixel store as the data model describes it: `pad` lies in `0..rowlen` and the
matrix holds (at least) `height` rows of (at least) `rowlen` bytes each. -/
def pixel_store (b : bitmap) : Prop :=
  0 ≤ b.pad ∧ b.pad ≤ b.rowlen ∧ b.height ≤ (b.pixel.length : Int) ∧
  ∀ row ∈ b.pixel, b.rowlen ≤ (row.length : Int)

instance (b : bitmap) : Decidable (pixel_store b) := by
  unfold pixel_store; infer_instance

/-- A 2 x 2 bitmap of depth 24: rows of 6 pixel bytes `0x04` and 2 pad bytes `0x09`. -/
def bitmap_2x2 : bitmap :=
  { data_offset := 54, width := 2, height := 2, depth := 24, start := 54, size := 3,
    pad := 2, rowlen := 8, pixel := [[4, 4, 4, 4, 4, 4, 9, 9], [4, 4, 4, 4, 4, 4, 9, 9]] }

/-- The store `px1` has the shape of `px` and agrees with it in bits 1 to 7 of
every byte. -/
def high_bits_kept (px px1 : List (List Nat)) : Prop :=
  px1.map List.length = px.map List.length ∧
  ∀ i j, (pixel_read px1 i j).map (fun x => x &&& 0xFE) =
    (pixel_read px i j).map (fun x => x &&& 0xFE)

/-- The sample stream `s1` has the length of `s` and agrees with it in bits 1 to 7
of every byte. -/
def sample_high_bits_kept (s s1 : List Nat) : Prop :=
  s1.length = s.length ∧
  ∀ m : Nat, (s1[m]?).map (fun x => x &&& 0xFE) = (s[m]?).map (fun x => x &&& 0xFE)

/-- The sample stream `s1` has the length of `s` and agrees with it at every index
that is not a multiple of `ss`. -/
def off_stride_kept (ss : Nat) (s s1 : List Nat) : Prop :=
  s1.length = s.length ∧ ∀ m : Nat, m % ss ≠ 0 → s1[m]? = s[m]?

/-- The four bytes of the file that start at position `q` are the tag `id`. -/
def tag_at (data : List Nat) (q : Nat) (id : List Nat) : Prop :=
  (data.drop q).take 4 = id

instance (data : List Nat) (q : Nat) (id : List Nat) : Decidable (tag_at data q id) := by
  unfold tag_at; infer_instance

instance {ε α : Type} [DecidableEq ε] [DecidableEq α] : DecidableEq (Except ε α) :=
  fun a b =>
    match a, b with
    | Except.ok x, Except.ok y =>
      if h : x = y then isTrue (congrArg Except.ok h)
      else isFalse (fun e => h (Except.ok.inj e))
    | Except.error x, Except.error y =>
      if h : x = y then isTrue (congrArg Except.error h)
      else isFalse (fun e => h (Except.error.inj e))
    | Except.ok _, Except.error _ => isFalse (fun e => Except.noConfusion e)
    | Except.error _, Except.ok _ => isFalse (fun e => Except.noConfusion e)

/-- A bitmap record with every field zero and no pixel matrix. -/
def blank_bitmap : bitmap :=
  { data_offset := 0, width := 0, height := 0, depth := 0, start := 0, size := 0, pad := 0,
    rowlen := 0, pixel := [] }

/-- A WAV record with every field zero and no sample store. -/
def blank_pcm : pcm :=
  { chunkID := 0, chunkSize := 0, format := 0, subchunk1ID := 0, subchunk1size := 0,
    audioformat := 0, channels := 0, rate := 0, bytes_per_second := 0, block_align := 0,
    depth := 0, subchunk2ID := 0, subchunk2size := 0, samples := [], data_offset := 0,
    sample_size := 0, total_samples := 0 }

/-- The container `main` hands to `get_info` for the base file `data`: the file
open at position 0, the given type tag, zeroed records. -/
def fresh_container (type : Int) (data : List Nat) : container :=
  { fp := file_handle.mk data 0, filesize := 0, type := type, b := blank_bitmap, w := blank_pcm }

/-- Zeroed contents for the objects of `uninitialised`. -/
def zeroed : uninitialised :=
  { find_type_b := List.replicate 12 0, magic_bytes := [0, 0],
    find_string_buf := fun _ => [0, 0, 0, 0],
    data := fresh_container 0 [], pload := payload.mk 0 [] }

/-- A 44-byte canonical WAV header: "RIFF", the chunk size, "WAVE", "fmt ", 16, the
format tag, the channel count, rate 8000, the byte rate, the frame size, the bit
depth, "data", the data length. -/
def wav_header (chunk_size audioformat channels block_align depth data_length : List Nat) :
    List Nat :=
  [82, 73, 70, 70] ++ chunk_size ++ [87, 65, 86, 69, 102, 109, 116, 32, 16, 0, 0, 0] ++
    audioformat ++ channels ++ [0x40, 0x1F, 0, 0, 0x80, 0x3E, 0, 0] ++ block_align ++ depth ++
    [100, 97, 116, 97] ++ data_length

/-- A 16-bit mono PCM file with four sample bytes `1, 2, 3, 4`, followed by a
12-byte "LIST" sub-chunk holding "INFO"; 60 bytes, chunk size 52. -/
def wav_with_trailing_chunk : List Nat :=
  wav_header [52, 0, 0, 0] [1, 0] [1, 0] [2, 0] [16, 0] [4, 0, 0, 0] ++ [1, 2, 3, 4] ++
    [76, 73, 83, 84, 4, 0, 0, 0, 73, 78, 70, 79]

/-- The header of Scenario C: PCM, 2 channels, frame size 4, 16 bits, 400 data bytes. -/
def wav_scenario_C : List Nat :=
  wav_header [180, 1, 0, 0] [1, 0] [2, 0] [4, 0] [16, 0] [144, 1, 0, 0]

/-- The header of Scenario D: format tag 2 (not PCM), mono, 16 bits, no "data"
sub-chunk at all. -/
def wav_scenario_D : List Nat :=
  [82, 73, 70, 70, 28, 0, 0, 0, 87, 65, 86, 69, 102, 109, 116, 32, 16, 0, 0, 0,
    2, 0, 1, 0, 0x40, 0x1F, 0, 0, 0x80, 0x3E, 0, 0, 2, 0, 16, 0]

/-- A file in which "data" stands at positions 0 and 8. -/
def two_data_tags : List Nat :=
  [100, 97, 116, 97, 0, 0, 0, 0, 100, 97, 116, 97]

/-- The first 30 bytes of a bitmap file whose header says width -4, height -2,
24 bits per pixel, pixel data at offset 54. -/
def bmp_negative_file : List Nat :=
  [66, 77, 70, 0, 0, 0, 0, 0, 0, 0, 54, 0, 0, 0, 40, 0, 0, 0,
    252, 255, 255, 255, 254, 255, 255, 255, 1, 0, 24, 0]

/-- A 70-byte bitmap file: the 54-byte header of a 2 x 2 image of depth 24 with the
pixel data at offset 54, then two rows of 6 pixel bytes `0x04` and 2 pad bytes
`0x09`. -/
def bmp_2x2_file : List Nat :=
  [66, 77, 70, 0, 0, 0, 0, 0, 0, 0, 54, 0, 0, 0, 40, 0, 0, 0, 2, 0, 0, 0, 2, 0, 0, 0, 1, 0,
    24, 0, 0, 0, 0, 0, 16, 0, 0, 0, 0, 0, 0, 0, 0, 0, 0, 0, 0, 0, 0, 0, 0, 0, 0, 0] ++
    [4, 4, 4, 4, 4, 4, 9, 9, 4, 4, 4, 4, 4, 4, 9, 9]

/-- The container of `bmp_2x2_file` as `main` holds it when it writes the output:
the header parsed, the store `bitmap_2x2` loaded. -/
def container_2x2 : container :=
  { fp := file_handle.mk bmp_2x2_file 70, filesize := 70, type := enum_bitmap, b := bitmap_2x2,
    w := blank_pcm }

/-- A canonical 44-byte PCM header that declares `0x7FFFFFFF` data bytes in
one-byte frames of two channels. -/
def wav_overflowing_samples : List Nat :=
  wav_header [36, 0, 0, 0] [1, 0] [2, 0] [1, 0] [16, 0] [255, 255, 255, 127]

/-- The 60-byte file of `wav_with_trailing_chunk` cut after its four sample bytes,
with the chunk size to match: a 48-byte PCM file with nothing after the data. -/
def wav_four_samples : List Nat :=
  wav_header [40, 0, 0, 0] [1, 0] [1, 0] [2, 0] [16, 0] [4, 0, 0, 0] ++ [1, 2, 3, 4]

/-- The container of `wav_four_samples` as `main` holds it when it writes the
output, the sample store holding `5, 2, 3, 4`. -/
def container_four_samples : container :=
  { fp := file_handle.mk wav_four_samples 48, filesize := 48, type := enum_wavfile,
    b := blank_bitmap
    w := { wav_16 with
      chunkSize := 40, subchunk2size := 4, samples := [5, 2, 3, 4], data_offset := 44,
      total_samples := 2 } }

/-- An 8-byte sample store of one-byte samples, each `0x04` (Scenario B). -/
def wav_8 : pcm :=
  { wav_16 with
    chunkSize := 44, block_align := 1, depth := 8, subchunk2size := 8,
    samples := List.replicate 8 4, sample_size := 1, total_samples := 8 }

/-- A pixel matrix that holds (at least) the usable cells of the geometry: `height`
rows of `rowlen - pad` bytes, with `pad` in `0..rowlen`. -/
def usable_store (b : bitmap) : Prop :=
  0 ≤ b.pad ∧ b.pad ≤ b.rowlen ∧ b.height ≤ (b.pixel.length : Int) ∧
  ∀ row ∈ b.pixel, b.rowlen - b.pad ≤ (row.length : Int)

instance (b : bitmap) : Decidable (usable_store b) := by
  unfold usable_store; infer_instance

/-- Every cell of the matrix holds a byte value. -/
def byte_valued (pixel : List (List Nat)) : Prop :=
  ∀ row ∈ pixel, ∀ x ∈ row, x < 256

instance (pixel : List (List Nat)) : Decidable (byte_valued pixel) := by
  unfold byte_valued; infer_instance

/-- The geometry of `bitmap_2x2` over a matrix cut down to its usable cells: two
rows of 6 bytes, no cell for the pad columns. -/
def bitmap_2x2_usable : bitmap :=
  { bitmap_2x2 with pixel := [[4, 4, 4, 4, 4, 4], [4, 4, 4, 4, 4, 4]] }

/-- The output file agrees with the source in its first `d` bytes, and its position
indicator stands at or after them. -/
def header_kept (d : Nat) (src : List Nat) (out : file_handle) : Prop :=
  out.data.take d = src.take d ∧ d ≤ out.pos ∧ d ≤ out.data.length

/-- The first 30 bytes of a bitmap file whose header says 4 x 2 pixels, 24 bits per
pixel, pixel data at offset 54. -/
def bmp_4x2_header : List Nat :=
  [66, 77, 78, 0, 0, 0, 0, 0, 0, 0, 54, 0, 0, 0, 40, 0, 0, 0,
    4, 0, 0, 0, 2, 0, 0, 0, 1, 0, 24, 0]

/-- A 2 x 3 bitmap of depth 24: three rows of 6 pixel bytes and 2 pad bytes; the
usable bytes with scan index 8 to 11 (row 1, columns 2 to 5) are `0x05`, the other
usable bytes `0x04`. -/
def bitmap_2x3 : bitmap :=
  { bitmap_2x2 with
    height := 3
    pixel := [[4, 4, 4, 4, 4, 4, 9, 9], [4, 4, 5, 5, 5, 5, 9, 9], [4, 4, 4, 4, 4, 4, 9, 9]] }

/-! # Theorems -/

/-! ## Arithmetic of the validators and of the padding -/

/-- For a positive divisor the truncating quotient is at least `8` exactly when
the dividend is at least `8` times the divisor. -/
theorem tdiv_ge_eight_iff (x s : Int) (hs : 1 ≤ s) : 8 ≤ Int.tdiv x s ↔ 8 * s ≤ x := by
  rcases le_or_lt 0 x with hx | hx
  · rw [Int.tdiv_eq_ediv hx (by omega)]
    constructor
    · intro h
      have h1 : x / s * s ≤ x := Int.ediv_mul_le x (by omega)
      nlinarith
    · intro h
      exact Int.le_ediv_of_mul_le (by omega) h
  · have h1 : Int.tdiv x s ≤ 0 := by
      have h2 : 0 ≤ Int.tdiv (-x) s := Int.tdiv_nonneg (by omega) (by omega)
      rw [Int.neg_tdiv] at h2
      omega
    constructor
    · intro h; omega
    · intro h; nlinarith

/-- A result inside the `int` range is stored unchanged. -/
theorem wrap32_of_range (x : Int) (h1 : -2147483648 ≤ x) (h2 : x ≤ 2147483647) :
    wrap32 x = x := by
  unfold wrap32; omega

/-- A stored `int` lies in the `int` range. -/
theorem wrap32_bounds (x : Int) : -2147483648 ≤ wrap32 x ∧ wrap32 x ≤ 2147483647 := by
  unfold wrap32; omega

/-- Reducing a non-negative result to 32 bits never makes it larger. -/
theorem wrap32_le_self (x : Int) (h : 0 ≤ x) : wrap32 x ≤ x := by
  unfold wrap32; omega

theorem validate_bitmap_ok_iff (b : bitmap) (p : payload) (hS : 1 ≤ p.size) :
    validate_bitmap b p = Except.ok () ↔
      b.depth = 24 ∧ 8 ≤ Int.tdiv (wrap32 (b.width * b.height)) p.size := by
  unfold validate_bitmap
  by_cases hd : b.depth = 24
  · have h0 : p.size ≠ 0 := by omega
    have h1 : p.size ≠ -1 := by omega
    by_cases hq : Int.tdiv (wrap32 (b.width * b.height)) p.size < 8
    · simp [hd, h0, h1, hq]
    · simp [hd, h0, h1, hq]; omega
  · simp [hd]

/-- The padding formula on the inputs of the padding law, in floor-division form,
when `depth * width + 31` is an `int`. -/
theorem calculate_padding_floor (width depth : Int) (hw : 0 ≤ width) (hd : 0 ≤ depth)
    (hrange : depth * width + 31 ≤ 2147483647) :
    calculate_padding width depth = 4 * ((depth * width + 31) / 32) - width * depth / 8 := by
  unfold calculate_padding
  have h1 : 0 ≤ width * depth := Int.mul_nonneg hw hd
  have hc : depth * width = width * depth := Int.mul_comm _ _
  have h2 : 0 ≤ depth * width + 31 := by omega
  rw [wrap32_of_range (width * depth) (by omega) (by omega),
    wrap32_of_range (depth * width) (by omega) (by omega),
    wrap32_of_range (depth * width + 31) (by omega) (by omega)]
  rw [Int.tdiv_eq_ediv h1 (by omega), Int.tdiv_eq_ediv h2 (by omega)]

/-- Counterexample to C8 as stated: `24 * 100000000` does not fit an `int`; the
program computes pad = 4 for width 100000000, outside `0..3`, where the formula
over the integers gives 0.  For width 89478485 it is the sum `24*width + 31` that
leaves the `int` range: the pad is negative, and so is the `rowlen` that
`init_pixel_matrix` derives, so no row can be allocated. -/
theorem padding_overflows_int :
    (1 : Int) ≤ 100000000 ∧ calculate_padding 100000000 24 = 4 ∧
    4 * ((24 * 100000000 + 31) / 32) - 100000000 * 24 / 8 = (0 : Int) ∧
    (1 : Int) ≤ 89478485 ∧ calculate_padding 89478485 24 = -536870907 ∧
    (∀ junk : Nat → Nat → Nat,
      init_pixel_matrix junk { bitmap_header_only with width := 89478485, height := 1 } =
        none) := by
  refine ⟨by decide, by decide, by decide, by decide, by decide, ?_⟩
  intro junk
  rfl

/-- C8 (amended): for every width >= 1 and depth in {8, 16, 24, 32} for which
`depth*width + 31` is at most `2^31 - 1`, `calculate_padding` equals
`4*floor((depth*width + 31)/32) - width*depth/8`, lies in `0..3`, makes
`width*depth/8 + pad` a multiple of 4 and is the least non-negative value doing
so; for depth 24 the `rowlen` that `init_pixel_matrix` derives is `3*width + pad`
and a multiple of 4. -/
theorem padding_law (width depth : Int) (hw : 1 ≤ width)
    (hd : depth = 8 ∨ depth = 16 ∨ depth = 24 ∨ depth = 32)
    (hrange : depth * width + 31 ≤ 2147483647) :
    calculate_padding width depth = 4 * ((depth * width + 31) / 32) - width * depth / 8 ∧
    0 ≤ calculate_padding width depth ∧ calculate_padding width depth ≤ 3 ∧
    (width * depth / 8 + calculate_padding width depth) % 4 = 0 ∧
    (∀ q : Int, 0 ≤ q → (width * depth / 8 + q) % 4 = 0 → calculate_padding width depth ≤ q) ∧
    (depth = 24 → ∀ (junk : Nat → Nat → Nat) (b : bitmap), b.width = width → b.depth = 24 →
      0 ≤ b.height → ∃ b1, init_pixel_matrix junk b = some b1 ∧
        b1.pad = calculate_padding width 24 ∧ b1.rowlen = 3 * width + b1.pad ∧
        b1.rowlen % 4 = 0) := by
  have hf := calculate_padding_floor width depth (by omega) (by omega) hrange
  refine ⟨hf, ?_, ?_, ?_, ?_, ?_⟩
  · rw [hf]; rcases hd with h | h | h | h <;> subst h <;> omega
  · rw [hf]; rcases hd with h | h | h | h <;> subst h <;> omega
  · rw [hf]; rcases hd with h | h | h | h <;> subst h <;> omega
  · intro q hq hm
    rw [hf]; rcases hd with h | h | h | h <;> subst h <;> omega
  · intro h24 junk b hbw hbd hbh
    subst h24
    have hsz : Int.tdiv (24 : Int) 8 = 3 := by decide
    have hr : 0 ≤ 3 * width + calculate_padding width 24 := by rw [hf]; omega
    have hr2 : 3 * width + calculate_padding width 24 ≤ 2147483647 := by rw [hf]; omega
    have hrl : wrap32 (wrap32 (Int.tdiv b.depth 8 * b.width) +
        calculate_padding b.width b.depth) = 3 * width + calculate_padding width 24 := by
      rw [hbw, hbd, hsz, wrap32_of_range (3 * width) (by omega) (by omega),
        wrap32_of_range _ (by omega) hr2]
    unfold init_pixel_matrix
    simp only [hrl]
    rw [if_neg (by omega), if_neg (by omega)]
    refine ⟨_, rfl, ?_, ?_, ?_⟩
    · simp only [hbw, hbd]
    · simp only [hbw, hbd]
    · simp only
      rw [hf]; omega

/-- Witness for C8 (amended): a 5-pixel-wide, 24-bit row needs one pad byte. -/
theorem padding_law_witness :
    (1 : Int) ≤ 5 ∧ (24 : Int) * 5 + 31 ≤ 2147483647 ∧ calculate_padding 5 24 = 1 ∧
      0 ≤ calculate_padding 5 24 ∧
      calculate_padding 5 24 ≤ 3 ∧ (5 * 24 / 8 + calculate_padding 5 24) % 4 = 0 :=
  have h := padding_law 5 24 (by decide) (by decide) (by decide)
  ⟨by decide, by decide, by decide, h.2.1, h.2.2.1, h.2.2.2.1⟩

/-- Counterexample to C6 as stated: for width = height = 65536, depth 24 and a
one-byte payload the integer quotient `(width*height) / S` is 4294967296, yet the
`int` product is 0 and `validate_bitmap` rejects; for width -3 and height
1431655760 the integer quotient is negative, yet the `int` product is 16 and
`validate_bitmap` accepts. -/
theorem bitmap_gate_overflow :
    (8 : Int) ≤ Int.tdiv (65536 * 65536) 1 ∧
    validate_bitmap { bitmap_header_only with width := 65536, height := 65536 }
      (payload.mk 1 [0]) = Except.error Failure.insufficient_capacity ∧
    ¬ ((8 : Int) ≤ Int.tdiv (-3 * 1431655760) 1) ∧
    validate_bitmap { bitmap_header_only with width := -3, height := 1431655760 }
      (payload.mk 1 [0]) = Except.ok () := by
  refine ⟨by decide, by decide, by decide, by decide⟩

/-- C6 (amended): for every width, height, depth and payload size S >= 1,
`validate_bitmap` accepts exactly when depth = 24 and the `int` quotient of the
32-bit product `width*height` by `S` is at least 8.  When `width*height` lies in
`-2^31 .. 2^31 - 1` that is the quotient `(width*height) / S` (so the test is
equivalent to `8*S <= width*height`); `validate_bitmap` then accepts at quotient 8
and rejects, with the capacity error when depth = 24, at quotient 7. -/
theorem bitmap_capacity_gate (b : bitmap) (p : payload) (hS : 1 ≤ p.size) :
    (validate_bitmap b p = Except.ok () ↔
      b.depth = 24 ∧ 8 ≤ Int.tdiv (wrap32 (b.width * b.height)) p.size) ∧
    (-2147483648 ≤ b.width * b.height → b.width * b.height ≤ 2147483647 →
      (validate_bitmap b p = Except.ok () ↔
        b.depth = 24 ∧ 8 ≤ Int.tdiv (b.width * b.height) p.size) ∧
      (validate_bitmap b p = Except.ok () ↔
        b.depth = 24 ∧ 8 * p.size ≤ b.width * b.height) ∧
      (b.depth = 24 → Int.tdiv (b.width * b.height) p.size = 8 →
        validate_bitmap b p = Except.ok ()) ∧
      (Int.tdiv (b.width * b.height) p.size = 7 → validate_bitmap b p ≠ Except.ok ()) ∧
      (b.depth = 24 → Int.tdiv (b.width * b.height) p.size = 7 →
        validate_bitmap b p = Except.error Failure.insufficient_capacity)) := by
  have h := validate_bitmap_ok_iff b p hS
  refine ⟨h, ?_⟩
  intro hlo hhi
  rw [wrap32_of_range _ hlo hhi] at h
  refine ⟨h, ?_, ?_, ?_, ?_⟩
  · rw [h, tdiv_ge_eight_iff _ _ hS]
  · intro hd hq
    rw [h]; exact ⟨hd, by omega⟩
  · intro hq hok
    rw [h] at hok; omega
  · intro hd hq
    unfold validate_bitmap
    have h0 : p.size ≠ 0 := by omega
    have h1 : p.size ≠ -1 := by omega
    rw [wrap32_of_range _ hlo hhi]
    simp [hd, h0, h1, hq]

/-- Witness for C6 (amended): a 100 x 100 bitmap and a 1250-byte payload sit
exactly at quotient 8. -/
theorem bitmap_capacity_gate_witness :
    (1 : Int) ≤ (payload.mk 1250 (List.replicate 1250 0)).size ∧
      validate_bitmap scenario_A (payload.mk 1250 (List.replicate 1250 0)) = Except.ok () :=
  ⟨by decide,
   ((bitmap_capacity_gate scenario_A (payload.mk 1250 (List.replicate 1250 0))
      (by decide)).2 (by decide) (by decide)).2.2.1 (by decide) (by decide)⟩

/-- Counterexample to C5 as stated: the 100 x 100 x 24 bitmap has 10000 pixels, so a
3750-byte payload (quotient 2) is rejected, and so is already a 1251-byte one. -/
theorem scenario_A_rejects_3750 :
    validate_bitmap scenario_A (payload.mk 3750 (List.replicate 3750 0)) =
        Except.error Failure.insufficient_capacity ∧
      validate_bitmap scenario_A (payload.mk 1251 (List.replicate 1251 0)) =
        Except.error Failure.insufficient_capacity := by
  constructor <;> rfl

/-- C5 (amended): for a bitmap with width = 100, height = 100 and depth = 24,
`validate_bitmap` accepts a payload of S >= 1 bytes exactly when S <= 1250; in
particular it rejects 1251, 3750 and 3751 bytes. -/
theorem scenario_A_capacity (b : bitmap) (p : payload) (hw : b.width = 100)
    (hh : b.height = 100) (hd : b.depth = 24) (hS : 1 ≤ p.size) :
    (validate_bitmap b p = Except.ok () ↔ p.size ≤ 1250) ∧
    (1251 ≤ p.size → validate_bitmap b p = Except.error Failure.insufficient_capacity) := by
  have h := validate_bitmap_ok_iff b p hS
  have hprod : wrap32 (b.width * b.height) = 10000 := by rw [hw, hh]; decide
  rw [tdiv_ge_eight_iff _ _ hS, hprod] at h
  constructor
  · rw [h]; constructor
    · intro ⟨_, h2⟩; omega
    · intro h2; exact ⟨hd, by omega⟩
  · intro h2
    unfold validate_bitmap
    have h0 : p.size ≠ 0 := by omega
    have h1 : p.size ≠ -1 := by omega
    have hq : Int.tdiv (wrap32 (b.width * b.height)) p.size < 8 := by
      by_contra hc
      have := (tdiv_ge_eight_iff (wrap32 (b.width * b.height)) p.size hS).1 (by omega)
      rw [hprod] at this
      omega
    simp [hd, h0, h1, hq]

/-- Witness for C5 (amended): 3751 bytes are rejected by the 100 x 100 bitmap. -/
theorem scenario_A_capacity_witness :
    scenario_A.width = 100 ∧ scenario_A.height = 100 ∧ scenario_A.depth = 24 ∧
      validate_bitmap scenario_A (payload.mk 3751 (List.replicate 3751 0)) =
        Except.error Failure.insufficient_capacity :=
  ⟨rfl, rfl, rfl,
   (scenario_A_capacity scenario_A (payload.mk 3751 (List.replicate 3751 0)) rfl rfl rfl
     (by decide)).2 (by decide)⟩

/-! ## The WAV embed loop -/

theorem bytecount_step (t : Nat) :
    (if (t + 1) % 8 = 0 then t / 8 + 1 else t / 8) = (t + 1) / 8 := by
  split <;> omega

theorem target_index_iff (ss t m : Nat) (hss : 1 ≤ ss) :
    (m % ss = 0 ∧ m / ss < t + 1) ↔ (m % ss = 0 ∧ m / ss < t) ∨ m = t * ss := by
  constructor
  · rintro ⟨h1, h2⟩
    by_cases h3 : m / ss < t
    · exact Or.inl ⟨h1, h3⟩
    · right
      have h4 : m / ss = t := by omega
      have h5 := Nat.div_add_mod m ss
      rw [h1, h4] at h5
      rw [← h5]; ring
  · rintro (⟨h1, h2⟩ | h)
    · exact ⟨h1, by omega⟩
    · subst h
      rw [Nat.mul_mod_left, Nat.mul_div_cancel _ (by omega)]
      exact ⟨rfl, by omega⟩

theorem pcm_cover_inv_step (ss : Nat) (bytes s0 : List Nat) (t : Nat) (cur : List Nat)
    (hss : 1 ≤ ss) (hinv : pcm_cover_inv ss bytes s0 t cur) (x : Nat)
    (hx : cur[t * ss]? = some x) :
    pcm_cover_inv ss bytes s0 (t + 1)
      (cur.set (t * ss) (lsb_mix x (bytes.getD (t / 8) 0) t)) := by
  obtain ⟨hl, hpt⟩ := hinv
  refine ⟨by rw [List.length_set, hl], ?_⟩
  intro m
  have hx0 : s0[t * ss]? = some x := by
    have := hpt (t * ss)
    rw [if_neg] at this
    · rw [← this]; exact hx
    · rw [Nat.mul_div_cancel _ (by omega : 0 < ss)]; omega
  have hlt : t * ss < cur.length := by
    rcases Nat.lt_or_ge (t * ss) cur.length with h | h
    · exact h
    · rw [List.getElem?_eq_none h] at hx; cases hx
  rw [List.getElem?_set]
  by_cases hm : t * ss = m
  · subst hm
    rw [if_pos rfl, if_pos hlt, if_pos, hx0]
    · simp [Nat.mul_div_cancel _ (by omega : 0 < ss)]
    · rw [Nat.mul_mod_left, Nat.mul_div_cancel _ (by omega : 0 < ss)]
      exact ⟨rfl, by omega⟩
  · rw [if_neg hm, hpt m]
    have hiff := target_index_iff ss t m hss
    by_cases hc : m % ss = 0 ∧ m / ss < t
    · rw [if_pos hc, if_pos (hiff.2 (Or.inl hc))]
    · rw [if_neg hc, if_neg]
      intro h
      rcases hiff.1 h with h1 | h1
      · exact hc h1
      · exact hm h1.symm

theorem pcm_cover_loop_inv (sub ss S : Nat) (p : payload) (s0 : List Nat) (hss : 1 ≤ ss)
    (hS : p.size = (S : Int)) (hlen : p.bytes.length = S) (hsub : sub ≤ s0.length) :
    ∀ (fuel t : Nat) (cur : List Nat), pcm_cover_inv ss p.bytes s0 t cur → t < 8 * S →
      1 ≤ fuel → sub + 1 ≤ fuel + t →
      ∃ out T, pcm_cover_loop (sub : Int) (ss : Int) p fuel ((t * ss : Nat) : Int) cur t (t / 8)
          = some out ∧
        pcm_cover_inv ss p.bytes s0 T out ∧ t ≤ T ∧ T ≤ 8 * S ∧
        (T = 8 * S ∨ sub ≤ T * ss) := by
  intro fuel
  induction fuel with
  | zero => intro t cur _ _ h; omega
  | succ fuel ih =>
    intro t cur hinv ht _ hfuel
    unfold pcm_cover_loop
    by_cases hi : t * ss < sub
    · have hi1 : ((t * ss : Nat) : Int) < (sub : Int) := by exact_mod_cast hi
      have hi2 : ¬ ((t * ss : Nat) : Int) < 0 := by omega
      rw [if_pos hi1, if_neg hi2]
      have hl := hinv.1
      have hx : t * ss < cur.length := by omega
      have hb : t / 8 < p.bytes.length := by omega
      have hxe : cur[((t * ss : Nat) : Int).toNat]? = some cur[t * ss] := by
        rw [Int.toNat_ofNat]; exact List.getElem?_eq_getElem hx
      have hbe : p.bytes[t / 8]? = some p.bytes[t / 8] := List.getElem?_eq_getElem hb
      rw [hxe, hbe]
      simp only [Int.toNat_ofNat, bytecount_step]
      have hgd : p.bytes[t / 8] = p.bytes.getD (t / 8) 0 := by
        rw [List.getD_eq_getElem?_getD, hbe]; rfl
      have hstep := pcm_cover_inv_step ss p.bytes s0 t cur hss hinv cur[t * ss]
        (List.getElem?_eq_getElem hx)
      rw [← hgd] at hstep
      by_cases hdone : (t + 1) / 8 = S
      · have hd1 : (((t + 1) / 8 : Nat) : Int) = p.size := by rw [hS, hdone]
        rw [if_pos hd1]
        exact ⟨_, t + 1, rfl, hstep, by omega, by omega, Or.inl (by omega)⟩
      · have hd1 : ¬ (((t + 1) / 8 : Nat) : Int) = p.size := by
          rw [hS]; intro h; exact hdone (by exact_mod_cast h)
        rw [if_neg hd1]
        have hcast : ((t * ss : Nat) : Int) + (ss : Int) = (((t + 1) * ss : Nat) : Int) := by
          push_cast; ring
        rw [hcast]
        have ht1 : t < sub := by
          calc t ≤ t * ss := Nat.le_mul_of_pos_right t (by omega)
            _ < sub := hi
        obtain ⟨out, T, h1, h2, h3, h4, h5⟩ :=
          ih (t + 1) _ hstep (by omega) (by omega) (by omega)
        exact ⟨out, T, h1, h2, by omega, h4, h5⟩
    · have hi1 : ¬ ((t * ss : Nat) : Int) < (sub : Int) := by
        intro h; exact hi (by exact_mod_cast h)
      rw [if_neg hi1]
      exact ⟨cur, t, rfl, hinv, le_refl _, by omega, Or.inr (by omega)⟩

/-! ## The WAV extract loop -/

theorem pcm_uncover_inv_step (samples : List Nat) (ss : Nat) (b0 : List Nat) (t : Nat)
    (cur : List Nat) (hinv : pcm_uncover_inv samples ss b0 t cur) (old : Nat)
    (hold : cur[t / 8]? = some old) :
    pcm_uncover_inv samples ss b0 (t + 1)
      (cur.set (t / 8) (lsb_collect old (samples.getD (t * ss) 0) t)) := by
  obtain ⟨hl, hpt⟩ := hinv
  refine ⟨by rw [List.length_set, hl], ?_⟩
  intro n
  have hlt : t / 8 < cur.length := by
    rcases Nat.lt_or_ge (t / 8) cur.length with h | h
    · exact h
    · rw [List.getElem?_eq_none h] at hold; cases hold
  rw [List.getElem?_set]
  by_cases hn : t / 8 = n
  · subst hn
    rw [if_pos rfl, if_pos hlt]
    have h1 := hpt (t / 8)
    rw [hold] at h1
    have hm1 : min 8 (t - 8 * (t / 8)) = t % 8 := by omega
    have hm2 : min 8 (t + 1 - 8 * (t / 8)) = t % 8 + 1 := by omega
    rw [hm1] at h1
    rw [hm2]
    cases hb : b0[t / 8]? with
    | none => rw [hb] at h1; cases h1
    | some o =>
      rw [hb] at h1
      simp only [Option.map_some'] at h1 ⊢
      have h2 : old = pcm_gather samples ss (t / 8) o (t % 8) := by
        injection h1
      have h3 : 8 * (t / 8) + t % 8 = t := by omega
      rw [pcm_gather, h3, ← h2]
  · rw [if_neg hn, hpt n]
    have hm : min 8 (t + 1 - 8 * n) = min 8 (t - 8 * n) := by omega
    rw [hm]

theorem pcm_uncover_loop_inv (sub ss S : Nat) (samples b0 : List Nat)
    (hsub : sub ≤ samples.length) (hb0 : b0.length = S) (hcap : (8 * S - 1) * ss < sub) :
    ∀ (fuel t : Nat) (cur : List Nat), pcm_uncover_inv samples ss b0 t cur → t < 8 * S →
      8 * S ≤ fuel + t →
      ∃ out, pcm_uncover_loop (sub : Int) (ss : Int) (S : Int) samples fuel
          ((t * ss : Nat) : Int) cur t (t / 8) = some out ∧
        pcm_uncover_inv samples ss b0 (8 * S) out := by
  intro fuel
  induction fuel with
  | zero => intro t cur _ h1 h2; omega
  | succ fuel ih =>
    intro t cur hinv ht hfuel
    unfold pcm_uncover_loop
    have hi : t * ss < sub := by
      calc t * ss ≤ (8 * S - 1) * ss := Nat.mul_le_mul_right ss (by omega)
        _ < sub := hcap
    have hi1 : ((t * ss : Nat) : Int) < (sub : Int) := by exact_mod_cast hi
    have hi2 : ¬ ((t * ss : Nat) : Int) < 0 := by omega
    rw [if_pos hi1, if_neg hi2]
    have hl := hinv.1
    have hx : t * ss < samples.length := by omega
    have hb : t / 8 < cur.length := by omega
    have hxe : samples[((t * ss : Nat) : Int).toNat]? = some samples[t * ss] := by
      rw [Int.toNat_ofNat]; exact List.getElem?_eq_getElem hx
    have hbe : cur[t / 8]? = some cur[t / 8] := List.getElem?_eq_getElem hb
    rw [hxe, hbe]
    simp only [bytecount_step]
    have hgd : samples[t * ss] = samples.getD (t * ss) 0 := by
      rw [List.getD_eq_getElem?_getD, List.getElem?_eq_getElem hx]; rfl
    have hstep := pcm_uncover_inv_step samples ss b0 t cur hinv cur[t / 8] hbe
    rw [← hgd] at hstep
    by_cases hdone : (t + 1) / 8 = S
    · have hd1 : (((t + 1) / 8 : Nat) : Int) = (S : Int) := by rw [hdone]
      rw [if_pos hd1]
      have ht8 : t + 1 = 8 * S := by omega
      rw [ht8] at hstep
      exact ⟨_, rfl, hstep⟩
    · have hd1 : ¬ (((t + 1) / 8 : Nat) : Int) = (S : Int) := by
        intro h; exact hdone (by exact_mod_cast h)
      rw [if_neg hd1]
      have hcast : ((t * ss : Nat) : Int) + (ss : Int) = (((t + 1) * ss : Nat) : Int) := by
        push_cast; ring
      rw [hcast]
      exact ih (t + 1) _ hstep (by omega) (by omega)

/-! ## Bit arithmetic of the codec -/

theorem lsb_mix_mod_two (x byte t : Nat) :
    lsb_mix x byte t % 2 = (byte >>> (7 - t % 8)) % 2 := by
  unfold lsb_mix
  rw [Nat.mod_mod_of_dvd _ (by decide : 2 ∣ 256)]
  have h1 : (1 &&& (byte >>> (7 - t % 8))) = (byte >>> (7 - t % 8)) % 2 := by
    rw [Nat.and_comm, Nat.and_one_is_mod]
  rw [h1]
  have hb : (byte >>> (7 - t % 8)) % 2 < 2 := Nat.mod_lt _ (by decide)
  generalize (byte >>> (7 - t % 8)) % 2 = b at hb
  have key : ((x &&& 0xFFFFFFFE) ||| b).testBit 0 = b.testBit 0 := by
    rw [Nat.testBit_or, Nat.testBit_and]
    have : (0xFFFFFFFE : Nat).testBit 0 = false := by decide
    rw [this]; simp
  rw [Nat.testBit_zero, Nat.testBit_zero] at key
  simp only [decide_eq_decide] at key
  omega

set_option maxRecDepth 100000 in
/-- OR-ing the eight bits of a byte, most significant first, into `0` rebuilds the byte. -/
theorem collect_bits_of_byte : ∀ byte, byte < 256 →
    ((((((((0 ||| ((byte >>> 7) % 2) <<< 7) % 256 ||| ((byte >>> 6) % 2) <<< 6) % 256 |||
      ((byte >>> 5) % 2) <<< 5) % 256 ||| ((byte >>> 4) % 2) <<< 4) % 256 |||
      ((byte >>> 3) % 2) <<< 3) % 256 ||| ((byte >>> 2) % 2) <<< 2) % 256 |||
      ((byte >>> 1) % 2) <<< 1) % 256 ||| ((byte >>> 0) % 2) <<< 0) % 256 = byte := by
  decide

set_option maxRecDepth 100000 in
/-- The byte `assemble` builds from the eight bits of a byte is the byte. -/
theorem assemble_bits_of_byte : ∀ byte, byte < 256 →
    assemble (fun k => (byte >>> (7 - k.val)) % 2) = byte := by
  decide

/-! ## `pcm_cover` and `pcm_uncover` as functions of the store -/

theorem pcm_cover_inv_init (ss : Nat) (bytes s0 : List Nat) : pcm_cover_inv ss bytes s0 0 s0 :=
  ⟨rfl, fun m => by rw [if_neg (fun h => Nat.not_lt_zero _ h.2)]⟩

theorem pcm_uncover_inv_init (samples : List Nat) (ss : Nat) (b0 : List Nat) :
    pcm_uncover_inv samples ss b0 0 b0 := by
  refine ⟨rfl, fun n => ?_⟩
  have : min 8 (0 - 8 * n) = 0 := by omega
  rw [this]
  cases b0[n]? <;> simp [pcm_gather]

/-- The embed loop on a store of `subchunk2size` bytes: it returns, and the result
is the store with the first `T` targets rewritten, `T` being `8 * size` unless
the store ends first. -/
theorem pcm_cover_spec (w : pcm) (p : payload) (fuel : Nat)
    (hstore : (w.samples.length : Int) = w.subchunk2size) (hss : 1 ≤ w.sample_size)
    (hS : 1 ≤ p.size) (hp : (p.bytes.length : Int) = p.size)
    (hfuel : w.subchunk2size < fuel) :
    ∃ out T, pcm_cover fuel w p = some { w with samples := out } ∧
      pcm_cover_inv w.sample_size.toNat p.bytes w.samples T out ∧
      T ≤ 8 * p.size.toNat ∧
      (T = 8 * p.size.toNat ∨ w.samples.length ≤ T * w.sample_size.toNat) := by
  have hss1 : w.sample_size = ((w.sample_size.toNat : Nat) : Int) :=
    (Int.toNat_of_nonneg (by omega)).symm
  have hS1 : p.size = ((p.size.toNat : Nat) : Int) := (Int.toNat_of_nonneg (by omega)).symm
  obtain ⟨out, T, h1, h2, _, h4, h5⟩ :=
    pcm_cover_loop_inv w.samples.length w.sample_size.toNat p.size.toNat p w.samples
      (by omega) hS1 (by omega) (le_refl _) fuel 0 w.samples
      (pcm_cover_inv_init _ _ _) (by omega) (by omega) (by omega)
  refine ⟨out, T, ?_, h2, h4, h5⟩
  unfold pcm_cover
  rw [hstore, ← hss1] at h1
  simp only [Nat.zero_mul, Nat.zero_div, Nat.cast_zero] at h1
  rw [h1]

/-- The extract loop on a store that holds `8 * size` targets: it returns, and
byte `n` of the result is the initial byte `n` with eight carrier bits OR-ed in. -/
theorem pcm_uncover_spec (w : pcm) (p : payload) (fuel : Nat)
    (hstore : (w.samples.length : Int) = w.subchunk2size) (hss : 1 ≤ w.sample_size)
    (hS : 1 ≤ p.size) (hp : (p.bytes.length : Int) = p.size)
    (hcap : (8 * p.size.toNat - 1) * w.sample_size.toNat < w.samples.length)
    (hfuel : 8 * p.size ≤ fuel) :
    ∃ out, pcm_uncover fuel w p = some { p with bytes := out } ∧
      out.length = p.bytes.length ∧
      ∀ n, out[n]? = (p.bytes[n]?).map
        (fun old => pcm_gather w.samples w.sample_size.toNat n old 8) := by
  have hss1 : w.sample_size = ((w.sample_size.toNat : Nat) : Int) :=
    (Int.toNat_of_nonneg (by omega)).symm
  have hS1 : p.size = ((p.size.toNat : Nat) : Int) := (Int.toNat_of_nonneg (by omega)).symm
  obtain ⟨out, h1, h2, h3⟩ :=
    pcm_uncover_loop_inv w.samples.length w.sample_size.toNat p.size.toNat w.samples p.bytes
      (le_refl _) (by omega) hcap fuel 0 p.bytes
      (pcm_uncover_inv_init _ _ _) (by omega) (by omega)
  refine ⟨out, ?_, h2, ?_⟩
  · unfold pcm_uncover
    rw [hstore, ← hss1, ← hS1] at h1
    simp only [Nat.zero_mul, Nat.zero_div, Nat.cast_zero] at h1
    rw [h1]
  · intro n
    rw [h3 n]
    cases hb : p.bytes[n]? with
    | none => rfl
    | some o =>
      have hn : n < p.bytes.length := by
        rcases Nat.lt_or_ge n p.bytes.length with h | h
        · exact h
        · rw [List.getElem?_eq_none h] at hb; cases hb
      have : min 8 (8 * p.size.toNat - 8 * n) = 8 := by omega
      simp only [Option.map_some', this]

/-- From the capacity condition in `ceil` form to the index of the last target. -/
theorem last_target_of_ceil (sub ss S : Int) (hss : 1 ≤ ss) (hS : 1 ≤ S)
    (h : 8 * S ≤ (sub + ss - 1) / ss) : (8 * S.toNat - 1) * ss.toNat < sub.toNat := by
  have h1 : (sub + ss - 1) / ss * ss ≤ sub + ss - 1 := Int.ediv_mul_le _ (by omega)
  have h2 : 8 * S * ss ≤ sub + ss - 1 := by
    have : 8 * S * ss ≤ (sub + ss - 1) / ss * ss := Int.mul_le_mul_of_nonneg_right h (by omega)
    omega
  have h3 : ((8 * S.toNat - 1 : Nat) : Int) = 8 * S - 1 := by omega
  have h4 : (ss.toNat : Int) = ss := Int.toNat_of_nonneg (by omega)
  have h5 : 0 ≤ sub := by nlinarith
  have h6 : (sub.toNat : Int) = sub := Int.toNat_of_nonneg h5
  have h7 : (((8 * S.toNat - 1) * ss.toNat : Nat) : Int) < (sub.toNat : Int) := by
    rw [Nat.cast_mul, h3, h4, h6]
    nlinarith
  exact_mod_cast h7

/-- A target the embed loop reached holds its old value with the payload bit mixed in. -/
theorem pcm_covered_target (ss : Nat) (bytes s0 out : List Nat) (T t : Nat) (hss : 1 ≤ ss)
    (hinv : pcm_cover_inv ss bytes s0 T out) (ht : t < T) (hin : t * ss < s0.length) :
    ∃ x, s0[t * ss]? = some x ∧
      out[t * ss]? = some (lsb_mix x (bytes.getD (t / 8) 0) t) := by
  refine ⟨s0[t * ss], List.getElem?_eq_getElem hin, ?_⟩
  have h := hinv.2 (t * ss)
  rw [if_pos, List.getElem?_eq_getElem hin] at h
  · rw [h]
    simp [Nat.mul_div_cancel _ (by omega : 0 < ss)]
  · rw [Nat.mul_mod_left, Nat.mul_div_cancel _ (by omega : 0 < ss)]
    exact ⟨rfl, ht⟩

/-- The carrier bit the extract reads at target `8n + k` of an embedded store is
bit `7 - k` of payload byte `n`. -/
theorem pcm_gather_bit (ss S : Nat) (bytes s0 out : List Nat) (hss : 1 ≤ ss)
    (hinv : pcm_cover_inv ss bytes s0 (8 * S) out) (hcap : (8 * S - 1) * ss < s0.length)
    (n : Nat) (hn : n < S) (k s : Nat) (hks : k + s = 7) :
    ((out.getD ((8 * n + k) * ss) 0) &&& 1) <<< (7 - (8 * n + k) % 8) =
      ((bytes.getD n 0 >>> s) % 2) <<< s := by
  have hin : (8 * n + k) * ss < s0.length := by
    calc (8 * n + k) * ss ≤ (8 * S - 1) * ss := Nat.mul_le_mul_right ss (by omega)
      _ < s0.length := hcap
  obtain ⟨x, _, hx⟩ := pcm_covered_target ss bytes s0 out (8 * S) (8 * n + k) hss hinv
    (by omega) hin
  have h1 : (8 * n + k) / 8 = n := by omega
  have h2 : 7 - (8 * n + k) % 8 = s := by omega
  rw [List.getD_eq_getElem?_getD, hx, Option.getD_some, Nat.and_one_is_mod, lsb_mix_mod_two,
    h1, h2]

/-- Extracting into a zero byte from an embedded store rebuilds the payload byte. -/
theorem pcm_gather_covered (ss S : Nat) (bytes s0 out : List Nat) (hss : 1 ≤ ss)
    (hinv : pcm_cover_inv ss bytes s0 (8 * S) out) (hcap : (8 * S - 1) * ss < s0.length)
    (n : Nat) (hn : n < S) (hbyte : bytes.getD n 0 < 256) :
    pcm_gather out ss n 0 8 = bytes.getD n 0 := by
  have g := pcm_gather_bit ss S bytes s0 out hss hinv hcap n hn
  simp only [pcm_gather, lsb_collect]
  rw [g 0 7 rfl, g 1 6 rfl, g 2 5 rfl, g 3 4 rfl, g 4 3 rfl, g 5 2 rfl, g 6 1 rfl, g 7 0 rfl]
  exact collect_bits_of_byte _ hbyte

/-- C2: WAV round trip.  For a sample store of `subchunk2size` bytes, a
`sample_size >= 1` and a payload of `S >= 1` bytes with
`8*S <= ceil(subchunk2size / sample_size)`, `pcm_cover` returns a store from
which `pcm_uncover`, run on a zero-filled `S`-byte buffer, returns exactly the
payload (any step budget above `subchunk2size` is enough for both loops). -/
theorem pcm_round_trip (w : pcm) (p : payload) (fuel : Nat)
    (hstore : (w.samples.length : Int) = w.subchunk2size) (hss : 1 ≤ w.sample_size)
    (hS : 1 ≤ p.size) (hp : (p.bytes.length : Int) = p.size)
    (hbyte : ∀ x ∈ p.bytes, x < 256)
    (hcap : 8 * p.size ≤ (w.subchunk2size + w.sample_size - 1) / w.sample_size)
    (hfuel : w.subchunk2size < fuel) :
    ∃ w1, pcm_cover fuel w p = some w1 ∧
      pcm_uncover fuel w1 (payload.mk p.size (List.replicate p.size.toNat 0)) = some p := by
  have hlast := last_target_of_ceil _ _ _ hss hS hcap
  rw [← hstore, Int.toNat_ofNat] at hlast
  obtain ⟨out, T, hc, hinv, hT, hT2⟩ := pcm_cover_spec w p fuel hstore hss hS hp hfuel
  have hssN : 1 ≤ w.sample_size.toNat := by omega
  have hTeq : T = 8 * p.size.toNat := by
    rcases hT2 with h | h
    · exact h
    · have h1 : (8 * p.size.toNat - 1) * w.sample_size.toNat < T * w.sample_size.toNat := by
        omega
      have h2 : 8 * p.size.toNat - 1 < T := Nat.lt_of_mul_lt_mul_right h1
      omega
  subst hTeq
  have hlen : out.length = w.samples.length := hinv.1
  refine ⟨_, hc, ?_⟩
  have h8 : 8 * p.size.toNat ≤ w.samples.length := by
    have : (8 * p.size.toNat - 1) * 1 ≤ (8 * p.size.toNat - 1) * w.sample_size.toNat :=
      Nat.mul_le_mul_left _ hssN
    omega
  obtain ⟨res, hu, hrl, hres⟩ := pcm_uncover_spec { w with samples := out }
    (payload.mk p.size (List.replicate p.size.toNat 0)) fuel
    (by simp only [hlen]; exact hstore) hss hS
    (show ((List.replicate p.size.toNat 0).length : Int) = p.size by
      rw [List.length_replicate]; omega)
    (by simp only [hlen]; exact hlast) (show 8 * p.size ≤ (fuel : Int) by omega)
  rw [hu]
  congr 1
  have : res = p.bytes := by
    apply List.ext_getElem?
    intro n
    rw [hres n]
    simp only at *
    by_cases hn : n < p.size.toNat
    · have hnb : n < p.bytes.length := by omega
      rw [List.getElem?_replicate, if_pos hn, Option.map_some',
        pcm_gather_covered w.sample_size.toNat p.size.toNat p.bytes w.samples out hssN hinv
          hlast n hn ?_, List.getD_eq_getElem?_getD, List.getElem?_eq_getElem hnb]
      · rfl
      · rw [List.getD_eq_getElem?_getD, List.getElem?_eq_getElem hnb]
        exact hbyte _ (List.getElem_mem _)
    · rw [List.getElem?_replicate, if_neg hn, List.getElem?_eq_none (by omega)]
      rfl
  rw [this]

theorem validate_wavfile_ok_iff (w : pcm) (p : payload) (hS : 1 ≤ p.size) :
    validate_wavfile w p = Except.ok () ↔ 16 ≤ w.depth ∧ 8 * p.size ≤ w.total_samples := by
  rw [← tdiv_ge_eight_iff _ _ hS]
  unfold validate_wavfile
  have h0 : p.size ≠ 0 := by omega
  by_cases hd : w.depth < 16
  · simp [hd]
  · by_cases hq : Int.tdiv w.total_samples p.size < 8
    · simp [hd, h0, hq]
    · simp [hd, h0, hq]; omega

/-- What `derive_pcm_fields` returns when it returns. -/
theorem derive_pcm_fields_some (h w : pcm) (hderive : derive_pcm_fields h = some w) :
    h.block_align ≠ 0 ∧
    w = { h with
      sample_size := Int.tdiv h.depth 8
      total_samples := wrap32 (Int.tdiv h.subchunk2size h.block_align * h.channels) } := by
  unfold derive_pcm_fields at hderive
  by_cases hz : h.block_align = 0
  · rw [if_pos hz] at hderive; cases hderive
  · rw [if_neg hz] at hderive
    by_cases ht : h.subchunk2size = -2147483648 ∧ h.block_align = -1
    · rw [if_pos ht] at hderive; cases hderive
    · rw [if_neg ht] at hderive
      injection hderive with hw
      exact ⟨hz, hw.symm⟩

/-- The capacity that `validate_wavfile` checks bounds the number of targets when
the frame size is at least `channels * sample_size`. -/
theorem wav_targets_of_validate (h w : pcm) (p : payload)
    (hderive : derive_pcm_fields h = some w) (hch : 1 ≤ h.channels)
    (hba : h.channels * Int.tdiv h.depth 8 ≤ h.block_align) (hsub : 0 ≤ h.subchunk2size)
    (hS : 1 ≤ p.size) (hv : validate_wavfile w p = Except.ok ()) :
    2 ≤ w.sample_size ∧ 8 * p.size * w.sample_size ≤ w.subchunk2size := by
  obtain ⟨hz, hw⟩ := derive_pcm_fields_some h w hderive
  subst hw
  obtain ⟨hd, hq0⟩ := (validate_wavfile_ok_iff _ p hS).1 hv
  simp only at hd hq0 ⊢
  have hss : Int.tdiv h.depth 8 = h.depth / 8 := Int.tdiv_eq_ediv (by omega) (by omega)
  have hss2 : 2 ≤ h.depth / 8 := by omega
  rw [hss] at hba ⊢
  have hbapos : 0 < h.block_align := by nlinarith
  rw [Int.tdiv_eq_ediv hsub (by omega)] at hq0
  have hT0 : 0 ≤ h.subchunk2size / h.block_align * h.channels :=
    Int.mul_nonneg (Int.ediv_nonneg hsub (by omega)) (by omega)
  have hq : 8 * p.size ≤ h.subchunk2size / h.block_align * h.channels :=
    le_trans hq0 (wrap32_le_self _ hT0)
  refine ⟨hss2, ?_⟩
  have h1 : h.subchunk2size / h.block_align * h.block_align ≤ h.subchunk2size :=
    Int.ediv_mul_le _ (by omega)
  have h2 : 0 ≤ h.subchunk2size / h.block_align := Int.ediv_nonneg hsub (by omega)
  have h3 : h.subchunk2size / h.block_align * (h.channels * (h.depth / 8)) ≤
      h.subchunk2size / h.block_align * h.block_align :=
    Int.mul_le_mul_of_nonneg_left hba h2
  have h4 : 8 * p.size * (h.depth / 8) ≤
      h.subchunk2size / h.block_align * h.channels * (h.depth / 8) :=
    Int.mul_le_mul_of_nonneg_right hq (by omega)
  calc 8 * p.size * (h.depth / 8)
      ≤ h.subchunk2size / h.block_align * h.channels * (h.depth / 8) := h4
    _ = h.subchunk2size / h.block_align * (h.channels * (h.depth / 8)) := by ring
    _ ≤ h.subchunk2size / h.block_align * h.block_align := h3
    _ ≤ h.subchunk2size := h1

/-! ## WAV claims -/

/-- Witness for C2: the byte `0xAA` survives the trip through `wav_16`. -/
theorem pcm_round_trip_witness :
    ∃ w1, pcm_cover 17 wav_16 (payload.mk 1 [0xAA]) = some w1 ∧
      pcm_uncover 17 w1 (payload.mk 1 (List.replicate (1 : Int).toNat 0)) =
        some (payload.mk 1 [0xAA]) :=
  pcm_round_trip wav_16 (payload.mk 1 [0xAA]) 17 (by decide) (by decide) (by decide)
    (by decide) (by decide) (by decide) (by decide)

/-- C4 fails on the code: `pcm_uncover` ORs the carrier bits into whatever the
buffer held.  On sixteen zero sample bytes (eight targets, all with LSB 0) and a
one-byte buffer that `init_payload_storage` left holding `0xFF`, the recovered
byte is `0xFF`, while the bits of the carrier sum to `0`; on a zeroed buffer the
same call gives `0`. -/
theorem pcm_uncover_keeps_buffer_bits :
    init_payload_storage (fun _ => 0xFF) (payload.mk 1 []) = some (payload.mk 1 [0xFF]) ∧
    pcm_uncover 17 { wav_16 with samples := List.replicate 16 0 } (payload.mk 1 [0xFF]) =
      some (payload.mk 1 [0xFF]) ∧
    ((List.range 8).map (fun k =>
      (((List.replicate 16 0).getD ((8 * 0 + k) * 2) 0) &&& 1) * 2 ^ (7 - k))).sum = 0 ∧
    pcm_uncover 17 { wav_16 with samples := List.replicate 16 0 } (payload.mk 1 [0]) =
      some (payload.mk 1 [0]) := by
  decide

/-- Counterexample to C7 as stated: for `wav_short_frames` the parser derives
`sample_size = 2` and `total_samples = 32`, `validate_wavfile` accepts a 4-byte
payload (quotient exactly 8), yet the store has only 8 targets for its 32 bits:
`pcm_cover` embeds the first byte only, and extraction returns `0xFF, 0, 0, 0`. -/
theorem wav_validation_accepts_short_store :
    derive_pcm_fields wav_short_frames = some wav_short_frames_parsed ∧
    validate_wavfile wav_short_frames_parsed (payload.mk 4 [0xFF, 0xFF, 0xFF, 0xFF]) =
      Except.ok () ∧
    ¬ ((8 * 4 - 1) * wav_short_frames_parsed.sample_size <
      wav_short_frames_parsed.subchunk2size) ∧
    (pcm_cover 17 wav_short_frames_parsed (payload.mk 4 [0xFF, 0xFF, 0xFF, 0xFF])).map
      (fun w => w.samples) = some [5, 4, 5, 4, 5, 4, 5, 4, 5, 4, 5, 4, 5, 4, 5, 4] ∧
    ((pcm_cover 17 wav_short_frames_parsed (payload.mk 4 [0xFF, 0xFF, 0xFF, 0xFF])).bind
      (fun w => pcm_uncover 17 w (payload.mk 4 [0, 0, 0, 0]))) =
      some (payload.mk 4 [0xFF, 0, 0, 0]) := by
  refine ⟨by decide, rfl, by decide, by decide, by decide⟩

/-- C7 (amended): when the parsed header has `channels >= 1` and a frame size
`block_align >= channels * sample_size` (for PCM it is equal), every payload of
`S >= 1` bytes that `validate_wavfile` accepts fits: `8*S*sample_size` is at
most `subchunk2size`, so the targets `0, sample_size, .., (8*S-1)*sample_size` lie
in the store, and `pcm_cover` returns a store whose target `t` carries bit
`7 - t mod 8` of payload byte `t div 8`, for every `t < 8*S`. -/
theorem wav_validation_capacity (h w : pcm) (p : payload) (fuel : Nat)
    (hderive : derive_pcm_fields h = some w) (hch : 1 ≤ h.channels)
    (hba : h.channels * Int.tdiv h.depth 8 ≤ h.block_align)
    (hstore : (w.samples.length : Int) = w.subchunk2size)
    (hS : 1 ≤ p.size) (hp : (p.bytes.length : Int) = p.size)
    (hv : validate_wavfile w p = Except.ok ()) (hfuel : w.subchunk2size < fuel) :
    8 * p.size * w.sample_size ≤ w.subchunk2size ∧
    ∃ w1, pcm_cover fuel w p = some w1 ∧
      ∀ t : Nat, t < 8 * p.size.toNat →
        t * w.sample_size.toNat < w.samples.length ∧
        ∃ x, w1.samples[t * w.sample_size.toNat]? = some x ∧
          x % 2 = (p.bytes.getD (t / 8) 0 >>> (7 - t % 8)) % 2 := by
  have hsub : 0 ≤ h.subchunk2size := by
    obtain ⟨_, hw⟩ := derive_pcm_fields_some h w hderive
    subst hw
    simp only at hstore
    omega
  obtain ⟨hss, hcap⟩ := wav_targets_of_validate h w p hderive hch hba hsub hS hv
  refine ⟨hcap, ?_⟩
  have hss1 : 1 ≤ w.sample_size := by omega
  have hssN : 1 ≤ w.sample_size.toNat := by omega
  obtain ⟨out, T, hc, hinv, hT, hT2⟩ := pcm_cover_spec w p fuel hstore hss1 hS hp hfuel
  have hcapN : 8 * p.size.toNat * w.sample_size.toNat ≤ w.samples.length := by
    have h1 : ((8 * p.size.toNat * w.sample_size.toNat : Nat) : Int) ≤
        (w.samples.length : Int) := by
      rw [hstore]
      have e1 : ((p.size.toNat : Nat) : Int) = p.size := Int.toNat_of_nonneg (by omega)
      have e2 : ((w.sample_size.toNat : Nat) : Int) = w.sample_size :=
        Int.toNat_of_nonneg (by omega)
      push_cast
      rw [e1, e2]
      exact hcap
    exact_mod_cast h1
  have htarget : ∀ t : Nat, t < 8 * p.size.toNat →
      t * w.sample_size.toNat < w.samples.length := by
    intro t ht
    have h1 : (t + 1) * w.sample_size.toNat ≤ 8 * p.size.toNat * w.sample_size.toNat :=
      Nat.mul_le_mul_right _ (by omega)
    have h2 : (t + 1) * w.sample_size.toNat = t * w.sample_size.toNat + w.sample_size.toNat := by
      ring
    omega
  have hTeq : T = 8 * p.size.toNat := by
    rcases hT2 with h1 | h1
    · exact h1
    · by_contra hne
      have h2 := htarget T (by omega)
      omega
  subst hTeq
  refine ⟨_, hc, ?_⟩
  intro t ht
  refine ⟨htarget t ht, ?_⟩
  obtain ⟨x, _, hx⟩ := pcm_covered_target _ p.bytes w.samples out _ t hssN hinv ht
    (htarget t ht)
  exact ⟨_, hx, lsb_mix_mod_two _ _ _⟩

/-- Witness for C7 (amended): `wav_16` (mono, frame size 2) and a one-byte payload. -/
theorem wav_validation_capacity_witness :
    validate_wavfile wav_16 (payload.mk 1 [0xAA]) = Except.ok () ∧
    8 * (payload.mk 1 [0xAA]).size * wav_16.sample_size ≤ wav_16.subchunk2size :=
  ⟨rfl, (wav_validation_capacity wav_16 wav_16 (payload.mk 1 [0xAA]) 17 (by decide) (by decide)
    (by decide) (by decide) (by decide) (by decide) rfl (by decide)).1⟩

/-! ## The pixel matrix as a two-dimensional memory -/

theorem pixel_read_write (px : List (List Nat)) (i j v i1 c : Nat) :
    pixel_read (pixel_write px i j v) i1 c =
      if i1 = i ∧ c = j then (pixel_read px i j).map (fun _ => v) else pixel_read px i1 c := by
  unfold pixel_write pixel_read
  cases hrow : px[i]? with
  | none =>
    simp only
    by_cases h : i1 = i ∧ c = j
    · rw [if_pos h, h.1, hrow]; rfl
    · rw [if_neg h]
  | some row =>
    simp only
    have hi : i < px.length := by
      rcases Nat.lt_or_ge i px.length with h | h
      · exact h
      · rw [List.getElem?_eq_none h] at hrow; cases hrow
    rw [List.getElem?_set]
    by_cases h1 : i = i1
    · subst h1
      rw [if_pos rfl, if_pos hi]
      simp only [true_and, hrow]
      rw [List.getElem?_set]
      by_cases h2 : j = c
      · subst h2
        rw [if_pos rfl, if_pos rfl]
        by_cases h3 : j < row.length
        · rw [if_pos h3, List.getElem?_eq_getElem h3]; rfl
        · rw [if_neg h3, List.getElem?_eq_none (by omega)]; rfl
      · rw [if_neg h2, if_neg (fun h => h2 h.symm)]
    · rw [if_neg h1, if_neg (fun h => h1 h.1.symm)]

theorem pixel_write_shape (px : List (List Nat)) (i j v : Nat) :
    (pixel_write px i j v).map List.length = px.map List.length := by
  unfold pixel_write
  cases hrow : px[i]? with
  | none => rfl
  | some row =>
    simp only
    apply List.ext_getElem?
    intro n
    rw [List.getElem?_map, List.getElem?_map, List.getElem?_set]
    by_cases h1 : i = n
    · subst h1
      rw [if_pos rfl, hrow]
      have hi : i < px.length := by
        rcases Nat.lt_or_ge i px.length with h | h
        · exact h
        · rw [List.getElem?_eq_none h] at hrow; cases hrow
      rw [if_pos hi]
      simp
    · rw [if_neg h1]

/-- A store is determined by its shape and its cells. -/
theorem pixel_ext (px1 px2 : List (List Nat))
    (hshape : px1.map List.length = px2.map List.length)
    (hcells : ∀ i c, pixel_read px1 i c = pixel_read px2 i c) : px1 = px2 := by
  apply List.ext_getElem?
  intro i
  have hlen : px1.length = px2.length := by
    have := congrArg List.length hshape
    simpa using this
  have hs := congrArg (fun l => l[i]?) hshape
  simp only [List.getElem?_map] at hs
  cases h1 : px1[i]? with
  | none =>
    cases h2 : px2[i]? with
    | none => rfl
    | some r2 => rw [h1, h2] at hs; cases hs
  | some r1 =>
    cases h2 : px2[i]? with
    | none => rw [h1, h2] at hs; cases hs
    | some r2 =>
      congr 1
      apply List.ext_getElem?
      intro c
      have := hcells i c
      unfold pixel_read at this
      rw [h1, h2] at this
      exact this

/-! ## Scan order of the usable bytes -/

/-- Two usable cells with the same scan index are the same cell. -/
theorem cell_index_inj (W i j i1 c : Nat) (hj : j < W) (hc : c < W)
    (h : i1 * W + c = i * W + j) : i1 = i ∧ c = j := by
  have h1 : (i1 * W + c) / W = i1 := by
    rw [Nat.add_comm, Nat.add_mul_div_right _ _ (by omega), Nat.div_eq_of_lt hc, Nat.zero_add]
  have h2 : (i * W + j) / W = i := by
    rw [Nat.add_comm, Nat.add_mul_div_right _ _ (by omega), Nat.div_eq_of_lt hj, Nat.zero_add]
  have h3 : i1 = i := by rw [← h1, h, h2]
  subst h3
  exact ⟨rfl, by omega⟩

theorem cell_div (W i j : Nat) (hj : j < W) : (i * W + j) / W = i := by
  rw [Nat.add_comm, Nat.add_mul_div_right _ _ (by omega), Nat.div_eq_of_lt hj, Nat.zero_add]

theorem cell_mod (W i j : Nat) (hj : j < W) : (i * W + j) % W = j := by
  rw [Nat.add_comm, Nat.add_mul_mod_self_right, Nat.mod_eq_of_lt hj]

theorem cell_index_lt_succ (W i j i1 c : Nat) (hj : j < W) (hc : c < W) :
    i1 * W + c < i * W + j + 1 ↔ i1 * W + c < i * W + j ∨ (i1 = i ∧ c = j) := by
  constructor
  · intro h
    by_cases h1 : i1 * W + c < i * W + j
    · exact Or.inl h1
    · exact Or.inr (cell_index_inj W i j i1 c hj hc (by omega))
  · rintro (h | ⟨h1, h2⟩)
    · omega
    · subst h1; subst h2; omega

/-! ## The bitmap embed loops -/

theorem bitmap_cover_inv_step (W : Nat) (bytes : List Nat) (px0 px : List (List Nat))
    (i j x : Nat) (hj : j < W) (hinv : bitmap_cover_inv W bytes px0 (i * W + j) px)
    (hx : pixel_read px i j = some x) :
    bitmap_cover_inv W bytes px0 (i * W + j + 1)
      (pixel_write px i j (lsb_mix x (bytes.getD ((i * W + j) / 8) 0) (i * W + j))) := by
  obtain ⟨hshape, hpt⟩ := hinv
  refine ⟨by rw [pixel_write_shape, hshape], ?_⟩
  intro i1 c
  rw [pixel_read_write]
  have hx0 : pixel_read px0 i j = some x := by
    have := hpt i j
    rw [if_neg (by omega)] at this
    rw [← this]; exact hx
  by_cases h : i1 = i ∧ c = j
  · obtain ⟨h1, h2⟩ := h
    subst h1 h2
    rw [if_pos ⟨rfl, rfl⟩, if_pos ⟨hj, by omega⟩, hx, hx0]
    rfl
  · rw [if_neg h, hpt i1 c]
    by_cases hc : c < W
    · have hiff := cell_index_lt_succ W i j i1 c hj hc
      by_cases hk : i1 * W + c < i * W + j
      · rw [if_pos ⟨hc, hk⟩, if_pos ⟨hc, hiff.2 (Or.inl hk)⟩]
      · rw [if_neg (fun hh => hk hh.2), if_neg]
        intro hh
        rcases hiff.1 hh.2 with h1 | h1
        · exact hk h1
        · exact h h1
    · rw [if_neg (fun hh => hc hh.1), if_neg (fun hh => hc hh.1)]

theorem bitmap_cover_cols_inv (W S : Nat) (p : payload) (px0 : List (List Nat)) (i : Nat)
    (hS : p.size = (S : Int)) (hlen : p.bytes.length = S)
    (hcell : ∀ c, c < W → (pixel_read px0 i c).isSome = true) :
    ∀ (n j : Nat) (px : List (List Nat)), bitmap_cover_inv W p.bytes px0 (i * W + j) px →
      j ≤ W → i * W + j < 8 * S → W ≤ j + n →
      ∃ px1 k1 fin, bitmap_cover_cols (W : Int) p i n j px (i * W + j) ((i * W + j) / 8) =
          some (px1, k1, k1 / 8, fin) ∧
        bitmap_cover_inv W p.bytes px0 k1 px1 ∧
        ((fin = true ∧ k1 = 8 * S) ∨ (fin = false ∧ k1 = i * W + W ∧ k1 < 8 * S)) := by
  intro n
  induction n with
  | zero =>
    intro j px hinv hj hk hn
    have hjW : j = W := by omega
    subst hjW
    exact ⟨px, _, false, rfl, hinv, Or.inr ⟨rfl, rfl, hk⟩⟩
  | succ n ih =>
    intro j px hinv hj hk hn
    unfold bitmap_cover_cols
    by_cases hjW : j = W
    · subst hjW
      rw [if_pos rfl]
      exact ⟨px, _, false, rfl, hinv, Or.inr ⟨rfl, rfl, hk⟩⟩
    · have hjlt : j < W := by omega
      have hne : ¬ ((j : Int) = (W : Int)) := by omega
      rw [if_neg hne]
      have hread : pixel_read px i j = pixel_read px0 i j := by
        rw [hinv.2 i j, if_neg (by omega)]
      have hsome := hcell j hjlt
      rw [← hread] at hsome
      obtain ⟨x, hx⟩ := Option.isSome_iff_exists.1 hsome
      have hb : (i * W + j) / 8 < p.bytes.length := by omega
      have hbe : p.bytes[(i * W + j) / 8]? = some p.bytes[(i * W + j) / 8] :=
        List.getElem?_eq_getElem hb
      have hgd : p.bytes[(i * W + j) / 8] = p.bytes.getD ((i * W + j) / 8) 0 := by
        rw [List.getD_eq_getElem?_getD, hbe]; rfl
      rw [hx, hbe]
      simp only [bytecount_step]
      have hstep := bitmap_cover_inv_step W p.bytes px0 px i j x hjlt hinv hx
      rw [← hgd] at hstep
      by_cases hdone : (i * W + j + 1) / 8 = S
      · have hd1 : (((i * W + j + 1) / 8 : Nat) : Int) = p.size := by rw [hS, hdone]
        rw [if_pos hd1]
        exact ⟨_, _, true, rfl, hstep, Or.inl ⟨rfl, by omega⟩⟩
      · have hd1 : ¬ (((i * W + j + 1) / 8 : Nat) : Int) = p.size := by
          rw [hS]; intro h; exact hdone (by exact_mod_cast h)
        rw [if_neg hd1]
        exact ih (j + 1) _ hstep (by omega) (by omega) (by omega)

theorem bitmap_cover_rows_inv (W R S H : Nat) (p : payload) (px0 : List (List Nat))
    (hS : p.size = (S : Int)) (hlen : p.bytes.length = S) (hWR : W ≤ R)
    (hcell : ∀ i c, i < H → c < W → (pixel_read px0 i c).isSome = true) :
    ∀ (n i : Nat) (px : List (List Nat)), bitmap_cover_inv W p.bytes px0 (i * W) px →
      i + n = H → i * W < 8 * S →
      ∃ px1 k1, bitmap_cover_rows (R : Int) (W : Int) p n i px (i * W) (i * W / 8) = some px1 ∧
        bitmap_cover_inv W p.bytes px0 k1 px1 ∧ k1 ≤ 8 * S ∧ (k1 = 8 * S ∨ k1 = H * W) := by
  intro n
  induction n with
  | zero =>
    intro i px hinv hi hk
    have : i = H := by omega
    subst this
    exact ⟨px, _, rfl, hinv, by omega, Or.inr rfl⟩
  | succ n ih =>
    intro i px hinv hi hk
    unfold bitmap_cover_rows
    obtain ⟨px1, k1, fin, hc, hinv1, hfin⟩ :=
      bitmap_cover_cols_inv W S p px0 i hS hlen (fun c hc => hcell i c (by omega) hc)
        R 0 px hinv (by omega) hk (by omega)
    rw [Int.toNat_ofNat]
    simp only [Nat.add_zero] at hc
    rw [hc]
    rcases hfin with ⟨hf, hk1⟩ | ⟨hf, hk1, hk2⟩
    · subst hf
      simp only [if_true]
      exact ⟨px1, k1, rfl, hinv1, by omega, Or.inl hk1⟩
    · subst hf
      simp only [Bool.false_eq_true, if_false]
      have hmul : (i + 1) * W = i * W + W := Nat.succ_mul i W
      rw [← hmul] at hk1
      subst hk1
      exact ih (i + 1) px1 hinv1 (by omega) hk2

theorem bitmap_cover_inv_init (W : Nat) (bytes : List Nat) (px0 : List (List Nat)) :
    bitmap_cover_inv W bytes px0 0 px0 :=
  ⟨rfl, fun i c => by rw [if_neg (fun h => Nat.not_lt_zero _ h.2)]⟩

/-- The embed on a store whose usable cells exist: it returns, and the result is
the store with the usable bytes of scan index below `k` rewritten, `k` being
`8 * size` unless the store ends first. -/
theorem bitmap_cover_spec (b : bitmap) (p : payload) (hpad : 0 ≤ b.pad)
    (hrow : b.pad ≤ b.rowlen) (hS : 1 ≤ p.size) (hp : (p.bytes.length : Int) = p.size)
    (hcell : ∀ i c, i < b.height.toNat → c < (b.rowlen - b.pad).toNat →
      (pixel_read b.pixel i c).isSome = true) :
    ∃ px k, bitmap_cover b p = some { b with pixel := px } ∧
      bitmap_cover_inv (b.rowlen - b.pad).toNat p.bytes b.pixel k px ∧
      k ≤ 8 * p.size.toNat ∧
      (k = 8 * p.size.toNat ∨ k = b.height.toNat * (b.rowlen - b.pad).toNat) := by
  have hS1 : p.size = ((p.size.toNat : Nat) : Int) := (Int.toNat_of_nonneg (by omega)).symm
  have hW : b.rowlen - b.pad = (((b.rowlen - b.pad).toNat : Nat) : Int) :=
    (Int.toNat_of_nonneg (by omega)).symm
  have hR : b.rowlen = ((b.rowlen.toNat : Nat) : Int) := (Int.toNat_of_nonneg (by omega)).symm
  obtain ⟨px, k, h1, h2, h3, h4⟩ :=
    bitmap_cover_rows_inv (b.rowlen - b.pad).toNat b.rowlen.toNat p.size.toNat b.height.toNat
      p b.pixel hS1 (by omega) (by omega) hcell b.height.toNat 0 b.pixel
      (by rw [Nat.zero_mul]; exact bitmap_cover_inv_init _ _ _) (by omega) (by omega)
  refine ⟨px, k, ?_, h2, h3, h4⟩
  unfold bitmap_cover
  rw [← hW, ← hR] at h1
  simp only [Nat.zero_mul, Nat.zero_div] at h1
  simp only [h1]

/-! ## The bitmap extract loops -/

theorem bitmap_uncover_inv_step_bits (W : Nat) (px : List (List Nat)) (b0 : List Nat)
    (k : Nat) (bits : Fin 8 → Nat) (cur : List Nat)
    (hinv : bitmap_uncover_inv W px b0 k bits cur) (h8 : ¬ (k + 1) % 8 = 0) :
    bitmap_uncover_inv W px b0 (k + 1)
      (Function.update bits ⟨k % 8, Nat.mod_lt _ (by decide)⟩ (usable_lsb px W k)) cur := by
  obtain ⟨hl, hb, hq⟩ := hinv
  have hdiv : (k + 1) / 8 = k / 8 := by omega
  refine ⟨hl, ?_, ?_⟩
  · intro n; rw [hdiv]; exact hb n
  · intro q hqlt
    by_cases hqk : q = ⟨k % 8, Nat.mod_lt _ (by decide)⟩
    · subst hqk
      rw [Function.update_same]
      congr 1
      simp only
      omega
    · rw [Function.update_noteq hqk]
      have hval : q.val ≠ k % 8 := fun h => hqk (Fin.ext h)
      rw [hq q (by omega)]
      congr 1
      omega

theorem bitmap_uncover_inv_step_byte (W : Nat) (px : List (List Nat)) (b0 : List Nat)
    (k : Nat) (bits : Fin 8 → Nat) (cur : List Nat)
    (hinv : bitmap_uncover_inv W px b0 k bits cur) (h8 : (k + 1) % 8 = 0)
    (hk : k / 8 < cur.length) :
    bitmap_uncover_inv W px b0 (k + 1)
      (Function.update bits ⟨k % 8, Nat.mod_lt _ (by decide)⟩ (usable_lsb px W k))
      (cur.set (k / 8) (assemble
        (Function.update bits ⟨k % 8, Nat.mod_lt _ (by decide)⟩ (usable_lsb px W k)))) := by
  obtain ⟨hl, hb, hq⟩ := hinv
  have hdiv : (k + 1) / 8 = k / 8 + 1 := by omega
  have hfull : Function.update bits ⟨k % 8, Nat.mod_lt _ (by decide)⟩ (usable_lsb px W k) =
      fun q => usable_lsb px W (8 * (k / 8) + q.val) := by
    funext q
    by_cases hqk : q = ⟨k % 8, Nat.mod_lt _ (by decide)⟩
    · subst hqk
      rw [Function.update_same]
      congr 1
      simp only
      omega
    · rw [Function.update_noteq hqk]
      have hval : q.val ≠ k % 8 := fun h => hqk (Fin.ext h)
      have hq8 := q.isLt
      rw [hq q (by omega)]
      congr 1
      omega
  refine ⟨by rw [List.length_set, hl], ?_, ?_⟩
  · intro n
    rw [List.getElem?_set, hdiv]
    by_cases hn : k / 8 = n
    · subst hn
      rw [if_pos rfl, if_pos hk, if_pos (by omega), hfull]
      have hb0 : k / 8 < b0.length := by omega
      rw [List.getElem?_eq_getElem hb0]
      rfl
    · rw [if_neg hn, hb n]
      by_cases hlt : n < k / 8
      · rw [if_pos hlt, if_pos (by omega)]
      · rw [if_neg hlt, if_neg (by omega)]
  · intro q hqlt
    omega

theorem bitmap_uncover_cols_inv (W S : Nat) (px : List (List Nat)) (b0 : List Nat) (i : Nat)
    (hb0 : b0.length = S) (hcell : ∀ c, c < W → (pixel_read px i c).isSome = true) :
    ∀ (n j : Nat) (bits : Fin 8 → Nat) (cur : List Nat),
      bitmap_uncover_inv W px b0 (i * W + j) bits cur →
      j ≤ W → i * W + j < 8 * S → W ≤ j + n →
      ∃ bits1 cur1 k1 fin,
        bitmap_uncover_cols (W : Int) (S : Int) px i n j bits cur (i * W + j)
          ((i * W + j) / 8) = some (bits1, cur1, k1, k1 / 8, fin) ∧
        bitmap_uncover_inv W px b0 k1 bits1 cur1 ∧
        ((fin = true ∧ k1 = 8 * S) ∨ (fin = false ∧ k1 = i * W + W ∧ k1 < 8 * S)) := by
  intro n
  induction n with
  | zero =>
    intro j bits cur hinv hj hk hn
    have hjW : j = W := by omega
    subst hjW
    exact ⟨bits, cur, _, false, rfl, hinv, Or.inr ⟨rfl, rfl, hk⟩⟩
  | succ n ih =>
    intro j bits cur hinv hj hk hn
    unfold bitmap_uncover_cols
    by_cases hjW : j = W
    · subst hjW
      rw [if_pos rfl]
      exact ⟨bits, cur, _, false, rfl, hinv, Or.inr ⟨rfl, rfl, hk⟩⟩
    · have hjlt : j < W := by omega
      have hne : ¬ ((j : Int) = (W : Int)) := by omega
      rw [if_neg hne]
      obtain ⟨x, hx⟩ := Option.isSome_iff_exists.1 (hcell j hjlt)
      rw [hx]
      simp only
      have hlsb : x &&& 1 = usable_lsb px W (i * W + j) := by
        unfold usable_lsb
        rw [cell_div W i j hjlt, cell_mod W i j hjlt, hx]
        rfl
      rw [hlsb]
      have hl := hinv.1
      by_cases h8 : (i * W + j + 1) % 8 = 0
      · rw [if_pos h8]
        have hkl : (i * W + j) / 8 < cur.length := by omega
        rw [if_pos hkl]
        have hstep := bitmap_uncover_inv_step_byte W px b0 (i * W + j) bits cur hinv h8 hkl
        have hdiv : (i * W + j) / 8 + 1 = (i * W + j + 1) / 8 := by omega
        rw [hdiv]
        by_cases hdone : (i * W + j + 1) / 8 = S
        · have hd1 : (((i * W + j + 1) / 8 : Nat) : Int) = (S : Int) := by rw [hdone]
          rw [if_pos hd1]
          exact ⟨_, _, _, true, rfl, hstep, Or.inl ⟨rfl, by omega⟩⟩
        · have hd1 : ¬ (((i * W + j + 1) / 8 : Nat) : Int) = (S : Int) := by
            intro h; exact hdone (by exact_mod_cast h)
          rw [if_neg hd1]
          exact ih (j + 1) _ _ hstep (by omega) (by omega) (by omega)
      · rw [if_neg h8]
        have hstep := bitmap_uncover_inv_step_bits W px b0 (i * W + j) bits cur hinv h8
        have hd1 : ¬ (((i * W + j) / 8 : Nat) : Int) = (S : Int) := by
          intro h
          have : (i * W + j) / 8 = S := by exact_mod_cast h
          omega
        rw [if_neg hd1]
        have hdiv : (i * W + j) / 8 = (i * W + j + 1) / 8 := by omega
        rw [hdiv]
        exact ih (j + 1) _ _ hstep (by omega) (by omega) (by omega)

theorem bitmap_uncover_rows_inv (W R S H : Nat) (px : List (List Nat)) (b0 : List Nat)
    (hb0 : b0.length = S) (hWR : W ≤ R)
    (hcell : ∀ i c, i < H → c < W → (pixel_read px i c).isSome = true) :
    ∀ (n i : Nat) (bits : Fin 8 → Nat) (cur : List Nat),
      bitmap_uncover_inv W px b0 (i * W) bits cur → i + n = H → i * W < 8 * S →
      ∃ out bits1 k1, bitmap_uncover_rows (R : Int) (W : Int) (S : Int) px n i bits cur
          (i * W) (i * W / 8) = some out ∧
        bitmap_uncover_inv W px b0 k1 bits1 out ∧ k1 ≤ 8 * S ∧
        (k1 = 8 * S ∨ k1 = H * W) := by
  intro n
  induction n with
  | zero =>
    intro i bits cur hinv hi hk
    have : i = H := by omega
    subst this
    exact ⟨cur, bits, _, rfl, hinv, by omega, Or.inr rfl⟩
  | succ n ih =>
    intro i bits cur hinv hi hk
    unfold bitmap_uncover_rows
    obtain ⟨bits1, cur1, k1, fin, hc, hinv1, hfin⟩ :=
      bitmap_uncover_cols_inv W S px b0 i hb0 (fun c hc => hcell i c (by omega) hc)
        R 0 bits cur hinv (by omega) hk (by omega)
    rw [Int.toNat_ofNat]
    simp only [Nat.add_zero] at hc
    rw [hc]
    rcases hfin with ⟨hf, hk1⟩ | ⟨hf, hk1, hk2⟩
    · subst hf
      simp only [if_true]
      exact ⟨cur1, bits1, k1, rfl, hinv1, by omega, Or.inl hk1⟩
    · subst hf
      simp only [Bool.false_eq_true, if_false]
      have hmul : (i + 1) * W = i * W + W := Nat.succ_mul i W
      rw [← hmul] at hk1
      subst hk1
      exact ih (i + 1) bits1 cur1 hinv1 (by omega) hk2

theorem bitmap_uncover_inv_init (W : Nat) (px : List (List Nat)) (b0 : List Nat)
    (bits : Fin 8 → Nat) : bitmap_uncover_inv W px b0 0 bits b0 :=
  ⟨rfl, fun n => by rw [if_neg (by omega)], fun q h => by omega⟩

/-- The extract on a store whose usable cells exist and hold `8 * size` bytes: it
returns, whatever `bits` and the buffer held, and byte `n` of the result is
assembled from the carrier bits `8n .. 8n+7`. -/
theorem bitmap_uncover_spec (bits : Fin 8 → Nat) (b : bitmap) (p : payload) (hpad : 0 ≤ b.pad)
    (hrow : b.pad ≤ b.rowlen) (hS : 1 ≤ p.size) (hp : (p.bytes.length : Int) = p.size)
    (hcell : ∀ i c, i < b.height.toNat → c < (b.rowlen - b.pad).toNat →
      (pixel_read b.pixel i c).isSome = true)
    (hcap : 8 * p.size.toNat ≤ b.height.toNat * (b.rowlen - b.pad).toNat) :
    ∃ out, bitmap_uncover bits b p = some { p with bytes := out } ∧
      out.length = p.bytes.length ∧
      ∀ n, n < p.size.toNat → out[n]? = some (assemble (fun q =>
        usable_lsb b.pixel (b.rowlen - b.pad).toNat (8 * n + q.val))) := by
  have hS1 : p.size = ((p.size.toNat : Nat) : Int) := (Int.toNat_of_nonneg (by omega)).symm
  have hW : b.rowlen - b.pad = (((b.rowlen - b.pad).toNat : Nat) : Int) :=
    (Int.toNat_of_nonneg (by omega)).symm
  have hR : b.rowlen = ((b.rowlen.toNat : Nat) : Int) := (Int.toNat_of_nonneg (by omega)).symm
  obtain ⟨out, bits1, k, h1, h2, h3, h4⟩ :=
    bitmap_uncover_rows_inv (b.rowlen - b.pad).toNat b.rowlen.toNat p.size.toNat
      b.height.toNat b.pixel p.bytes (by omega) (by omega) hcell b.height.toNat 0 bits p.bytes
      (by rw [Nat.zero_mul]; exact bitmap_uncover_inv_init _ _ _ _) (by omega) (by omega)
  have hk : k = 8 * p.size.toNat := by omega
  subst hk
  refine ⟨out, ?_, h2.1, ?_⟩
  · unfold bitmap_uncover
    rw [← hW, ← hR, ← hS1] at h1
    simp only [Nat.zero_mul, Nat.zero_div] at h1
    simp only [h1]
  · intro n hn
    have hnb : n < p.bytes.length := by omega
    rw [h2.2.1 n, if_pos (by omega), List.getElem?_eq_getElem hnb]
    rfl

/-! ## Bitmap claims -/

theorem pixel_cells_of_rows (b : bitmap) (hrows : b.height ≤ (b.pixel.length : Int))
    (hcols : ∀ row ∈ b.pixel, b.rowlen ≤ (row.length : Int)) (hpad : 0 ≤ b.pad) :
    ∀ i c, i < b.height.toNat → c < (b.rowlen - b.pad).toNat →
      (pixel_read b.pixel i c).isSome = true := by
  intro i c hi hc
  have hil : i < b.pixel.length := by omega
  unfold pixel_read
  rw [List.getElem?_eq_getElem hil]
  simp only
  have := hcols _ (List.getElem_mem hil)
  rw [List.getElem?_eq_getElem (by omega)]
  rfl

theorem bitmap_cover_inv_isSome (W : Nat) (bytes : List Nat) (px0 px : List (List Nat))
    (k : Nat) (hinv : bitmap_cover_inv W bytes px0 k px) (i c : Nat) :
    (pixel_read px i c).isSome = (pixel_read px0 i c).isSome := by
  rw [hinv.2 i c]
  split
  · cases pixel_read px0 i c <;> rfl
  · rfl

/-- In an embedded store the usable byte with scan index `m` carries bit
`7 - m % 8` of payload byte `m / 8`. -/
theorem covered_usable_cell (W : Nat) (bytes : List Nat) (px0 px : List (List Nat)) (k m : Nat)
    (hinv : bitmap_cover_inv W bytes px0 k px) (hm : m < k) (hW : 0 < W)
    (hex : (pixel_read px0 (m / W) (m % W)).isSome = true) :
    ∃ x, pixel_read px (m / W) (m % W) = some x ∧
      x % 2 = (bytes.getD (m / 8) 0 >>> (7 - m % 8)) % 2 := by
  obtain ⟨x0, hx0⟩ := Option.isSome_iff_exists.1 hex
  have hidx : m / W * W + m % W = m := Nat.div_add_mod' m W
  have h := hinv.2 (m / W) (m % W)
  rw [if_pos ⟨Nat.mod_lt _ hW, by omega⟩, hx0, hidx] at h
  exact ⟨_, h, lsb_mix_mod_two _ _ _⟩

theorem covered_usable_lsb (W : Nat) (bytes : List Nat) (px0 px : List (List Nat)) (k m : Nat)
    (hinv : bitmap_cover_inv W bytes px0 k px) (hm : m < k) (hW : 0 < W)
    (hex : (pixel_read px0 (m / W) (m % W)).isSome = true) :
    usable_lsb px W m = (bytes.getD (m / 8) 0 >>> (7 - m % 8)) % 2 := by
  obtain ⟨x, hx, hx2⟩ := covered_usable_cell W bytes px0 px k m hinv hm hW hex
  unfold usable_lsb
  rw [hx, Option.getD_some, Nat.and_one_is_mod, hx2]

theorem pixel_store_cells (b : bitmap) (hstore : pixel_store b) :
    ∀ i c, i < b.height.toNat → c < (b.rowlen - b.pad).toNat →
      (pixel_read b.pixel i c).isSome = true :=
  pixel_cells_of_rows b hstore.2.2.1 hstore.2.2.2 hstore.1

/-- C3: bit order of the bitmap embed.  For a pixel store and a payload of
`S >= 1` bytes with `8*S <= height*(rowlen - pad)`, `bitmap_cover` returns a store
in which, for every `n < S` and `k < 8`, the usable byte with scan index `8n+k`
(row `(8n+k) div (rowlen-pad)`, column `(8n+k) mod (rowlen-pad)`) has as its
least-significant bit the bit `7-k` of payload byte `n`. -/
theorem bitmap_bit_order (b : bitmap) (p : payload) (hstore : pixel_store b)
    (hS : 1 ≤ p.size) (hp : (p.bytes.length : Int) = p.size)
    (hcap : 8 * p.size ≤ b.height * (b.rowlen - b.pad)) :
    ∃ b1, bitmap_cover b p = some b1 ∧
      ∀ n k : Nat, n < p.size.toNat → k < 8 →
        ∃ x, pixel_read b1.pixel ((8 * n + k) / (b.rowlen - b.pad).toNat)
            ((8 * n + k) % (b.rowlen - b.pad).toNat) = some x ∧
          x % 2 = (p.bytes.getD n 0 / 2 ^ (7 - k)) % 2 := by
  obtain ⟨hpad, hrow, hrows, hcols⟩ := hstore
  have hcell := pixel_cells_of_rows b hrows hcols hpad
  obtain ⟨px, k, hc, hinv, hk1, hk2⟩ := bitmap_cover_spec b p hpad hrow hS hp hcell
  have hh : 0 ≤ b.height := by
    by_contra hneg
    have : b.height * (b.rowlen - b.pad) ≤ 0 :=
      Int.mul_nonpos_of_nonpos_of_nonneg (by omega) (by omega)
    omega
  have hcapN : 8 * p.size.toNat ≤ b.height.toNat * (b.rowlen - b.pad).toNat := by
    have e1 : ((p.size.toNat : Nat) : Int) = p.size := Int.toNat_of_nonneg (by omega)
    have e2 : ((b.height.toNat : Nat) : Int) = b.height := Int.toNat_of_nonneg hh
    have e3 : (((b.rowlen - b.pad).toNat : Nat) : Int) = b.rowlen - b.pad :=
      Int.toNat_of_nonneg (by omega)
    have h1 : ((8 * p.size.toNat : Nat) : Int) ≤
        ((b.height.toNat * (b.rowlen - b.pad).toNat : Nat) : Int) := by
      push_cast
      rw [e1, e2, e3]
      exact hcap
    exact_mod_cast h1
  have hk : k = 8 * p.size.toNat := by omega
  subst hk
  have hWpos : 0 < (b.rowlen - b.pad).toNat := by
    rcases Nat.eq_zero_or_pos (b.rowlen - b.pad).toNat with h | h
    · rw [h, Nat.mul_zero] at hcapN; omega
    · exact h
  refine ⟨_, hc, ?_⟩
  intro n k hn hk
  have hm : 8 * n + k < b.height.toNat * (b.rowlen - b.pad).toNat := by omega
  obtain ⟨x, hx, hx2⟩ := covered_usable_cell _ p.bytes b.pixel px _ (8 * n + k) hinv
    (by omega) hWpos
    (hcell _ _ (Nat.div_lt_of_lt_mul (by rw [Nat.mul_comm b.height.toNat] at hm; exact hm))
      (Nat.mod_lt _ hWpos))
  have h1 : (8 * n + k) / 8 = n := by omega
  have h2 : (8 * n + k) % 8 = k := by omega
  rw [h1, h2, Nat.shiftRight_eq_div_pow] at hx2
  exact ⟨x, hx, hx2⟩

/-- Witness for C3: after embedding `0xAA` into `bitmap_2x2`, the usable byte with
scan index 2 (row 0, column 2) has LSB 1, the bit 5 of `0xAA`. -/
theorem bitmap_bit_order_witness :
    ∃ b1, bitmap_cover bitmap_2x2 (payload.mk 1 [0xAA]) = some b1 ∧
      ∃ x, pixel_read b1.pixel 0 2 = some x ∧ x % 2 = 1 := by
  obtain ⟨b1, h1, h2⟩ := bitmap_bit_order bitmap_2x2 (payload.mk 1 [0xAA]) (by decide)
    (by decide) (by decide) (by decide)
  exact ⟨b1, h1, h2 0 2 (by decide) (by decide)⟩

/-- C9: non-destructive padding.  For a pixel store (`0 <= pad <= rowlen`) and a
payload of any size `S >= 1`, `bitmap_cover` returns a store of the same shape in
which every byte `[i][j]` with `j >= rowlen - pad` has its pre-embed value. -/
theorem bitmap_padding_untouched (b : bitmap) (p : payload) (hstore : pixel_store b)
    (hS : 1 ≤ p.size) (hp : (p.bytes.length : Int) = p.size) :
    ∃ b1, bitmap_cover b p = some b1 ∧
      b1.pixel.map List.length = b.pixel.map List.length ∧
      ∀ i j : Nat, b.rowlen - b.pad ≤ (j : Int) →
        pixel_read b1.pixel i j = pixel_read b.pixel i j := by
  obtain ⟨px, k, hc, hinv, _, _⟩ := bitmap_cover_spec b p hstore.1 hstore.2.1 hS hp
    (pixel_store_cells b hstore)
  refine ⟨_, hc, hinv.1, ?_⟩
  intro i j hj
  have := hinv.2 i j
  rw [if_neg (fun h => by omega)] at this
  exact this

/-- Witness for C9: embedding two bytes into `bitmap_2x2` (room for one and a
half) leaves the pad byte `[0][6]` as it was. -/
theorem bitmap_padding_untouched_witness :
    ∃ b1, bitmap_cover bitmap_2x2 (payload.mk 2 [0xFF, 0xFF]) = some b1 ∧
      pixel_read b1.pixel 0 6 = pixel_read bitmap_2x2.pixel 0 6 := by
  obtain ⟨b1, h1, _, h2⟩ := bitmap_padding_untouched bitmap_2x2 (payload.mk 2 [0xFF, 0xFF])
    (by decide) (by decide) (by decide)
  exact ⟨b1, h1, h2 0 6 (by decide)⟩

/-- Counterexample to C10 as stated (the empty payload): both embed loops write a
carrier byte before they compare `bytecount` with `size`.  With `size = 0` they
read `p->bytes[0]`: on an empty buffer that read is out of bounds (no result),
and when a byte `0x80` lies there the first carrier byte, scan index `0 >= 8*0`,
changes from `0x04` to `0x05`. -/
theorem empty_payload_touches_carrier :
    bitmap_cover bitmap_2x2 (payload.mk 0 []) = none ∧
    (bitmap_cover bitmap_2x2 (payload.mk 0 [0x80])).map (fun b => pixel_read b.pixel 0 0) =
      some (some 5) ∧
    pixel_read bitmap_2x2.pixel 0 0 = some 4 ∧
    pcm_cover 17 wav_16 (payload.mk 0 []) = none ∧
    (pcm_cover 17 wav_16 (payload.mk 0 [0x80])).map (fun w => w.samples[0]?) =
      some (some 5) ∧
    wav_16.samples[0]? = some 4 := by
  decide

/-- C10 (amended): for a payload of `S >= 1` bytes, `bitmap_cover` and `pcm_cover`
return a store in which every usable carrier byte with scan index `>= 8*S` (cell
`[i][c]`, `c < rowlen - pad`, `i*(rowlen-pad) + c >= 8*S`; sample byte
`t*sample_size`, `t >= 8*S`) has its pre-embed value. -/
theorem embedding_stops_with_payload (b : bitmap) (w : pcm) (p : payload) (fuel : Nat)
    (hstore : pixel_store b) (hsamples : (w.samples.length : Int) = w.subchunk2size)
    (hss : 1 ≤ w.sample_size) (hS : 1 ≤ p.size) (hp : (p.bytes.length : Int) = p.size)
    (hfuel : w.subchunk2size < fuel) :
    (∃ b1, bitmap_cover b p = some b1 ∧
      ∀ i c : Nat, c < (b.rowlen - b.pad).toNat →
        8 * p.size.toNat ≤ i * (b.rowlen - b.pad).toNat + c →
        pixel_read b1.pixel i c = pixel_read b.pixel i c) ∧
    (∃ w1, pcm_cover fuel w p = some w1 ∧
      ∀ t : Nat, 8 * p.size.toNat ≤ t →
        w1.samples[t * w.sample_size.toNat]? = w.samples[t * w.sample_size.toNat]?) := by
  constructor
  · obtain ⟨px, k, hc, hinv, hk, _⟩ := bitmap_cover_spec b p hstore.1 hstore.2.1 hS hp
      (pixel_store_cells b hstore)
    refine ⟨_, hc, ?_⟩
    intro i c _ hidx
    have := hinv.2 i c
    rw [if_neg (fun h => by omega)] at this
    exact this
  · obtain ⟨out, T, hc, hinv, hT, _⟩ := pcm_cover_spec w p fuel hsamples hss hS hp hfuel
    refine ⟨_, hc, ?_⟩
    intro t ht
    have := hinv.2 (t * w.sample_size.toNat)
    rw [if_neg] at this
    · exact this
    · rw [Nat.mul_div_cancel _ (by omega : 0 < w.sample_size.toNat)]
      omega

/-- Witness for C10 (amended): one byte embedded into `bitmap_2x2` and into
`wav_32` leaves the usable byte with scan index 8 untouched (cell `[1][2]` of the
bitmap, sample byte `8 * 2` of the WAV store). -/
theorem embedding_stops_with_payload_witness :
    (∃ b1, bitmap_cover bitmap_2x2 (payload.mk 1 [0xFF]) = some b1 ∧
      pixel_read b1.pixel 1 2 = pixel_read bitmap_2x2.pixel 1 2) ∧
    (∃ w1, pcm_cover 33 wav_32 (payload.mk 1 [0xFF]) = some w1 ∧
      w1.samples[8 * 2]? = wav_32.samples[8 * 2]?) := by
  obtain ⟨⟨b1, h1, h2⟩, ⟨w1, h3, h4⟩⟩ := embedding_stops_with_payload bitmap_2x2 wav_32
    (payload.mk 1 [0xFF]) 33 (by decide) (by decide) (by decide) (by decide) (by decide)
    (by decide)
  exact ⟨⟨b1, h1, h2 1 2 (by decide) (by decide)⟩, ⟨w1, h3, h4 8 (by decide)⟩⟩

/-! ## Bit order of the WAV embed and the bitmap extract as a sum -/

/-- C13: bit order of the WAV embed.  For a sample store of `subchunk2size`
bytes, `sample_size >= 1` and a payload of `S >= 1` bytes with
`8*S <= ceil(subchunk2size / sample_size)`, `pcm_cover` returns a store in which,
for every `n < S` and `k < 8`, the byte `samples[(8n+k)*sample_size]` has as its
least-significant bit the bit `7-k` of payload byte `n`. -/
theorem pcm_bit_order (w : pcm) (p : payload) (fuel : Nat)
    (hstore : (w.samples.length : Int) = w.subchunk2size) (hss : 1 ≤ w.sample_size)
    (hS : 1 ≤ p.size) (hp : (p.bytes.length : Int) = p.size)
    (hcap : 8 * p.size ≤ (w.subchunk2size + w.sample_size - 1) / w.sample_size)
    (hfuel : w.subchunk2size < fuel) :
    ∃ w1, pcm_cover fuel w p = some w1 ∧
      ∀ n k : Nat, n < p.size.toNat → k < 8 →
        ∃ x, w1.samples[(8 * n + k) * w.sample_size.toNat]? = some x ∧
          x % 2 = (p.bytes.getD n 0 / 2 ^ (7 - k)) % 2 := by
  have hlast := last_target_of_ceil _ _ _ hss hS hcap
  rw [← hstore, Int.toNat_ofNat] at hlast
  obtain ⟨out, T, hc, hinv, hT, hT2⟩ := pcm_cover_spec w p fuel hstore hss hS hp hfuel
  have hssN : 1 ≤ w.sample_size.toNat := by omega
  have hTeq : T = 8 * p.size.toNat := by
    rcases hT2 with h | h
    · exact h
    · have h1 : (8 * p.size.toNat - 1) * w.sample_size.toNat < T * w.sample_size.toNat := by
        omega
      have h2 : 8 * p.size.toNat - 1 < T := Nat.lt_of_mul_lt_mul_right h1
      omega
  subst hTeq
  refine ⟨_, hc, ?_⟩
  intro n k hn hk
  have hin : (8 * n + k) * w.sample_size.toNat < w.samples.length := by
    calc (8 * n + k) * w.sample_size.toNat
        ≤ (8 * p.size.toNat - 1) * w.sample_size.toNat := Nat.mul_le_mul_right _ (by omega)
      _ < w.samples.length := hlast
  obtain ⟨x, _, hx⟩ := pcm_covered_target _ p.bytes w.samples out _ (8 * n + k) hssN hinv
    (by omega) hin
  refine ⟨_, hx, ?_⟩
  have h1 : (8 * n + k) / 8 = n := by omega
  have h2 : (8 * n + k) % 8 = k := by omega
  rw [lsb_mix_mod_two, h1, h2, Nat.shiftRight_eq_div_pow]

/-- Witness for C13: after embedding `0xAA` into `wav_16`, sample byte `2 * 2`
(target 2) has LSB 1, the bit 5 of `0xAA`. -/
theorem pcm_bit_order_witness :
    ∃ w1, pcm_cover 17 wav_16 (payload.mk 1 [0xAA]) = some w1 ∧
      ∃ x, w1.samples[2 * 2]? = some x ∧ x % 2 = 1 := by
  obtain ⟨w1, h1, h2⟩ := pcm_bit_order wav_16 (payload.mk 1 [0xAA]) 17 (by decide) (by decide)
    (by decide) (by decide) (by decide) (by decide)
  exact ⟨w1, h1, h2 0 2 (by decide) (by decide)⟩

/-- The byte `assemble` builds from eight bits is their weighted sum, most
significant bit first. -/
theorem assemble_list_sum (b0 b1 b2 b3 b4 b5 b6 b7 : Nat) (h0 : b0 < 2) (h1 : b1 < 2)
    (h2 : b2 < 2) (h3 : b3 < 2) (h4 : b4 < 2) (h5 : b5 < 2) (h6 : b6 < 2) (h7 : b7 < 2) :
    assemble (fun q => [b0, b1, b2, b3, b4, b5, b6, b7].getD q.val 0) =
      b0 * 128 + b1 * 64 + b2 * 32 + b3 * 16 + b4 * 8 + b5 * 4 + b6 * 2 + b7 := by
  have hfun : (fun q : Fin 8 => [b0, b1, b2, b3, b4, b5, b6, b7].getD q.val 0) =
      fun q : Fin 8 =>
        ((b0 * 128 + b1 * 64 + b2 * 32 + b3 * 16 + b4 * 8 + b5 * 4 + b6 * 2 + b7) >>>
          (7 - q.val)) % 2 := by
    funext q
    fin_cases q <;> simp [Nat.shiftRight_eq_div_pow] <;> omega
  rw [hfun]
  exact assemble_bits_of_byte _ (by omega)

theorem assemble_eq_sum (bits : Fin 8 → Nat) (hb : ∀ q, bits q < 2) :
    assemble bits = Finset.sum (Finset.range 8) (fun k =>
      (if h : k < 8 then bits ⟨k, h⟩ else 0) * 2 ^ (7 - k)) := by
  have hfun : bits = fun q =>
      [bits 0, bits 1, bits 2, bits 3, bits 4, bits 5, bits 6, bits 7].getD q.val 0 := by
    funext q
    fin_cases q <;> rfl
  rw [hfun, assemble_list_sum _ _ _ _ _ _ _ _ (hb 0) (hb 1) (hb 2) (hb 3) (hb 4) (hb 5) (hb 6)
    (hb 7)]
  simp [Finset.sum_range_succ]

/-! ## Frame of the embed: bits 1 to 7, bytes off the stride -/

theorem lsb_mix_high (x byte t : Nat) : lsb_mix x byte t &&& 0xFE = x &&& 0xFE := by
  unfold lsb_mix
  have h1 : (1 &&& (byte >>> (7 - t % 8))) = (byte >>> (7 - t % 8)) % 2 := by
    rw [Nat.and_comm, Nat.and_one_is_mod]
  rw [h1]
  have hb : (byte >>> (7 - t % 8)) % 2 < 2 := Nat.mod_lt _ (by decide)
  generalize (byte >>> (7 - t % 8)) % 2 = b at hb
  apply Nat.eq_of_testBit_eq
  intro i
  have h256 : (256 : Nat) = 2 ^ 8 := by norm_num
  rw [Nat.testBit_and, Nat.testBit_and, h256, Nat.testBit_mod_two_pow, Nat.testBit_or,
    Nat.testBit_and]
  by_cases hi : i < 8
  · have hbi : b.testBit i = (decide (i = 0) && decide (b = 1)) := by
      interval_cases b <;> interval_cases i <;> decide
    have hA : Nat.testBit 4294967294 i = decide (i ≠ 0) := by
      interval_cases i <;> decide
    have hB : Nat.testBit 254 i = decide (i ≠ 0) := by
      interval_cases i <;> decide
    rw [hbi, hA, hB]
    by_cases h0 : i = 0
    · subst h0; simp
    · cases x.testBit i <;> simp [h0, hi]
  · have : Nat.testBit 254 i = false := by
      apply Nat.testBit_lt_two_pow
      calc 254 < 2 ^ 8 := by norm_num
        _ ≤ 2 ^ i := Nat.pow_le_pow_right (by norm_num) (by omega)
    simp [this]

theorem high_bits_kept_refl (px : List (List Nat)) : high_bits_kept px px :=
  ⟨rfl, fun _ _ => rfl⟩

theorem high_bits_kept_trans (px px1 px2 : List (List Nat)) (h1 : high_bits_kept px px1)
    (h2 : high_bits_kept px1 px2) : high_bits_kept px px2 :=
  ⟨h2.1.trans h1.1, fun i j => (h2.2 i j).trans (h1.2 i j)⟩

theorem high_bits_kept_write (px : List (List Nat)) (i j x byte t : Nat)
    (hx : pixel_read px i j = some x) :
    high_bits_kept px (pixel_write px i j (lsb_mix x byte t)) := by
  refine ⟨pixel_write_shape _ _ _ _, ?_⟩
  intro i1 c
  rw [pixel_read_write]
  by_cases h : i1 = i ∧ c = j
  · obtain ⟨h1, h2⟩ := h
    subst h1 h2
    rw [if_pos ⟨rfl, rfl⟩, hx]
    simp only [Option.map_some']
    rw [lsb_mix_high]
  · rw [if_neg h]

theorem bitmap_cover_cols_high (L : Int) (p : payload) (i : Nat) :
    ∀ (n j : Nat) (px : List (List Nat)) (k bc : Nat)
      (r : List (List Nat) × Nat × Nat × Bool),
      bitmap_cover_cols L p i n j px k bc = some r → high_bits_kept px r.1 := by
  intro n
  induction n with
  | zero =>
    intro j px k bc r h
    unfold bitmap_cover_cols at h
    injection h with h
    subst h
    exact high_bits_kept_refl px
  | succ n ih =>
    intro j px k bc r h
    unfold bitmap_cover_cols at h
    by_cases hj : (j : Int) = L
    · rw [if_pos hj] at h
      injection h with h
      subst h
      exact high_bits_kept_refl px
    · rw [if_neg hj] at h
      cases hx : pixel_read px i j with
      | none => simp only [hx] at h; cases h
      | some x =>
        cases hb : p.bytes[bc]? with
        | none => simp only [hx, hb] at h; cases h
        | some byte =>
          simp only [hx, hb] at h
          have hw := high_bits_kept_write px i j x byte k hx
          by_cases hd : (((if (k + 1) % 8 = 0 then bc + 1 else bc : Nat) : Int)) = p.size
          · rw [if_pos hd] at h
            injection h with h
            subst h
            exact hw
          · rw [if_neg hd] at h
            exact high_bits_kept_trans _ _ _ hw (ih _ _ _ _ _ h)

theorem bitmap_cover_rows_high (R L : Int) (p : payload) :
    ∀ (n i : Nat) (px : List (List Nat)) (k bc : Nat) (out : List (List Nat)),
      bitmap_cover_rows R L p n i px k bc = some out → high_bits_kept px out := by
  intro n
  induction n with
  | zero =>
    intro i px k bc out h
    unfold bitmap_cover_rows at h
    injection h with h
    subst h
    exact high_bits_kept_refl px
  | succ n ih =>
    intro i px k bc out h
    unfold bitmap_cover_rows at h
    cases hc : bitmap_cover_cols L p i R.toNat 0 px k bc with
    | none => simp only [hc] at h; cases h
    | some r =>
      obtain ⟨px1, k1, bc1, fin⟩ := r
      simp only [hc] at h
      have h1 := bitmap_cover_cols_high L p i _ _ _ _ _ _ hc
      cases fin with
      | true =>
        simp only [if_true] at h
        injection h with h
        subst h
        exact h1
      | false =>
        simp only [Bool.false_eq_true, if_false] at h
        exact high_bits_kept_trans _ _ _ h1 (ih _ _ _ _ _ h)

/-- Whatever the store and the payload, a store that `bitmap_cover` returns has the
shape of the input and its bits 1 to 7. -/
theorem bitmap_cover_high (b b1 : bitmap) (p : payload) (h : bitmap_cover b p = some b1) :
    high_bits_kept b.pixel b1.pixel := by
  unfold bitmap_cover at h
  cases hr : bitmap_cover_rows b.rowlen (b.rowlen - b.pad) p b.height.toNat 0 b.pixel 0 0 with
  | none => simp only [hr] at h; cases h
  | some px =>
    simp only [hr] at h
    injection h with h
    subst h
    exact bitmap_cover_rows_high _ _ _ _ _ _ _ _ _ hr

theorem sample_high_bits_kept_set (s : List Nat) (i x byte t : Nat) (hx : s[i]? = some x) :
    sample_high_bits_kept s (s.set i (lsb_mix x byte t)) := by
  refine ⟨List.length_set _ _ _, ?_⟩
  intro m
  rw [List.getElem?_set]
  by_cases h : i = m
  · subst h
    have hlt : i < s.length := by
      rcases Nat.lt_or_ge i s.length with h | h
      · exact h
      · rw [List.getElem?_eq_none h] at hx; cases hx
    rw [if_pos rfl, if_pos hlt, hx]
    simp only [Option.map_some']
    rw [lsb_mix_high]
  · rw [if_neg h]

theorem pcm_cover_loop_high (sub ss : Int) (p : payload) :
    ∀ (fuel : Nat) (i : Int) (s : List Nat) (k bc : Nat) (out : List Nat),
      pcm_cover_loop sub ss p fuel i s k bc = some out → sample_high_bits_kept s out := by
  intro fuel
  induction fuel with
  | zero =>
    intro i s k bc out h
    unfold pcm_cover_loop at h
    cases h
  | succ fuel ih =>
    intro i s k bc out h
    unfold pcm_cover_loop at h
    by_cases hi : i < sub
    · rw [if_pos hi] at h
      by_cases hneg : i < 0
      · rw [if_pos hneg] at h; cases h
      · rw [if_neg hneg] at h
        cases hx : s[i.toNat]? with
        | none => simp only [hx] at h; cases h
        | some x =>
          cases hb : p.bytes[bc]? with
          | none => simp only [hx, hb] at h; cases h
          | some byte =>
            simp only [hx, hb] at h
            have hw := sample_high_bits_kept_set s i.toNat x byte k hx
            by_cases hd : (((if (k + 1) % 8 = 0 then bc + 1 else bc : Nat) : Int)) = p.size
            · rw [if_pos hd] at h
              injection h with h
              subst h
              exact hw
            · rw [if_neg hd] at h
              have h2 := ih _ _ _ _ _ h
              exact ⟨h2.1.trans hw.1, fun m => (h2.2 m).trans (hw.2 m)⟩
    · rw [if_neg hi] at h
      injection h with h
      subst h
      exact ⟨rfl, fun _ => rfl⟩

/-- Whatever the store, the stride and the payload, a store that `pcm_cover`
returns has the length of the input and its bits 1 to 7. -/
theorem pcm_cover_high (fuel : Nat) (w w1 : pcm) (p : payload)
    (h : pcm_cover fuel w p = some w1) : sample_high_bits_kept w.samples w1.samples := by
  unfold pcm_cover at h
  cases hr : pcm_cover_loop w.subchunk2size w.sample_size p fuel 0 w.samples 0 0 with
  | none => simp only [hr] at h; cases h
  | some out =>
    simp only [hr] at h
    injection h with h
    subst h
    exact pcm_cover_loop_high _ _ _ _ _ _ _ _ _ hr

theorem pcm_cover_loop_off_stride (sub : Int) (ss : Nat) (p : payload) :
    ∀ (fuel t : Nat) (s : List Nat) (k bc : Nat) (out : List Nat),
      pcm_cover_loop sub (ss : Int) p fuel ((t * ss : Nat) : Int) s k bc = some out →
      off_stride_kept ss s out := by
  intro fuel
  induction fuel with
  | zero =>
    intro t s k bc out h
    unfold pcm_cover_loop at h
    cases h
  | succ fuel ih =>
    intro t s k bc out h
    unfold pcm_cover_loop at h
    by_cases hi : ((t * ss : Nat) : Int) < sub
    · rw [if_pos hi] at h
      have hneg : ¬ ((t * ss : Nat) : Int) < 0 := by omega
      rw [if_neg hneg, Int.toNat_ofNat] at h
      cases hx : s[t * ss]? with
      | none => simp only [hx] at h; cases h
      | some x =>
        cases hb : p.bytes[bc]? with
        | none => simp only [hx, hb] at h; cases h
        | some byte =>
          simp only [hx, hb] at h
          have hw : off_stride_kept ss s (s.set (t * ss) (lsb_mix x byte k)) := by
            refine ⟨List.length_set _ _ _, ?_⟩
            intro m hm
            rw [List.getElem?_set, if_neg]
            intro he
            rw [← he, Nat.mul_mod_left] at hm
            exact hm rfl
          by_cases hd : (((if (k + 1) % 8 = 0 then bc + 1 else bc : Nat) : Int)) = p.size
          · rw [if_pos hd] at h
            injection h with h
            subst h
            exact hw
          · rw [if_neg hd] at h
            have hcast : ((t * ss : Nat) : Int) + (ss : Int) = (((t + 1) * ss : Nat) : Int) := by
              push_cast; ring
            rw [hcast] at h
            have h2 := ih _ _ _ _ _ h
            exact ⟨h2.1.trans hw.1, fun m hm => (h2.2 m hm).trans (hw.2 m hm)⟩
    · rw [if_neg hi] at h
      injection h with h
      subst h
      exact ⟨rfl, fun _ _ => rfl⟩

/-- Whatever the store and the payload, for a stride `sample_size >= 1` a store
that `pcm_cover` returns agrees with the input at every index off the stride. -/
theorem pcm_cover_off_stride (fuel : Nat) (w w1 : pcm) (p : payload) (hss : 1 ≤ w.sample_size)
    (h : pcm_cover fuel w p = some w1) :
    off_stride_kept w.sample_size.toNat w.samples w1.samples := by
  unfold pcm_cover at h
  cases hr : pcm_cover_loop w.subchunk2size w.sample_size p fuel 0 w.samples 0 0 with
  | none => simp only [hr] at h; cases h
  | some out =>
    simp only [hr] at h
    injection h with h
    subst h
    have hss1 : w.sample_size = ((w.sample_size.toNat : Nat) : Int) :=
      (Int.toNat_of_nonneg (by omega)).symm
    have h0 : (0 : Int) = ((0 * w.sample_size.toNat : Nat) : Int) := by simp
    rw [hss1, h0] at hr
    exact pcm_cover_loop_off_stride _ _ _ _ _ _ _ _ _ hr

/-- The capacity condition `8*S <= height*(rowlen - pad)` in natural numbers. -/
theorem usable_capacity_nat (b : bitmap) (p : payload) (hpad : b.pad ≤ b.rowlen)
    (hS : 1 ≤ p.size) (hcap : 8 * p.size ≤ b.height * (b.rowlen - b.pad)) :
    8 * p.size.toNat ≤ b.height.toNat * (b.rowlen - b.pad).toNat := by
  have hh : 0 ≤ b.height := by
    by_contra hneg
    have : b.height * (b.rowlen - b.pad) ≤ 0 :=
      Int.mul_nonpos_of_nonpos_of_nonneg (by omega) (by omega)
    omega
  have e1 : ((p.size.toNat : Nat) : Int) = p.size := Int.toNat_of_nonneg (by omega)
  have e2 : ((b.height.toNat : Nat) : Int) = b.height := Int.toNat_of_nonneg hh
  have e3 : (((b.rowlen - b.pad).toNat : Nat) : Int) = b.rowlen - b.pad :=
    Int.toNat_of_nonneg (by omega)
  have h1 : ((8 * p.size.toNat : Nat) : Int) ≤
      ((b.height.toNat * (b.rowlen - b.pad).toNat : Nat) : Int) := by
    push_cast
    rw [e1, e2, e3]
    exact hcap
  exact_mod_cast h1

theorem usable_lsb_lt_two (px : List (List Nat)) (W m : Nat) : usable_lsb px W m < 2 := by
  unfold usable_lsb
  have := @Nat.and_le_right ((pixel_read px (m / W) (m % W)).getD 0) 1
  omega

/-- C14: the bitmap extract as a sum.  For a pixel store, a byte count `S >= 1`
with `8*S <= height*(rowlen - pad)` and any initial content of the payload buffer
(and of the local `bits` array), `bitmap_uncover` returns a buffer of the same
length whose byte `n`, for every `n < S`, is the sum over `k < 8` of (LSB of the
usable carrier byte with scan index `8n+k`, pad bytes skipped) times `2^(7-k)`. -/
theorem bitmap_extract_reference (bits : Fin 8 → Nat) (b : bitmap) (p : payload)
    (hstore : pixel_store b) (hS : 1 ≤ p.size) (hp : (p.bytes.length : Int) = p.size)
    (hcap : 8 * p.size ≤ b.height * (b.rowlen - b.pad)) :
    ∃ out, bitmap_uncover bits b p = some { p with bytes := out } ∧
      out.length = p.bytes.length ∧
      ∀ n, n < p.size.toNat →
        out[n]? = some (Finset.sum (Finset.range 8) (fun k =>
          usable_lsb b.pixel (b.rowlen - b.pad).toNat (8 * n + k) * 2 ^ (7 - k))) := by
  obtain ⟨out, hu, hl, hout⟩ := bitmap_uncover_spec bits b p hstore.1 hstore.2.1 hS hp
    (pixel_store_cells b hstore) (usable_capacity_nat b p hstore.2.1 hS hcap)
  refine ⟨out, hu, hl, ?_⟩
  intro n hn
  rw [hout n hn, assemble_eq_sum _ (fun q => usable_lsb_lt_two _ _ _)]
  exact congrArg some (Finset.sum_congr rfl
    (fun k hk => by rw [dif_pos (Finset.mem_range.1 hk)]))

/-- Witness for C14: from `bitmap_2x2`, whose usable bytes all have LSB 0, one byte
is extracted into a buffer that held `0xFF`; the byte is the sum of eight zero
bits. -/
theorem bitmap_extract_reference_witness :
    ∃ out, bitmap_uncover (fun _ => 7) bitmap_2x2 (payload.mk 1 [0xFF]) =
        some (payload.mk 1 out) ∧
      out[0]? = some (Finset.sum (Finset.range 8) (fun k =>
        usable_lsb bitmap_2x2.pixel 6 (8 * 0 + k) * 2 ^ (7 - k))) := by
  obtain ⟨out, h1, _, h2⟩ := bitmap_extract_reference (fun _ => 7) bitmap_2x2
    (payload.mk 1 [0xFF]) (by decide) (by decide) (by decide) (by decide)
  exact ⟨out, h1, h2 0 (by decide)⟩

/-- C15: only least-significant bits change.  Whatever the store and the payload,
a store returned by `bitmap_cover` (respectively `pcm_cover`) has the shape of the
input and agrees with it in bits 1 to 7 of every byte, `new & 0xFE = old & 0xFE`;
and on a pixel store (a sample store of `subchunk2size` bytes with a stride
`>= 1`) with a payload of `S >= 1` bytes both do return a store. -/
theorem only_lsb_changes (b : bitmap) (w : pcm) (p : payload) (fuel : Nat) :
    (∀ b1, bitmap_cover b p = some b1 →
      b1.pixel.map List.length = b.pixel.map List.length ∧
      ∀ i j, (pixel_read b1.pixel i j).map (fun x => x &&& 0xFE) =
        (pixel_read b.pixel i j).map (fun x => x &&& 0xFE)) ∧
    (∀ w1, pcm_cover fuel w p = some w1 →
      w1.samples.length = w.samples.length ∧
      ∀ m : Nat, (w1.samples[m]?).map (fun x => x &&& 0xFE) =
        (w.samples[m]?).map (fun x => x &&& 0xFE)) ∧
    (pixel_store b → 1 ≤ p.size → (p.bytes.length : Int) = p.size →
      ∃ b1, bitmap_cover b p = some b1) ∧
    ((w.samples.length : Int) = w.subchunk2size → 1 ≤ w.sample_size → 1 ≤ p.size →
      (p.bytes.length : Int) = p.size → w.subchunk2size < fuel →
      ∃ w1, pcm_cover fuel w p = some w1) := by
  refine ⟨fun b1 h => bitmap_cover_high b b1 p h, fun w1 h => pcm_cover_high fuel w w1 p h,
    ?_, ?_⟩
  · intro hstore hS hp
    obtain ⟨px, k, hc, _⟩ := bitmap_cover_spec b p hstore.1 hstore.2.1 hS hp
      (pixel_store_cells b hstore)
    exact ⟨_, hc⟩
  · intro hstore hss hS hp hfuel
    obtain ⟨out, T, hc, _⟩ := pcm_cover_spec w p fuel hstore hss hS hp hfuel
    exact ⟨_, hc⟩

/-- Witness for C15: embedding `0xFF` into `bitmap_2x2` and `wav_16` returns
stores whose byte 0 keeps bits 1 to 7 of `0x04`. -/
theorem only_lsb_changes_witness :
    (∃ b1, bitmap_cover bitmap_2x2 (payload.mk 1 [0xFF]) = some b1 ∧
      (pixel_read b1.pixel 0 0).map (fun x => x &&& 0xFE) = some 4) ∧
    (∃ w1, pcm_cover 17 wav_16 (payload.mk 1 [0xFF]) = some w1 ∧
      (w1.samples[0]?).map (fun x => x &&& 0xFE) = some 4) := by
  have h := only_lsb_changes bitmap_2x2 wav_16 (payload.mk 1 [0xFF]) 17
  obtain ⟨b1, hb1⟩ := h.2.2.1 (by decide) (by decide) (by decide)
  obtain ⟨w1, hw1⟩ := h.2.2.2 (by decide) (by decide) (by decide) (by decide) (by decide)
  refine ⟨⟨b1, hb1, ?_⟩, ⟨w1, hw1, ?_⟩⟩
  · rw [(h.1 b1 hb1).2 0 0]; decide
  · rw [(h.2.1 w1 hw1).2 0]; decide

/-- C16: the WAV embed touches only the first byte of each sample.  For a stride
`sample_size >= 1`, whatever the store and the payload, a store returned by
`pcm_cover` has the length of the input and the same value at every index that
is not a multiple of `sample_size`; and on a sample store of `subchunk2size`
bytes with a payload of `S >= 1` bytes `pcm_cover` does return a store. -/
theorem pcm_touches_first_bytes_only (w : pcm) (p : payload) (fuel : Nat)
    (hss : 1 ≤ w.sample_size) :
    (∀ w1, pcm_cover fuel w p = some w1 →
      w1.samples.length = w.samples.length ∧
      ∀ m : Nat, m % w.sample_size.toNat ≠ 0 → w1.samples[m]? = w.samples[m]?) ∧
    ((w.samples.length : Int) = w.subchunk2size → 1 ≤ p.size →
      (p.bytes.length : Int) = p.size → w.subchunk2size < fuel →
      ∃ w1, pcm_cover fuel w p = some w1) := by
  refine ⟨fun w1 h => pcm_cover_off_stride fuel w w1 p hss h, ?_⟩
  intro hstore hS hp hfuel
  obtain ⟨out, T, hc, _⟩ := pcm_cover_spec w p fuel hstore hss hS hp hfuel
  exact ⟨_, hc⟩

/-- Witness for C16: embedding `0xFF` into `wav_16` (stride 2) returns a store
whose byte 1, the second byte of the first sample, is still `0x04`. -/
theorem pcm_touches_first_bytes_only_witness :
    ∃ w1, pcm_cover 17 wav_16 (payload.mk 1 [0xFF]) = some w1 ∧ w1.samples[1]? = some 4 := by
  have h := pcm_touches_first_bytes_only wav_16 (payload.mk 1 [0xFF]) 17 (by decide)
  obtain ⟨w1, hw1⟩ := h.2 (by decide) (by decide) (by decide) (by decide)
  refine ⟨w1, hw1, ?_⟩
  rw [(h.1 w1 hw1).2 1 (by decide)]; decide

/-! ## `stdio` and the tag scanner -/

theorem fread_bytes_full (n : Nat) (data : List Nat) (pos : Nat) (h : pos + n ≤ data.length) :
    fread_bytes n (file_handle.mk data pos) =
      ((data.drop pos).take n, file_handle.mk data (pos + n)) ∧
    ((data.drop pos).take n).length = n := by
  have hl : ((data.drop pos).take n).length = n := by
    rw [List.length_take, List.length_drop]; omega
  refine ⟨?_, hl⟩
  unfold fread_bytes
  simp only [hl]

theorem store_bytes_full (avail old : List Nat) (h : old.length ≤ avail.length) :
    store_bytes avail old = avail := by
  unfold store_bytes
  rw [List.drop_of_length_le h, List.append_nil]

theorem fseek_set_nat (fp : file_handle) (k : Nat) :
    fseek_set fp (k : Int) = file_handle.mk fp.data k := by
  unfold fseek_set
  rw [if_neg (by omega), Int.toNat_ofNat]

theorem tag_at_length (data : List Nat) (q : Nat) (id : List Nat) (hid : id.length = 4)
    (h : tag_at data q id) : q + 4 ≤ data.length := by
  unfold tag_at at h
  have := congrArg List.length h
  rw [List.length_take, List.length_drop, hid] at this
  omega

theorem strncmp_eq_iff (a id : List Nat) (ha : a.length = 4) (hid : id.length = 4)
    (hnz : ∀ x ∈ id, x ≠ 0) : strncmp_eq 4 a id = true ↔ a = id := by
  match a, ha with
  | [a0, a1, a2, a3], _ =>
    match id, hid with
    | [i0, i1, i2, i3], _ =>
      have h0 : i0 ≠ 0 := hnz i0 (by simp)
      have h1 : i1 ≠ 0 := hnz i1 (by simp)
      have h2 : i2 ≠ 0 := hnz i2 (by simp)
      have h3 : i3 ≠ 0 := hnz i3 (by simp)
      simp only [strncmp_eq, List.headD_cons, List.tail_cons]
      constructor
      · intro h
        by_cases e0 : a0 = i0
        · by_cases e1 : a1 = i1
          · by_cases e2 : a2 = i2
            · by_cases e3 : a3 = i3
              · subst e0 e1 e2 e3; rfl
              · subst e0 e1 e2; simp [h0, h1, h2, e3] at h
            · subst e0 e1; simp [h0, h1, e2] at h
          · subst e0; simp [h0, e1] at h
        · simp [e0] at h
      · intro h
        injection h with e0 h
        injection h with e1 h
        injection h with e2 h
        injection h with e3 _
        subst e0 e1 e2 e3
        simp [h0, h1, h2, h3]

/-- Scanning from absolute position `i` (the counter of `pcm_find_string` already
at `i + 1`) reaches the first occurrence `q` of the tag in the file. -/
theorem pcm_find_string_scan (id data : List Nat) (hid : id.length = 4)
    (hnz : ∀ x ∈ id, x ≠ 0) (q : Nat) (hq : tag_at data q id)
    (hmin : ∀ q1, q1 < q → ¬ tag_at data q1 id) :
    ∀ (steps i : Nat) (buf : List Nat), i ≤ q → buf.length = 4 → q + 1 ≤ steps + i →
      pcm_find_string_loop id steps (file_handle.mk data i) (i + 1) buf =
        Except.ok (1, file_handle.mk data (q + 4)) := by
  have hlen := tag_at_length data q id hid hq
  intro steps
  induction steps with
  | zero => intro i buf hi _ hs; omega
  | succ steps ih =>
    intro i buf hi hbuf hs
    unfold pcm_find_string_loop
    obtain ⟨hr, hl⟩ := fread_bytes_full 4 data i (by omega)
    rw [hr]
    simp only [hl, if_true]
    rw [store_bytes_full _ _ (by omega)]
    by_cases hiq : i = q
    · subst hiq
      have : strncmp_eq 4 (List.take 4 (List.drop i data)) id = true :=
        (strncmp_eq_iff _ _ hl hid hnz).2 hq
      rw [if_pos this]
    · have hne : ¬ strncmp_eq 4 (List.take 4 (List.drop i data)) id = true := by
        intro h
        exact hmin i (by omega) ((strncmp_eq_iff _ _ hl hid hnz).1 h)
      rw [if_neg hne, if_neg (by decide)]
      rw [fseek_set_nat]
      exact ih (i + 1) _ (by omega) hl (by omega)

/-- What `pcm_find_string` returns when the tag is in the file: the position after
the tag at the start position `P` if it is there; otherwise, when four bytes can be
read at `P`, the position after the first occurrence of the tag in the file. -/
theorem pcm_find_string_result (id buf data : List Nat) (P : Nat) (hid : id.length = 4)
    (hnz : ∀ x ∈ id, x ≠ 0) (hbuf : buf.length = 4) :
    (tag_at data P id →
      pcm_find_string id buf (file_handle.mk data P) =
        Except.ok (1, file_handle.mk data (P + 4))) ∧
    (P + 4 ≤ data.length → ¬ tag_at data P id →
      ∀ q, tag_at data q id → (∀ q1, q1 < q → ¬ tag_at data q1 id) →
        pcm_find_string id buf (file_handle.mk data P) =
          Except.ok (1, file_handle.mk data (q + 4))) := by
  constructor
  · intro hP
    have hlen := tag_at_length data P id hid hP
    unfold pcm_find_string pcm_find_string_loop
    obtain ⟨hr, hl⟩ := fread_bytes_full 4 data P hlen
    simp only [hr, hl, if_true]
    rw [store_bytes_full _ _ (by omega)]
    have : strncmp_eq 4 (List.take 4 (List.drop P data)) id = true :=
      (strncmp_eq_iff _ _ hl hid hnz).2 hP
    rw [if_pos this]
  · intro hlen hP q hq hmin
    have hqlen := tag_at_length data q id hid hq
    unfold pcm_find_string pcm_find_string_loop
    obtain ⟨hr, hl⟩ := fread_bytes_full 4 data P hlen
    simp only [hr, hl, if_true]
    rw [store_bytes_full _ _ (by omega)]
    have hne : ¬ strncmp_eq 4 (List.take 4 (List.drop P data)) id = true := by
      intro h
      exact hP ((strncmp_eq_iff _ _ hl hid hnz).1 h)
    rw [if_neg hne, if_neg (by decide)]
    rw [fseek_set_nat]
    exact pcm_find_string_scan id data hid hnz q hq hmin _ 0 _ (by omega) hl (by omega)

/-! ## Claims about the WAV header parser -/

/-- Counterexample to C12 as stated: in `two_data_tags` the search for "data" from
position 4 finds no tag at 4, and the tag at or after 4 stands at 8 (the claim:
read position 12); `pcm_find_string` seeks back to offset 0, finds the tag there
and returns with the read position 4. -/
theorem scanner_restarts_at_file_start :
    ¬ tag_at two_data_tags 4 tag_data ∧ tag_at two_data_tags 8 tag_data ∧
    (∀ q, 4 ≤ q → q < 8 → ¬ tag_at two_data_tags q tag_data) ∧
    pcm_find_string tag_data [0, 0, 0, 0] (file_handle.mk two_data_tags 4) =
      Except.ok (1, file_handle.mk two_data_tags 4) := by
  decide

/-- C12 (amended): `pcm_find_string` compares the four bytes at the start position
`P` and, after a mismatch there, the four bytes at the absolute positions
0, 1, 2, ... in turn.  It returns with the read position right after the tag at
`P` when the tag is there; otherwise, when four bytes can be read at `P` and the
tag occurs in the file, right after the first occurrence of the tag in the whole
file; so it is the first occurrence at or after `P` whenever the tag does not
occur before `P`. -/
theorem chunk_scanner_semantics (id buf data : List Nat) (P : Nat) (hid : id.length = 4)
    (hnz : ∀ x ∈ id, x ≠ 0) (hbuf : buf.length = 4) :
    (tag_at data P id →
      pcm_find_string id buf (file_handle.mk data P) =
        Except.ok (1, file_handle.mk data (P + 4))) ∧
    (P + 4 ≤ data.length → ¬ tag_at data P id →
      ∀ q, tag_at data q id → (∀ q1, q1 < q → ¬ tag_at data q1 id) →
        pcm_find_string id buf (file_handle.mk data P) =
          Except.ok (1, file_handle.mk data (q + 4))) ∧
    (∀ q, P ≤ q → tag_at data q id → (∀ q1, q1 < q → ¬ tag_at data q1 id) →
      pcm_find_string id buf (file_handle.mk data P) =
        Except.ok (1, file_handle.mk data (q + 4))) := by
  have h := pcm_find_string_result id buf data P hid hnz hbuf
  refine ⟨h.1, h.2, ?_⟩
  intro q hPq hq hmin
  by_cases e : q = P
  · subst e
    exact h.1 hq
  · have hlen := tag_at_length data q id hid hq
    exact h.2 (by omega) (hmin P (by omega)) q hq hmin

/-- Witness for C12 (amended): from position 4 of `two_data_tags` the scanner ends
right after the first "data" of the file, at position 4. -/
theorem chunk_scanner_semantics_witness :
    pcm_find_string tag_data [0, 0, 0, 0] (file_handle.mk two_data_tags 4) =
      Except.ok (1, file_handle.mk two_data_tags (0 + 4)) :=
  (chunk_scanner_semantics tag_data [0, 0, 0, 0] two_data_tags 4 (by decide) (by decide)
    (by decide)).2.1 (by decide) (by decide) 0 (by decide) (by decide)

/-- C11 fails on the code: for `wav_with_trailing_chunk` the parser ends at
position 44, right after the length field of "data", where the four sample bytes
`1, 2, 3, 4` start, but it sets `data_offset = filesize - subchunk2size = 60 - 4 =
56`; `get_samples` then loads the bytes "INFO" of the trailing chunk as samples. -/
theorem data_offset_ignores_read_position :
    (get_pcm_info (fun _ => [0, 0, 0, 0]) (fresh_container 1 wav_with_trailing_chunk)).map
      (fun c => (c.fp.pos, c.w.subchunk2size, c.filesize, c.w.data_offset)) =
      Except.ok (44, 4, 60, 56) ∧
    (wav_with_trailing_chunk.drop 44).take 4 = [1, 2, 3, 4] ∧
    ((get_pcm_info (fun _ => [0, 0, 0, 0])
        (fresh_container 1 wav_with_trailing_chunk)).toOption.bind
      (fun c => (init_sample_storage (fun _ => 0) c.w).bind
        (fun w => get_samples { c with w := w }))).map (fun c => c.w.samples.take 4) =
      some [73, 78, 70, 79] := by
  decide

/-- The derived fields of every record `get_pcm_info` returns. -/
theorem get_pcm_info_derived (stack : Nat → List Nat) (c c1 : container)
    (h : get_pcm_info stack c = Except.ok c1) :
    c1.w.total_samples =
      wrap32 (Int.tdiv c1.w.subchunk2size c1.w.block_align * c1.w.channels) ∧
    c1.w.sample_size = Int.tdiv c1.w.depth 8 ∧ c1.w.audioformat = 1 ∧
    c1.w.block_align ≠ 0 ∧
    ¬ (c1.w.subchunk2size = -2147483648 ∧ c1.w.block_align = -1) ∧
    c1.w.data_offset = wrap32 (c1.filesize - c1.w.subchunk2size) ∧
    c1.filesize = wrap32 (c1.w.chunkSize + 8) := by
  unfold get_pcm_info at h
  generalize pcm_find_string = find at h
  simp only at h
  split at h
  · cases h
  · split at h
    · cases h
    · split at h
      · cases h
      · split at h
        · cases h
        · split at h
          · cases h
          · split at h
            · cases h
            · rename_i haf _ _ _ hba hov
              injection h with h
              subst h
              simp only [true_and, and_true]
              exact ⟨not_not.1 haf, hba, hov⟩

/-- Counterexample to C17 as stated: `wav_overflowing_samples` declares
`0x7FFFFFFF` data bytes, frame size 1 and 2 channels; `(subchunk2size /
block_align) * channels` is 4294967294, which no `int` holds, and `get_pcm_info`
sets `total_samples` to -2. -/
theorem total_samples_overflows_int :
    (get_pcm_info (fun _ => [0, 0, 0, 0]) (fresh_container 1 wav_overflowing_samples)).map
      (fun c => [c.w.subchunk2size, c.w.block_align, c.w.channels, c.w.total_samples]) =
      Except.ok [2147483647, 1, 2, -2] ∧
    Int.tdiv 2147483647 1 * 2 = 4294967294 := by
  decide

/-- C17 (amended): WAV capacity gate.  For every payload size `S >= 1`,
`validate_wavfile` accepts exactly when `depth >= 16` and the `int` quotient
`total_samples / S` is at least 8; every record `get_pcm_info` returns has
`total_samples` equal to the 32-bit `int` value of
`(subchunk2size / block_align) * channels`, which is that product itself whenever
the product lies in `-2^31 .. 2^31 - 1`; with `block_align = 4`,
`subchunk2size = 400`, `channels = 2` that is 200, and (the depth being at least
16) a 25-byte payload is accepted, at quotient exactly 8, and a 26-byte payload is
rejected for capacity. -/
theorem wav_capacity_gate (w : pcm) (p : payload) (hS : 1 ≤ p.size) :
    (validate_wavfile w p = Except.ok () ↔
      16 ≤ w.depth ∧ 8 ≤ Int.tdiv w.total_samples p.size) ∧
    (∀ (stack : Nat → List Nat) (c c1 : container), get_pcm_info stack c = Except.ok c1 →
      c1.w.total_samples =
        wrap32 (Int.tdiv c1.w.subchunk2size c1.w.block_align * c1.w.channels) ∧
      (-2147483648 ≤ Int.tdiv c1.w.subchunk2size c1.w.block_align * c1.w.channels →
        Int.tdiv c1.w.subchunk2size c1.w.block_align * c1.w.channels ≤ 2147483647 →
        c1.w.total_samples =
          Int.tdiv c1.w.subchunk2size c1.w.block_align * c1.w.channels)) ∧
    (∀ (stack : Nat → List Nat) (c c1 : container), get_pcm_info stack c = Except.ok c1 →
      c1.w.block_align = 4 → c1.w.subchunk2size = 400 → c1.w.channels = 2 →
      c1.w.total_samples = 200 ∧
      (16 ≤ c1.w.depth → ∀ q : payload,
        (q.size = 25 → Int.tdiv c1.w.total_samples q.size = 8 ∧
          validate_wavfile c1.w q = Except.ok ()) ∧
        (q.size = 26 →
          validate_wavfile c1.w q = Except.error Failure.insufficient_capacity))) := by
  refine ⟨?_, ?_, ?_⟩
  · rw [validate_wavfile_ok_iff w p hS, tdiv_ge_eight_iff _ _ hS]
  · intro stack c c1 h
    refine ⟨(get_pcm_info_derived stack c c1 h).1, ?_⟩
    intro hlo hhi
    rw [(get_pcm_info_derived stack c c1 h).1, wrap32_of_range _ hlo hhi]
  · intro stack c c1 h hba hsub hch
    have ht : c1.w.total_samples = 200 := by
      rw [(get_pcm_info_derived stack c c1 h).1, hba, hsub, hch]
      decide
    refine ⟨ht, ?_⟩
    intro hd q
    constructor
    · intro hq
      rw [ht, hq]
      refine ⟨by decide, ?_⟩
      rw [validate_wavfile_ok_iff _ _ (by omega), ht, hq]
      exact ⟨hd, by decide⟩
    · intro hq
      unfold validate_wavfile
      rw [if_neg (by omega), if_neg (by omega), ht, hq, if_pos (by decide)]

/-- Witness for C17 (amended): the Scenario C header parses to `total_samples = 200`, and a
25-byte payload passes `validate_wavfile`. -/
theorem wav_capacity_gate_witness :
    ∃ c1, get_pcm_info (fun _ => [0, 0, 0, 0]) (fresh_container 1 wav_scenario_C) =
        Except.ok c1 ∧ c1.w.total_samples = 200 ∧
      validate_wavfile c1.w (payload.mk 25 (List.replicate 25 0)) = Except.ok () := by
  have h := (wav_capacity_gate blank_pcm (payload.mk 25 (List.replicate 25 0))
    (by decide)).2.2 (fun _ => [0, 0, 0, 0]) (fresh_container 1 wav_scenario_C)
  cases hc : get_pcm_info (fun _ => [0, 0, 0, 0]) (fresh_container 1 wav_scenario_C) with
  | error e =>
    have : (get_pcm_info (fun _ => [0, 0, 0, 0])
        (fresh_container 1 wav_scenario_C)).toOption.isSome = true := by decide
    rw [hc] at this
    cases this
  | ok c1 =>
    have hf : (c1.w.block_align, c1.w.subchunk2size, c1.w.channels, c1.w.depth) =
        (4, 400, 2, 16) := by
      have : (get_pcm_info (fun _ => [0, 0, 0, 0])
          (fresh_container 1 wav_scenario_C)).map (fun c =>
            (c.w.block_align, c.w.subchunk2size, c.w.channels, c.w.depth)) =
          Except.ok (4, 400, 2, 16) := by decide
      rw [hc] at this
      exact Except.ok.inj this
    injection hf with h1 hf
    injection hf with h2 hf
    injection hf with h3 h4
    obtain ⟨ht, hq⟩ := h c1 hc h1 h2 h3
    exact ⟨c1, rfl, ht, ((hq (by omega) (payload.mk 25 (List.replicate 25 0))).1 rfl).2⟩

theorem int_bytes_length (n : Nat) (v : Int) : (int_bytes n v).length = n := by
  unfold int_bytes
  rw [List.length_map, List.length_range]

theorem fread_int_full (n : Nat) (old : Int) (data : List Nat) (pos : Nat)
    (h : pos + n ≤ data.length) :
    fread_int n old (file_handle.mk data pos) =
      (bytes_int n ((data.drop pos).take n), file_handle.mk data (pos + n)) := by
  obtain ⟨hr, hl⟩ := fread_bytes_full n data pos h
  unfold fread_int
  rw [hr]
  simp only
  rw [store_bytes_full _ _ (by rw [int_bytes_length, hl])]

theorem fseek_cur_nat (fp : file_handle) (k : Nat) :
    fseek_cur fp (k : Int) = file_handle.mk fp.data (fp.pos + k) := by
  unfold fseek_cur
  rw [if_neg (by omega)]
  congr 1

/-- When both tags are found and the format tag read after "fmt " is not 1,
`get_pcm_info` stops with the not-PCM error. -/
theorem get_pcm_info_not_pcm (stack : Nat → List Nat) (c : container)
    (f1 f2 : Int × file_handle)
    (hwave : pcm_find_string tag_WAVE (stack 0)
      (fread_int 4 c.w.chunkSize (fread_int 4 c.w.chunkID c.fp).2).2 = Except.ok f1)
    (hfmt : pcm_find_string tag_fmt (stack 1) f1.2 = Except.ok f2)
    (haf : (fread_int 2 c.w.audioformat (fseek_cur f2.2 4)).1 ≠ 1) :
    get_pcm_info stack c = Except.error Failure.not_pcm := by
  unfold get_pcm_info
  generalize pcm_find_string = find at hwave hfmt ⊢
  simp only [hwave, hfmt]
  rw [if_pos haf]

/-- C19: non-PCM rejection.  For a base file of at least 8 bytes in which the
"WAVE" and the "fmt " tag are found, and whose two-byte format tag (4 bytes after
"fmt ") is not 1, `get_pcm_info` fails with the not-PCM error, whether or not a
"data" tag follows; and `main`, having detected a WAV file, stops with that error
in either mode, for every hide-file, so before `validate_wavfile` is reached. -/
theorem non_pcm_rejected (u : uninitialised) (m : MODE) (basefile hidefile : List Nat)
    (payload_size : Int) (f1 f2 : Int × file_handle) (h8 : 8 ≤ basefile.length)
    (hwave : pcm_find_string tag_WAVE (u.find_string_buf 0) (file_handle.mk basefile 8) =
      Except.ok f1)
    (hfmt : pcm_find_string tag_fmt (u.find_string_buf 1) f1.2 = Except.ok f2)
    (hfield : f2.2.pos + 4 + 2 ≤ f2.2.data.length)
    (haf : bytes_int 2 ((f2.2.data.drop (f2.2.pos + 4)).take 2) ≠ 1) :
    get_pcm_info u.find_string_buf
      { u.data with type := enum_wavfile, fp := file_handle.mk basefile 0 } =
        Except.error Failure.not_pcm ∧
    (find_type u.find_type_b basefile = enum_wavfile →
      main_parse_and_validate u m basefile hidefile payload_size =
        Except.error Failure.not_pcm) := by
  have hg : get_pcm_info u.find_string_buf
      { u.data with type := enum_wavfile, fp := file_handle.mk basefile 0 } =
        Except.error Failure.not_pcm := by
    apply get_pcm_info_not_pcm _ _ f1 f2 _ hfmt
    · simp only
      have hs : fseek_cur f2.2 4 = file_handle.mk f2.2.data (f2.2.pos + 4) :=
        fseek_cur_nat f2.2 4
      rw [hs, fread_int_full 2 u.data.w.audioformat f2.2.data (f2.2.pos + 4) hfield]
      simp only
      exact haf
    · simp only
      rw [fread_int_full 4 _ basefile 0 (by omega)]
      simp only
      rw [fread_int_full 4 _ basefile (0 + 4) (by omega)]
      exact hwave
  refine ⟨hg, ?_⟩
  intro htype
  unfold main_parse_and_validate
  simp only [htype]
  generalize get_pcm_info = gpi at hg ⊢
  generalize get_bitmap_info = gbi
  have e1 : ¬ (enum_wavfile ≠ enum_bitmap ∧ enum_wavfile ≠ enum_wavfile) := by decide
  have e2 : ¬ (enum_wavfile = enum_bitmap) := by decide
  rw [if_neg e1]
  simp only [if_neg e2, hg]

/-- Witness for C19: the Scenario D file (format tag 2, no "data" sub-chunk) with
an empty hide-file makes `main` stop with the not-PCM error. -/
theorem non_pcm_rejected_witness :
    find_type zeroed.find_type_b wav_scenario_D = enum_wavfile ∧
    main_parse_and_validate zeroed MODE.hide wav_scenario_D [] 0 =
      Except.error Failure.not_pcm :=
  ⟨by decide,
   (non_pcm_rejected zeroed MODE.hide wav_scenario_D [] 0
     (1, file_handle.mk wav_scenario_D 12) (1, file_handle.mk wav_scenario_D 16)
     (by decide) (by decide) (by decide) (by decide) (by decide)).2 (by decide)⟩

/-! ## Format detection -/

theorem find_type_buffer (junk data : List Nat) (k : Nat) (h12 : 12 ≤ data.length)
    (hk : k < 12) : (store_bytes (data.take 12) junk).getD k 0 = data.getD k 0 := by
  unfold store_bytes
  have hl : (data.take 12).length = 12 := by rw [List.length_take]; omega
  rw [List.getD_eq_getElem?_getD, List.getD_eq_getElem?_getD,
    List.getElem?_append_left (by omega), List.getElem?_take_of_lt hk]

/-- C20: format detection.  For a file of at least 12 bytes `find_type` returns
`bitmap` exactly when bytes 0-1 are "BM", returns `wavfile` exactly when bytes 0-3
are "RIFF" and bytes 8-11 are "WAVE", and returns -1 otherwise; on -1 `main` stops
with the unknown-data-type error. -/
theorem format_detection (u : uninitialised) (data : List Nat) (h12 : 12 ≤ data.length) :
    (find_type u.find_type_b data = enum_bitmap ↔
      data.getD 0 0 = 66 ∧ data.getD 1 0 = 77) ∧
    (find_type u.find_type_b data = enum_wavfile ↔
      (data.getD 0 0 = 82 ∧ data.getD 1 0 = 73 ∧ data.getD 2 0 = 70 ∧ data.getD 3 0 = 70) ∧
      (data.getD 8 0 = 87 ∧ data.getD 9 0 = 65 ∧ data.getD 10 0 = 86 ∧
        data.getD 11 0 = 69)) ∧
    (¬ (data.getD 0 0 = 66 ∧ data.getD 1 0 = 77) →
      ¬ ((data.getD 0 0 = 82 ∧ data.getD 1 0 = 73 ∧ data.getD 2 0 = 70 ∧
          data.getD 3 0 = 70) ∧
        (data.getD 8 0 = 87 ∧ data.getD 9 0 = 65 ∧ data.getD 10 0 = 86 ∧
          data.getD 11 0 = 69)) →
      find_type u.find_type_b data = -1) ∧
    (∀ (m : MODE) (hidefile : List Nat) (payload_size : Int),
      find_type u.find_type_b data = -1 →
      main_parse_and_validate u m data hidefile payload_size =
        Except.error Failure.unknown_data_type) := by
  have hb := fun k hk => find_type_buffer u.find_type_b data k h12 hk
  have hft : find_type u.find_type_b data =
      if data.getD 0 0 = 66 ∧ data.getD 1 0 = 77 then enum_bitmap
      else if data.getD 0 0 = 82 ∧ data.getD 1 0 = 73 ∧ data.getD 2 0 = 70 ∧
          data.getD 3 0 = 70 ∧ data.getD 8 0 = 87 ∧ data.getD 9 0 = 65 ∧
          data.getD 10 0 = 86 ∧ data.getD 11 0 = 69 then enum_wavfile
      else -1 := by
    unfold find_type
    simp only [hb 0 (by omega), hb 1 (by omega), hb 2 (by omega), hb 3 (by omega),
      hb 8 (by omega), hb 9 (by omega), hb 10 (by omega), hb 11 (by omega)]
  have e01 : enum_bitmap ≠ enum_wavfile := by decide
  have e0m : enum_bitmap ≠ -1 := by decide
  have e1m : enum_wavfile ≠ -1 := by decide
  refine ⟨?_, ?_, ?_, ?_⟩
  · rw [hft]
    by_cases hbm : data.getD 0 0 = 66 ∧ data.getD 1 0 = 77
    · rw [if_pos hbm]; exact ⟨fun _ => hbm, fun _ => rfl⟩
    · rw [if_neg hbm]
      constructor
      · intro h
        split at h
        · exact absurd h.symm e01
        · exact absurd h.symm e0m
      · intro h; exact absurd h hbm
  · rw [hft]
    by_cases hbm : data.getD 0 0 = 66 ∧ data.getD 1 0 = 77
    · rw [if_pos hbm]
      constructor
      · intro h; exact absurd h e01
      · intro h
        have := h.1.1
        omega
    · rw [if_neg hbm]
      by_cases hw : data.getD 0 0 = 82 ∧ data.getD 1 0 = 73 ∧ data.getD 2 0 = 70 ∧
          data.getD 3 0 = 70 ∧ data.getD 8 0 = 87 ∧ data.getD 9 0 = 65 ∧
          data.getD 10 0 = 86 ∧ data.getD 11 0 = 69
      · rw [if_pos hw]
        exact ⟨fun _ => ⟨⟨hw.1, hw.2.1, hw.2.2.1, hw.2.2.2.1⟩, hw.2.2.2.2⟩, fun _ => rfl⟩
      · rw [if_neg hw]
        constructor
        · intro h; exact absurd h.symm e1m
        · intro h
          exact absurd ⟨h.1.1, h.1.2.1, h.1.2.2.1, h.1.2.2.2, h.2⟩ hw
  · intro hbm hw
    rw [hft, if_neg hbm, if_neg]
    intro h
    exact hw ⟨⟨h.1, h.2.1, h.2.2.1, h.2.2.2.1⟩, h.2.2.2.2⟩
  · intro m hidefile payload_size h
    unfold main_parse_and_validate
    simp only [h]
    rw [if_pos (by decide)]

/-- Witness for C20: the 36-byte Scenario D file starts with "RIFF" and has "WAVE"
at bytes 8-11, so `find_type` returns `wavfile`. -/
theorem format_detection_witness :
    12 ≤ wav_scenario_D.length ∧ find_type zeroed.find_type_b wav_scenario_D = enum_wavfile :=
  ⟨by decide, (format_detection zeroed wav_scenario_D (by decide)).2.1.2 (by decide)⟩

/-! ## The bitmap validator and the store it admits -/

theorem fseek_set_zero (fp : file_handle) : fseek_set fp 0 = file_handle.mk fp.data 0 :=
  fseek_set_nat fp 0

theorem store_bytes_getD (avail old : List Nat) (k : Nat) (hk : k < avail.length) :
    (store_bytes avail old).getD k 0 = avail.getD k 0 := by
  unfold store_bytes
  rw [List.getD_eq_getElem?_getD, List.getD_eq_getElem?_getD, List.getElem?_append_left hk]

theorem take_drop_getD (data : List Nat) (pos n k : Nat) (hk : k < n) :
    ((data.drop pos).take n).getD k 0 = data.getD (pos + k) 0 := by
  rw [List.getD_eq_getElem?_getD, List.getD_eq_getElem?_getD, List.getElem?_take_of_lt hk,
    List.getElem?_drop]

/-- The magic bytes `get_bitmap_info` tests are bytes 0 and 1 of a file that has
them, whatever `magic_bytes` held and wherever the position indicator stood. -/
theorem get_bitmap_info_magic (magic : List Nat) (fp : file_handle) (h2 : 2 ≤ fp.data.length)
    (k : Nat) (hk : k < 2) :
    (store_bytes (fread_bytes 2 (fseek_set fp 0)).1 magic).getD k 0 = fp.data.getD k 0 := by
  rw [fseek_set_zero]
  obtain ⟨hr, hl⟩ := fread_bytes_full 2 fp.data 0 (by omega)
  rw [hr]
  simp only
  rw [store_bytes_getD _ _ _ (by omega), take_drop_getD _ _ _ _ hk, Nat.zero_add]

theorem bytes_int_four (a b c d : Nat) : bytes_int 4 [a, b, c, d] =
      if 2 * ((a + 256 * b + 65536 * c + 16777216 * d : Nat) : Int) < 4294967296 then
        ((a + 256 * b + 65536 * c + 16777216 * d : Nat) : Int)
      else ((a + 256 * b + 65536 * c + 16777216 * d : Nat) : Int) - 4294967296 := by
  have e : bytes_unsigned [a, b, c, d] = a + 256 * b + 65536 * c + 16777216 * d := by
    simp only [bytes_unsigned]; ring
  have p : (256 : Int) ^ 4 = 4294967296 := by norm_num
  unfold bytes_int
  rw [e, p]

theorem bytes_int_two (a b : Nat) : bytes_int 2 [a, b] =
      if 2 * ((a + 256 * b : Nat) : Int) < 65536 then ((a + 256 * b : Nat) : Int)
      else ((a + 256 * b : Nat) : Int) - 65536 := by
  have e : bytes_unsigned [a, b] = a + 256 * b := by
    simp only [bytes_unsigned]; ring
  have p : (256 : Int) ^ 2 = 65536 := by norm_num
  unfold bytes_int
  rw [e, p]

/-- C21: BMP header parse.  For every file of at least 30 bytes whose bytes 0 and
1 are "BM", whatever the read position, the previous content of the record and of
`magic_bytes`, `get_bitmap_info` returns the container with `filesize`,
`data_offset`, `width` and `height` set to the signed little-endian values of the
four bytes at offsets 0x02, 0x0A, 0x12 and 0x16, `depth` to that of the two bytes
at 0x1C, the read position 30 and nothing else changed; for every file of at least
two bytes whose bytes 0 and 1 are not "BM" it fails with the unrecognized-file
error.  The value of four bytes `x0, x1, x2, x3` is
`x0 + 256 x1 + 65536 x2 + 16777216 x3`, less `2^32` when that is `2^31` or more. -/
theorem bmp_header_parse (magic : List Nat) (c : container) :
    (30 ≤ c.fp.data.length → c.fp.data.getD 0 0 = 66 → c.fp.data.getD 1 0 = 77 →
      get_bitmap_info magic c = Except.ok { c with
        fp := file_handle.mk c.fp.data 30
        filesize := bytes_int 4 ((c.fp.data.drop 0x02).take 4)
        b := { c.b with
          data_offset := bytes_int 4 ((c.fp.data.drop 0x0A).take 4)
          width := bytes_int 4 ((c.fp.data.drop 0x12).take 4)
          height := bytes_int 4 ((c.fp.data.drop 0x16).take 4)
          depth := bytes_int 2 ((c.fp.data.drop 0x1C).take 2) } }) ∧
    (2 ≤ c.fp.data.length → ¬ (c.fp.data.getD 0 0 = 66 ∧ c.fp.data.getD 1 0 = 77) →
      get_bitmap_info magic c = Except.error Failure.unrecognized_file) ∧
    (∀ x0 x1 x2 x3 : Nat, bytes_int 4 [x0, x1, x2, x3] =
      if 2 * ((x0 + 256 * x1 + 65536 * x2 + 16777216 * x3 : Nat) : Int) < 4294967296 then
        ((x0 + 256 * x1 + 65536 * x2 + 16777216 * x3 : Nat) : Int)
      else ((x0 + 256 * x1 + 65536 * x2 + 16777216 * x3 : Nat) : Int) - 4294967296) ∧
    (∀ x0 x1 : Nat, bytes_int 2 [x0, x1] =
      if 2 * ((x0 + 256 * x1 : Nat) : Int) < 65536 then ((x0 + 256 * x1 : Nat) : Int)
      else ((x0 + 256 * x1 : Nat) : Int) - 65536) := by
  refine ⟨?_, ?_, bytes_int_four, bytes_int_two⟩
  · intro h30 hB hM
    have m0 := get_bitmap_info_magic magic c.fp (by omega) 0 (by omega)
    have m1 := get_bitmap_info_magic magic c.fp (by omega) 1 (by omega)
    have hm := (fread_bytes_full 2 c.fp.data 0 (by omega)).1
    have h1 := fread_int_full 4 c.filesize c.fp.data 2 (by omega)
    have s1 : fseek_set (file_handle.mk c.fp.data 6) 0x0A = file_handle.mk c.fp.data 0x0A :=
      fseek_set_nat _ 0x0A
    have h2 := fread_int_full 4 c.b.data_offset c.fp.data 0x0A (by omega)
    have s2 : fseek_set (file_handle.mk c.fp.data 14) 0x12 = file_handle.mk c.fp.data 0x12 :=
      fseek_set_nat _ 0x12
    have h3 := fread_int_full 4 c.b.width c.fp.data 0x12 (by omega)
    have h4 := fread_int_full 4 c.b.height c.fp.data 0x16 (by omega)
    have s3 : fseek_set (file_handle.mk c.fp.data 26) 0x1C = file_handle.mk c.fp.data 0x1C :=
      fseek_set_nat _ 0x1C
    have h5 := fread_int_full 2 c.b.depth c.fp.data 0x1C (by omega)
    simp only [Nat.zero_add, Nat.reduceAdd] at hm h1 h2 h3 h4 h5
    generalize bytes_int 4 (List.take 4 (List.drop 2 c.fp.data)) = v1 at h1 ⊢
    generalize bytes_int 4 (List.take 4 (List.drop 10 c.fp.data)) = v2 at h2 ⊢
    generalize bytes_int 4 (List.take 4 (List.drop 18 c.fp.data)) = v3 at h3 ⊢
    generalize bytes_int 4 (List.take 4 (List.drop 22 c.fp.data)) = v4 at h4 ⊢
    generalize bytes_int 2 (List.take 2 (List.drop 28 c.fp.data)) = v5 at h5 ⊢
    unfold get_bitmap_info
    simp only [m0, m1, hB, hM]
    rw [if_neg (by simp)]
    simp only [fseek_set_zero, hm, h1, s1, h2, s2, h3, h4, s3, h5]
  · intro h2 hne
    have m0 := get_bitmap_info_magic magic c.fp h2 0 (by omega)
    have m1 := get_bitmap_info_magic magic c.fp h2 1 (by omega)
    unfold get_bitmap_info
    simp only [m0, m1]
    rw [if_pos (by
      by_cases h : c.fp.data.getD 0 0 = 66
      · exact Or.inr (fun h1 => hne ⟨h, h1⟩)
      · exact Or.inl h)]

/-- Witness for C21: the 30 bytes of `bmp_negative_file` parse to file size 70,
pixel offset 54, width -4, height -2 and depth 24. -/
theorem bmp_header_parse_witness :
    (get_bitmap_info [0, 0] (fresh_container 0 bmp_negative_file)).map
      (fun c => (c.filesize, c.b.data_offset, c.b.width, c.b.height, c.b.depth, c.fp.pos)) =
      Except.ok (70, 54, -4, -2, 24, 30) := by
  rw [(bmp_header_parse [0, 0] (fresh_container 0 bmp_negative_file)).1 (by decide) (by decide)
    (by decide)]
  decide

/-! ## The WAV header parser on the canonical layout -/

/-- C23: Scenario B.  The walk-through of the source turns `0x04` into `0x05` with
the first bit of `0xAA`; on every pixel store whose first 8 usable bytes (scan
order, pad bytes skipped) are `0x04`, `bitmap_cover` with the one-byte payload
`0xAA` returns a store in which those 8 bytes are `5, 4, 5, 4, 5, 4, 5, 4`; and on
every 8-byte sample store of `0x04` bytes with `sample_size = 1`, `pcm_cover`
(with a budget of at least 8 steps) returns the store `5, 4, 5, 4, 5, 4, 5, 4`. -/
theorem scenario_B (b : bitmap) (w : pcm) (fuel : Nat) :
    lsb_mix 0x04 0xAA 0 = 0x05 ∧
    (pixel_store b → 8 ≤ b.height * (b.rowlen - b.pad) →
      (∀ m : Nat, m < 8 →
        pixel_read b.pixel (m / (b.rowlen - b.pad).toNat) (m % (b.rowlen - b.pad).toNat) =
          some 0x04) →
      ∃ b1, bitmap_cover b (payload.mk 1 [0xAA]) = some b1 ∧
        ∀ m : Nat, m < 8 →
          pixel_read b1.pixel (m / (b.rowlen - b.pad).toNat) (m % (b.rowlen - b.pad).toNat) =
            [0x05, 0x04, 0x05, 0x04, 0x05, 0x04, 0x05, 0x04][m]?) ∧
    (w.sample_size = 1 → w.subchunk2size = 8 → w.samples = List.replicate 8 0x04 →
      8 ≤ fuel →
      pcm_cover fuel w (payload.mk 1 [0xAA]) =
        some { w with samples := [0x05, 0x04, 0x05, 0x04, 0x05, 0x04, 0x05, 0x04] }) := by
  refine ⟨by decide, ?_, ?_⟩
  · intro hstore hcap h4
    have hcapN := usable_capacity_nat b (payload.mk 1 [0xAA]) hstore.2.1 (by decide)
      (by simpa using hcap)
    obtain ⟨px, k, hc, hinv, hk1, hk2⟩ := bitmap_cover_spec b (payload.mk 1 [0xAA]) hstore.1
      hstore.2.1 (by decide) (by decide) (pixel_store_cells b hstore)
    have e1 : (payload.mk 1 [0xAA]).size.toNat = 1 := by decide
    rw [e1] at hk1 hk2 hcapN
    have hk : k = 8 := by omega
    subst hk
    have hWpos : 0 < (b.rowlen - b.pad).toNat := by
      rcases Nat.eq_zero_or_pos (b.rowlen - b.pad).toNat with h | h
      · rw [h, Nat.mul_zero] at hcapN; omega
      · exact h
    refine ⟨_, hc, ?_⟩
    intro m hm
    have hidx : m / (b.rowlen - b.pad).toNat * (b.rowlen - b.pad).toNat +
        m % (b.rowlen - b.pad).toNat = m := Nat.div_add_mod' m _
    have h := hinv.2 (m / (b.rowlen - b.pad).toNat) (m % (b.rowlen - b.pad).toNat)
    rw [if_pos ⟨Nat.mod_lt _ hWpos, by omega⟩, h4 m hm, hidx] at h
    simp only at h ⊢
    rw [h]
    interval_cases m <;> decide
  · intro hss hsub hsam hfuel
    obtain ⟨n, rfl⟩ : ∃ n, fuel = n + 8 := ⟨fuel - 8, by omega⟩
    unfold pcm_cover
    rw [hss, hsub, hsam]
    rfl

/-- Witness for C23: `bitmap_2x2` (six usable bytes per row, so the eight bytes
span both rows) and `wav_8`. -/
theorem scenario_B_witness :
    (∃ b1, bitmap_cover bitmap_2x2 (payload.mk 1 [0xAA]) = some b1 ∧
      b1.pixel = [[5, 4, 5, 4, 5, 4, 9, 9], [5, 4, 4, 4, 4, 4, 9, 9]]) ∧
    pcm_cover 8 wav_8 (payload.mk 1 [0xAA]) =
      some { wav_8 with samples := [5, 4, 5, 4, 5, 4, 5, 4] } := by
  have h := scenario_B bitmap_2x2 wav_8 8
  refine ⟨?_, h.2.2 rfl rfl rfl (by decide)⟩
  obtain ⟨b1, h1, _⟩ := h.2.1 (by decide) (by decide) (by decide)
  refine ⟨b1, h1, ?_⟩
  have h2 : (bitmap_cover bitmap_2x2 (payload.mk 1 [0xAA])).map (fun b => b.pixel) =
      some [[5, 4, 5, 4, 5, 4, 9, 9], [5, 4, 4, 4, 4, 4, 9, 9]] := by decide
  rw [h1] at h2
  exact Option.some.inj h2

/-! ## The writers: the header of the output file -/

theorem fwrite_bytes_header_kept (d : Nat) (src bs : List Nat) (out : file_handle)
    (h : header_kept d src out) : header_kept d src (fwrite_bytes bs out) := by
  obtain ⟨h1, h2, h3⟩ := h
  unfold header_kept fwrite_bytes
  simp only
  have hl : d ≤ (out.data.take out.pos).length := by
    rw [List.length_take]; omega
  refine ⟨?_, by omega, ?_⟩
  · rw [List.append_assoc, List.append_assoc, List.take_append_of_le_length hl,
      List.take_take, Nat.min_eq_left h2, h1]
  · simp only [List.length_append]
    omega

theorem write_bitmap_cols_header_kept (d : Nat) (src : List Nat) (pixel : List (List Nat))
    (i : Nat) :
    ∀ (n j : Nat) (out : file_handle) (w : Int) (r : file_handle × Int),
      header_kept d src out → write_bitmap_cols pixel i n j out w = some r →
      header_kept d src r.1 := by
  intro n
  induction n with
  | zero =>
    intro j out w r hk h
    unfold write_bitmap_cols at h
    injection h with h
    rw [← h]; exact hk
  | succ n ih =>
    intro j out w r hk h
    unfold write_bitmap_cols at h
    cases hx : pixel_read pixel i j with
    | none => rw [hx] at h; cases h
    | some x =>
      rw [hx] at h
      exact ih _ _ _ r (fwrite_bytes_header_kept d src [x] out hk) h

theorem write_bitmap_rows_header_kept (d : Nat) (src : List Nat) (rowlen : Int)
    (pixel : List (List Nat)) :
    ∀ (n i : Nat) (out : file_handle) (w : Int) (r : file_handle × Int),
      header_kept d src out → write_bitmap_rows rowlen pixel n i out w = some r →
      header_kept d src r.1 := by
  intro n
  induction n with
  | zero =>
    intro i out w r hk h
    unfold write_bitmap_rows at h
    injection h with h
    rw [← h]; exact hk
  | succ n ih =>
    intro i out w r hk h
    unfold write_bitmap_rows at h
    cases hc : write_bitmap_cols pixel i rowlen.toNat 0 out w with
    | none => rw [hc] at h; cases h
    | some s =>
      rw [hc] at h
      exact ih _ _ _ r (write_bitmap_cols_header_kept d src pixel i _ _ _ _ s hk hc) h

theorem write_samples_loop_header_kept (d : Nat) (src samples : List Nat) :
    ∀ (n i : Nat) (out r : file_handle),
      header_kept d src out → write_samples_loop samples n i out = some r →
      header_kept d src r := by
  intro n
  induction n with
  | zero =>
    intro i out r hk h
    unfold write_samples_loop at h
    injection h with h
    rw [← h]; exact hk
  | succ n ih =>
    intro i out r hk h
    unfold write_samples_loop at h
    cases hx : samples[i]? with
    | none => rw [hx] at h; cases h
    | some x =>
      rw [hx] at h
      exact ih _ _ r (fwrite_bytes_header_kept d src [x] out hk) h

theorem write_bitmap_cols_returns (pixel : List (List Nat)) (i R : Nat)
    (hrow : ∀ j, j < R → (pixel_read pixel i j).isSome = true) :
    ∀ (n j : Nat) (out : file_handle) (w : Int), j + n ≤ R →
      ∃ r, write_bitmap_cols pixel i n j out w = some r := by
  intro n
  induction n with
  | zero => intro j out w _; exact ⟨_, rfl⟩
  | succ n ih =>
    intro j out w hj
    unfold write_bitmap_cols
    obtain ⟨x, hx⟩ := Option.isSome_iff_exists.1 (hrow j (by omega))
    rw [hx]
    exact ih _ _ _ (by omega)

theorem write_bitmap_rows_returns (pixel : List (List Nat)) (rowlen : Int) (H : Nat)
    (hcell : ∀ i j, i < H → j < rowlen.toNat → (pixel_read pixel i j).isSome = true) :
    ∀ (n i : Nat) (out : file_handle) (w : Int), i + n ≤ H →
      ∃ r, write_bitmap_rows rowlen pixel n i out w = some r := by
  intro n
  induction n with
  | zero => intro i out w _; exact ⟨_, rfl⟩
  | succ n ih =>
    intro i out w hi
    unfold write_bitmap_rows
    obtain ⟨s, hs⟩ := write_bitmap_cols_returns pixel i rowlen.toNat
      (fun j hj => hcell i j (by omega) hj) rowlen.toNat 0 out w (by omega)
    rw [hs]
    exact ih _ _ _ (by omega)

theorem write_samples_loop_returns (samples : List Nat) :
    ∀ (n i : Nat) (out : file_handle), i + n ≤ samples.length →
      ∃ r, write_samples_loop samples n i out = some r := by
  intro n
  induction n with
  | zero => intro i out _; exact ⟨_, rfl⟩
  | succ n ih =>
    intro i out hi
    unfold write_samples_loop
    rw [List.getElem?_eq_getElem (by omega)]
    exact ih _ _ (by omega)

/-- What `block_copy` does when the source holds `size` bytes: it returns, and the
target then starts with the first `size` bytes of the source, its position
indicator right after them. -/
theorem block_copy_header (junk : Nat → Nat) (inp out : file_handle) (size : Int)
    (h0 : 0 ≤ size) (hlen : size ≤ (inp.data.length : Int)) :
    ∃ out1, block_copy junk inp out size =
        some (size, file_handle.mk inp.data size.toNat, out1) ∧
      out1.pos = size.toNat ∧ header_kept size.toNat inp.data out1 := by
  have hn : size.toNat ≤ inp.data.length := by omega
  obtain ⟨hr, hl⟩ := fread_bytes_full size.toNat inp.data 0 (by omega)
  have hbuf : store_bytes (List.take size.toNat (List.drop 0 inp.data))
      ((List.range size.toNat).map junk) = List.take size.toNat inp.data := by
    rw [store_bytes_full _ _ (by rw [List.length_map, List.length_range, hl])]
    rfl
  have hlt : (List.take size.toNat inp.data).length = size.toNat := by
    rw [List.length_take]; omega
  refine ⟨fwrite_bytes (List.take size.toNat inp.data) (rewind out), ?_, ?_, ?_⟩
  · unfold block_copy rewind
    rw [if_neg (by omega)]
    simp only [hr, hbuf, Nat.zero_add]
  · simp only [fwrite_bytes, rewind, hlt, Nat.zero_add]
  · unfold header_kept fwrite_bytes rewind
    simp only [hlt, Nat.zero_add, List.take_zero, Nat.zero_sub, List.replicate_zero,
      List.nil_append, List.length_append]
    refine ⟨?_, le_refl _, by omega⟩
    rw [List.take_append_of_le_length (by omega), List.take_take, Nat.min_self]

theorem fseek_set_header_kept (d : Nat) (src : List Nat) (out : file_handle) (offset : Int)
    (h : header_kept d src out) (hd : (d : Int) ≤ offset) :
    header_kept d src (fseek_set out offset) := by
  unfold fseek_set
  rw [if_neg (by omega)]
  exact ⟨h.1, by simp only; omega, h.2.2⟩

theorem block_copy_negative (junk : Nat → Nat) (inp out : file_handle) (size : Int)
    (h : size < 0) : block_copy junk inp out size = none := by
  unfold block_copy
  rw [if_pos h]

theorem write_bitmap_keeps_header (d : Nat) (src : List Nat) (out : file_handle) (c : container)
    (r : Int × file_handle) (hk : header_kept d src out) (hd : (d : Int) ≤ c.b.start)
    (h : write_bitmap out c = some r) : header_kept d src r.2 := by
  unfold write_bitmap at h
  cases hw : write_bitmap_rows c.b.rowlen c.b.pixel c.b.height.toNat 0
      (fseek_set out c.b.start) 0 with
  | none => rw [hw] at h; cases h
  | some s =>
    rw [hw] at h
    injection h with h
    rw [← h]
    exact write_bitmap_rows_header_kept d src _ _ _ _ _ _ s
      (fseek_set_header_kept d src out _ hk hd) hw

theorem write_samples_keeps_header (d : Nat) (src : List Nat) (out : file_handle)
    (c : container) (r : Int × file_handle) (hk : header_kept d src out)
    (hd : (d : Int) ≤ c.w.data_offset) (h : write_samples out c = some r) :
    header_kept d src r.2 := by
  unfold write_samples at h
  cases hw : write_samples_loop c.w.samples c.w.subchunk2size.toNat 0
      (fseek_set out c.w.data_offset) with
  | none => rw [hw] at h; cases h
  | some s =>
    rw [hw] at h
    injection h with h
    rw [← h]
    exact write_samples_loop_header_kept d src _ _ _ _ s
      (fseek_set_header_kept d src out _ hk hd) hw

theorem write_bitmap_returns (out : file_handle) (c : container) (hstore : pixel_store c.b) :
    ∃ r, write_bitmap out c = some r := by
  obtain ⟨hpad, hrow, hrows, hcols⟩ := hstore
  have hcell : ∀ i j, i < c.b.height.toNat → j < c.b.rowlen.toNat →
      (pixel_read c.b.pixel i j).isSome = true := by
    intro i j hi hj
    have hil : i < c.b.pixel.length := by omega
    unfold pixel_read
    rw [List.getElem?_eq_getElem hil]
    simp only
    have := hcols _ (List.getElem_mem hil)
    rw [List.getElem?_eq_getElem (by omega)]
    rfl
  obtain ⟨s, hs⟩ := write_bitmap_rows_returns c.b.pixel c.b.rowlen c.b.height.toNat hcell
    c.b.height.toNat 0 (fseek_set out c.b.start) 0 (by omega)
  unfold write_bitmap
  rw [hs]
  exact ⟨_, rfl⟩

theorem write_samples_returns (out : file_handle) (c : container)
    (hstore : c.w.subchunk2size ≤ (c.w.samples.length : Int)) :
    ∃ r, write_samples out c = some r := by
  obtain ⟨s, hs⟩ := write_samples_loop_returns c.w.samples c.w.subchunk2size.toNat 0
    (fseek_set out c.w.data_offset) (by omega)
  unfold write_samples
  rw [hs]
  exact ⟨_, rfl⟩

/-- C24: header immutability.  In hide mode `main` writes the output file with
`write_bitmap_header` / `write_pcm_header` (through `block_copy`) and then
`write_bitmap` / `write_samples`.  For every source container at least
`data_offset` bytes long, every output file these calls produce has as its first
`data_offset` bytes the first `data_offset` bytes of the source (for a bitmap, with
`start = data_offset`, which is what `init_pixel_matrix` sets and `get_bitmap` and
`bitmap_cover` keep); and they do produce a file when `data_offset >= 0` and the
store holds the `height` rows of `rowlen` bytes (the `subchunk2size` sample bytes)
they write. -/
theorem header_immutability (junk : Nat → Nat) (c : container) :
    (c.type = enum_bitmap → c.b.start = c.b.data_offset →
      c.b.data_offset ≤ (c.fp.data.length : Int) →
      ∀ r, main_write_hide junk c = some r →
        r.2.2.data.take c.b.data_offset.toNat = c.fp.data.take c.b.data_offset.toNat) ∧
    (c.type = enum_wavfile → c.w.data_offset ≤ (c.fp.data.length : Int) →
      ∀ r, main_write_hide junk c = some r →
        r.2.2.data.take c.w.data_offset.toNat = c.fp.data.take c.w.data_offset.toNat) ∧
    (c.type = enum_bitmap → 0 ≤ c.b.data_offset →
      c.b.data_offset ≤ (c.fp.data.length : Int) → pixel_store c.b →
      ∃ r, main_write_hide junk c = some r) ∧
    (c.type = enum_wavfile → 0 ≤ c.w.data_offset →
      c.w.data_offset ≤ (c.fp.data.length : Int) →
      c.w.subchunk2size ≤ (c.w.samples.length : Int) →
      ∃ r, main_write_hide junk c = some r) ∧
    (∀ (junk2 : Nat → Nat → Nat) (h b1 : bitmap), init_pixel_matrix junk2 h = some b1 →
      b1.start = h.data_offset ∧ b1.data_offset = h.data_offset) ∧
    (∀ (c0 : container) (r : Int × container), get_bitmap c0 = some r →
      r.2.b.start = c0.b.start ∧ r.2.b.data_offset = c0.b.data_offset) ∧
    (∀ (b b1 : bitmap) (p : payload), bitmap_cover b p = some b1 →
      b1.start = b.start ∧ b1.data_offset = b.data_offset) := by
  refine ⟨?_, ?_, ?_, ?_, ?_, ?_, ?_⟩
  · intro htype hstart hlen r h
    unfold main_write_hide write_bitmap_header at h
    rw [if_pos htype] at h
    rcases lt_or_le c.b.data_offset 0 with hneg | h0
    · rw [block_copy_negative _ _ _ _ hneg] at h; cases h
    · obtain ⟨out1, hb, _, hk⟩ := block_copy_header junk c.fp fopen_wb c.b.data_offset h0 hlen
      rw [hb] at h
      simp only at h
      cases hw : write_bitmap out1
          { c with fp := file_handle.mk c.fp.data c.b.data_offset.toNat } with
      | none => rw [hw] at h; cases h
      | some d =>
        rw [hw] at h
        injection h with h
        rw [← h]
        exact (write_bitmap_keeps_header _ _ out1 _ d hk (by simp only; omega) hw).1
  · intro htype hlen r h
    unfold main_write_hide write_pcm_header at h
    rw [if_neg (by rw [htype]; decide), if_pos htype] at h
    rcases lt_or_le c.w.data_offset 0 with hneg | h0
    · rw [block_copy_negative _ _ _ _ hneg] at h; cases h
    · obtain ⟨out1, hb, _, hk⟩ := block_copy_header junk c.fp fopen_wb c.w.data_offset h0 hlen
      rw [hb] at h
      simp only at h
      cases hw : write_samples out1
          { c with fp := file_handle.mk c.fp.data c.w.data_offset.toNat } with
      | none => rw [hw] at h; cases h
      | some d =>
        rw [hw] at h
        injection h with h
        rw [← h]
        exact (write_samples_keeps_header _ _ out1 _ d hk (by simp only; omega) hw).1
  · intro htype h0 hlen hstore
    obtain ⟨out1, hb, _, _⟩ := block_copy_header junk c.fp fopen_wb c.b.data_offset h0 hlen
    obtain ⟨d, hd⟩ := write_bitmap_returns out1
      { c with fp := file_handle.mk c.fp.data c.b.data_offset.toNat } hstore
    unfold main_write_hide write_bitmap_header
    rw [if_pos htype, hb]
    simp only
    rw [hd]
    exact ⟨_, rfl⟩
  · intro htype h0 hlen hstore
    obtain ⟨out1, hb, _, _⟩ := block_copy_header junk c.fp fopen_wb c.w.data_offset h0 hlen
    obtain ⟨d, hd⟩ := write_samples_returns out1
      { c with fp := file_handle.mk c.fp.data c.w.data_offset.toNat } hstore
    unfold main_write_hide write_pcm_header
    rw [if_neg (by rw [htype]; decide), if_pos htype, hb]
    simp only
    rw [hd]
    exact ⟨_, rfl⟩
  · intro junk2 h b1 hi
    unfold init_pixel_matrix at hi
    simp only at hi
    split at hi
    · cases hi
    · split at hi
      · cases hi
      · injection hi with hi
        rw [← hi]
        exact ⟨rfl, rfl⟩
  · intro c0 r h
    unfold get_bitmap at h
    cases hg : get_bitmap_rows c0.b.rowlen c0.b.height.toNat 0 (fseek_set c0.fp c0.b.start)
        c0.b.pixel 0 with
    | none => rw [hg] at h; cases h
    | some s =>
      rw [hg] at h
      injection h with h
      rw [← h]
      exact ⟨rfl, rfl⟩
  · intro b b1 p h
    unfold bitmap_cover at h
    simp only at h
    cases hr : bitmap_cover_rows b.rowlen (b.rowlen - b.pad) p b.height.toNat 0 b.pixel 0 0 with
    | none => rw [hr] at h; cases h
    | some px =>
      rw [hr] at h
      injection h with h
      rw [← h]
      exact ⟨rfl, rfl⟩

set_option maxRecDepth 100000 in
/-- Witness for C24: for `container_2x2` (a 54-byte header) and
`container_four_samples` (a 44-byte header) the writers return, the output starts
with the header of the source, and is 70 (respectively 48) bytes long. -/
theorem header_immutability_witness :
    (∃ r, main_write_hide (fun _ => 0) container_2x2 = some r ∧
      r.2.2.data.take 54 = bmp_2x2_file.take 54) ∧
    (∃ r, main_write_hide (fun _ => 0) container_four_samples = some r ∧
      r.2.2.data.take 44 = wav_four_samples.take 44) ∧
    (main_write_hide (fun _ => 0) container_2x2).map (fun r => (r.1, r.2.2.data.length)) =
      some (70, 70) ∧
    (main_write_hide (fun _ => 0) container_four_samples).map
      (fun r => (r.1, r.2.2.data.drop 44)) = some (48, [5, 2, 3, 4]) := by
  have h1 := header_immutability (fun _ => 0) container_2x2
  have h2 := header_immutability (fun _ => 0) container_four_samples
  obtain ⟨r1, hr1⟩ := h1.2.2.1 rfl (by decide) (by decide) (by decide)
  obtain ⟨r2, hr2⟩ := h2.2.2.2.1 rfl (by decide) (by decide) (by decide)
  exact ⟨⟨r1, hr1, h1.1 rfl rfl (by decide) r1 hr1⟩,
    ⟨r2, hr2, h2.2.1 rfl (by decide) r2 hr2⟩, by decide, by decide⟩

/-! ## The tag scanner when the tag is missing -/

set_option maxRecDepth 100000 in
theorem byte_of_high_and_low : ∀ x, x < 256 → ((x &&& 0xFFFFFFFE) ||| (x % 2)) % 256 = x := by
  decide

/-- Writing into a byte the bit it already has leaves the byte as it is. -/
theorem lsb_mix_same (x byte t : Nat) (hx : x < 256)
    (h : (byte >>> (7 - t % 8)) % 2 = x % 2) : lsb_mix x byte t = x := by
  unfold lsb_mix
  have h1 : (1 &&& (byte >>> (7 - t % 8))) = (byte >>> (7 - t % 8)) % 2 := by
    rw [Nat.and_comm, Nat.and_one_is_mod]
  rw [h1, h]
  exact byte_of_high_and_low x hx

/-- Bit `7 - q` of the byte `assemble` builds is the bit in slot `q`. -/
theorem assemble_bit (bits : Fin 8 → Nat) (hb : ∀ q, bits q < 2) (q : Fin 8) :
    (assemble bits >>> (7 - q.val)) % 2 = bits q := by
  have hfun : bits = fun q =>
      [bits 0, bits 1, bits 2, bits 3, bits 4, bits 5, bits 6, bits 7].getD q.val 0 := by
    funext q
    fin_cases q <;> rfl
  have h0 := hb 0
  have h1 := hb 1
  have h2 := hb 2
  have h3 := hb 3
  have h4 := hb 4
  have h5 := hb 5
  have h6 := hb 6
  have h7 := hb 7
  have hs := assemble_list_sum _ _ _ _ _ _ _ _ h0 h1 h2 h3 h4 h5 h6 h7
  rw [← hfun] at hs
  rw [hs]
  fin_cases q <;> simp [Nat.shiftRight_eq_div_pow] <;> omega

theorem pixel_read_mem (px : List (List Nat)) (i c x : Nat) (h : pixel_read px i c = some x) :
    ∃ row ∈ px, x ∈ row := by
  unfold pixel_read at h
  cases hr : px[i]? with
  | none => rw [hr] at h; cases h
  | some row =>
    rw [hr] at h
    simp only at h
    exact ⟨row, List.getElem?_mem hr, List.getElem?_mem h⟩

theorem bitmap_with_own_pixel (b : bitmap) : { b with pixel := b.pixel } = b := by
  cases b; rfl

/-- C26: re-embedding what was extracted is the identity.  For every pixel store
of byte values, every byte count `S >= 1` with `8*S <= height*(rowlen - pad)` and
any initial content of the `S`-byte payload buffer (and of the local `bits`
array), `bitmap_uncover` returns a payload, and `bitmap_cover` of the store with
that payload returns the store itself, every byte unchanged. -/
theorem reembed_extracted_identity (bits : Fin 8 → Nat) (b : bitmap) (p : payload)
    (hstore : pixel_store b) (hbytes : byte_valued b.pixel) (hS : 1 ≤ p.size)
    (hp : (p.bytes.length : Int) = p.size)
    (hcap : 8 * p.size ≤ b.height * (b.rowlen - b.pad)) :
    ∃ q, bitmap_uncover bits b p = some q ∧ q.size = p.size ∧ bitmap_cover b q = some b := by
  have hcell := pixel_store_cells b hstore
  have hcapN := usable_capacity_nat b p hstore.2.1 hS hcap
  obtain ⟨out, hu, hol, hout⟩ := bitmap_uncover_spec bits b p hstore.1 hstore.2.1 hS hp hcell
    hcapN
  refine ⟨_, hu, rfl, ?_⟩
  obtain ⟨px, k, hc, hinv, hk1, hk2⟩ := bitmap_cover_spec b { p with bytes := out } hstore.1
    hstore.2.1 hS (by simp only; omega) hcell
  simp only at hk1 hk2 hinv
  have hk : k = 8 * p.size.toNat := by omega
  subst hk
  have hpx : px = b.pixel := by
    apply pixel_ext _ _ hinv.1
    intro i c
    rw [hinv.2 i c]
    split
    · rename_i hcond
      obtain ⟨hcW, hm⟩ := hcond
      cases hx : pixel_read b.pixel i c with
      | none => rfl
      | some x =>
        simp only [Option.map_some']
        congr 1
        obtain ⟨row, hrow, hxr⟩ := pixel_read_mem _ _ _ _ hx
        apply lsb_mix_same _ _ _ (hbytes row hrow x hxr)
        have hn : (i * (b.rowlen - b.pad).toNat + c) / 8 < p.size.toNat := by omega
        have hget : out.getD ((i * (b.rowlen - b.pad).toNat + c) / 8) 0 =
            assemble (fun q => usable_lsb b.pixel (b.rowlen - b.pad).toNat
              (8 * ((i * (b.rowlen - b.pad).toNat + c) / 8) + q.val)) := by
          rw [List.getD_eq_getElem?_getD, hout _ hn]
          rfl
        rw [hget]
        have hbit := assemble_bit (fun q => usable_lsb b.pixel (b.rowlen - b.pad).toNat
            (8 * ((i * (b.rowlen - b.pad).toNat + c) / 8) + q.val))
          (fun q => usable_lsb_lt_two _ _ _)
          ⟨(i * (b.rowlen - b.pad).toNat + c) % 8, Nat.mod_lt _ (by decide)⟩
        simp only at hbit
        rw [hbit]
        have hidx : 8 * ((i * (b.rowlen - b.pad).toNat + c) / 8) +
            (i * (b.rowlen - b.pad).toNat + c) % 8 = i * (b.rowlen - b.pad).toNat + c :=
          Nat.div_add_mod _ 8
        rw [hidx]
        unfold usable_lsb
        rw [cell_div _ i c hcW, cell_mod _ i c hcW, hx, Option.getD_some, Nat.and_one_is_mod]
    · rfl
  rw [hc, hpx, bitmap_with_own_pixel]

/-- Witness for C26: one byte extracted from `bitmap_2x2` (into a buffer that held
`0xFF`) and embedded again gives `bitmap_2x2` back. -/
theorem reembed_extracted_identity_witness :
    ∃ q, bitmap_uncover (fun _ => 7) bitmap_2x2 (payload.mk 1 [0xFF]) = some q ∧
      q.size = 1 ∧ bitmap_cover bitmap_2x2 q = some bitmap_2x2 :=
  reembed_extracted_identity (fun _ => 7) bitmap_2x2 (payload.mk 1 [0xFF]) (by decide)
    (by decide) (by decide) (by decide) (by decide)

/-! ## Recovering more bytes than were embedded -/

/-- In an embedded store the usable bytes from scan index `k` on have the
least-significant bit they had before the embed. -/
theorem uncovered_usable_lsb (W : Nat) (bytes : List Nat) (px0 px : List (List Nat)) (k m : Nat)
    (hinv : bitmap_cover_inv W bytes px0 k px) (hm : k ≤ m) :
    usable_lsb px W m = usable_lsb px0 W m := by
  have hidx : m / W * W + m % W = m := Nat.div_add_mod' m W
  unfold usable_lsb
  rw [hinv.2 (m / W) (m % W), if_neg (by omega)]

/-- C27: recovering with too large a byte count.  For every pixel store, every
payload of `S >= 1` bytes and every count `S' >= S` with
`8*S' <= height*(rowlen - pad)`, `bitmap_cover` returns a store from which
`bitmap_uncover` with count `S'` (whatever the `S'`-byte buffer and the `bits`
array held) returns `S'` bytes: the first `S` are the payload, and byte `n` for
`S <= n < S'` is the sum over `k < 8` of (LSB of the usable byte with scan index
`8n+k` of the original store) times `2^(7-k)`. -/
theorem oversized_recovery (bits : Fin 8 → Nat) (b : bitmap) (p : payload)
    (count : Int) (buf : List Nat) (hstore : pixel_store b) (hS : 1 ≤ p.size)
    (hp : (p.bytes.length : Int) = p.size) (hbyte : ∀ x ∈ p.bytes, x < 256)
    (hcount : p.size ≤ count) (hbuf : (buf.length : Int) = count)
    (hcap : 8 * count ≤ b.height * (b.rowlen - b.pad)) :
    ∃ b1 out, bitmap_cover b p = some b1 ∧
      bitmap_uncover bits b1 (payload.mk count buf) = some (payload.mk count out) ∧
      (out.length : Int) = count ∧ out.take p.size.toNat = p.bytes ∧
      ∀ n, p.size.toNat ≤ n → n < count.toNat →
        out[n]? = some (Finset.sum (Finset.range 8) (fun k =>
          usable_lsb b.pixel (b.rowlen - b.pad).toNat (8 * n + k) * 2 ^ (7 - k))) := by
  obtain ⟨hpad, hrow, hrows, hcols⟩ := hstore
  have hcell := pixel_cells_of_rows b hrows hcols hpad
  have hcapN := usable_capacity_nat b (payload.mk count buf) hrow (by simp only; omega) hcap
  simp only at hcapN
  obtain ⟨px, k, hc, hinv, hk1, hk2⟩ := bitmap_cover_spec b p hpad hrow hS hp hcell
  have hk : k = 8 * p.size.toNat := by omega
  subst hk
  have hcell1 : ∀ i c, i < b.height.toNat → c < (b.rowlen - b.pad).toNat →
      (pixel_read px i c).isSome = true := by
    intro i c hi hcc
    rw [bitmap_cover_inv_isSome _ _ _ _ _ hinv]
    exact hcell i c hi hcc
  obtain ⟨out, hu, hol, hout⟩ := bitmap_uncover_spec bits { b with pixel := px }
    (payload.mk count buf) hpad hrow (by simp only; omega) hbuf hcell1 hcapN
  simp only at hol hout
  have hWpos : 0 < (b.rowlen - b.pad).toNat := by
    rcases Nat.eq_zero_or_pos (b.rowlen - b.pad).toNat with h | h
    · rw [h, Nat.mul_zero] at hcapN; omega
    · exact h
  refine ⟨_, out, hc, hu, by omega, ?_, ?_⟩
  · apply List.ext_getElem?
    intro n
    by_cases hn : n < p.size.toNat
    · have hnb : n < p.bytes.length := by omega
      rw [List.getElem?_take_of_lt hn, hout n (by omega), List.getElem?_eq_getElem hnb]
      congr 1
      have hfun : (fun q : Fin 8 => usable_lsb px (b.rowlen - b.pad).toNat (8 * n + q.val)) =
          fun q : Fin 8 => (p.bytes[n] >>> (7 - q.val)) % 2 := by
        funext q
        have hq := q.isLt
        have hm : 8 * n + q.val < b.height.toNat * (b.rowlen - b.pad).toNat := by omega
        rw [covered_usable_lsb _ p.bytes b.pixel px _ _ hinv (by omega) hWpos
          (hcell _ _ (Nat.div_lt_of_lt_mul (by rw [Nat.mul_comm b.height.toNat] at hm; exact hm))
            (Nat.mod_lt _ hWpos))]
        have h1 : (8 * n + q.val) / 8 = n := by omega
        have h2 : (8 * n + q.val) % 8 = q.val := by omega
        rw [h1, h2, List.getD_eq_getElem?_getD, List.getElem?_eq_getElem hnb]
        rfl
      rw [hfun]
      exact assemble_bits_of_byte _ (hbyte _ (List.getElem_mem hnb))
    · rw [List.getElem?_eq_none (by rw [List.length_take]; omega),
        List.getElem?_eq_none (by omega)]
  · intro n hn1 hn2
    rw [hout n hn2, assemble_eq_sum _ (fun q => usable_lsb_lt_two _ _ _)]
    refine congrArg some (Finset.sum_congr rfl (fun k hk => ?_))
    rw [dif_pos (Finset.mem_range.1 hk)]
    simp only
    rw [uncovered_usable_lsb _ p.bytes b.pixel px _ _ hinv
      (by have := Finset.mem_range.1 hk; omega)]

/-- Witness for C27: `0xAA` is embedded into `bitmap_2x3` (18 usable bytes) and two
bytes are recovered into a buffer that held `0xFF, 0xFF`: the first is `0xAA`, the
second, `0xF0`, spells the least-significant bits `1,1,1,1,0,0,0,0` the usable
bytes 8 to 15 had before the embed. -/
theorem oversized_recovery_witness :
    ∃ b1 out, bitmap_cover bitmap_2x3 (payload.mk 1 [0xAA]) = some b1 ∧
      bitmap_uncover (fun _ => 7) b1 (payload.mk 2 [0xFF, 0xFF]) = some (payload.mk 2 out) ∧
      out.take 1 = [0xAA] ∧ out[1]? = some 0xF0 := by
  obtain ⟨b1, out, h1, h2, _, h3, h4⟩ := oversized_recovery (fun _ => 7) bitmap_2x3
    (payload.mk 1 [0xAA]) 2 [0xFF, 0xFF] (by decide) (by decide) (by decide) (by decide)
    (by decide) (by decide) (by decide)
  refine ⟨b1, out, h1, h2, h3, ?_⟩
  rw [h4 1 (by decide) (by decide)]
  decide

/-! ## The ratio test on an empty hide-file -/

/-- C28 fails on the code: in hide mode `main` sets the payload size to the length
of the hide-file and calls the validator; with an empty hide-file the size is 0 and
the ratio test divides by it.  For the header `bmp_4x2_header` (24 bits, 8 pixels)
and for the Scenario C WAV header the run ends in the division by zero, while a
one-byte hide-file is accepted; and whatever the other fields and the buffer,
`validate_bitmap` at depth 24 and `validate_wavfile` at depth 16 or more divide by
zero when the size is 0. -/
theorem empty_hide_file_divides_by_zero :
    main_parse_and_validate zeroed MODE.hide bmp_4x2_header [] 0 =
      Except.error Failure.division_by_zero ∧
    main_parse_and_validate zeroed MODE.hide wav_scenario_C [] 0 =
      Except.error Failure.division_by_zero ∧
    (main_parse_and_validate zeroed MODE.hide bmp_4x2_header [0xAA] 0).toOption.isSome = true ∧
    (main_parse_and_validate zeroed MODE.hide wav_scenario_C [0xAA] 0).toOption.isSome = true ∧
    (∀ (b : bitmap) (bytes : List Nat),
      validate_bitmap { b with depth := 24 } (payload.mk 0 bytes) =
        Except.error Failure.division_by_zero) ∧
    (∀ (w : pcm) (extra : Nat) (bytes : List Nat),
      validate_wavfile { w with depth := 16 + (extra : Int) } (payload.mk 0 bytes) =
        Except.error Failure.division_by_zero) := by
  refine ⟨by decide, by decide, by decide, by decide, ?_, ?_⟩
  · intro b bytes
    rfl
  · intro w extra bytes
    unfold validate_wavfile
    rw [if_neg (by simp only; omega), if_pos rfl]

/-! ## The codec stays inside its buffers -/

theorem usable_store_cells (b : bitmap) (hstore : usable_store b) :
    ∀ i c, i < b.height.toNat → c < (b.rowlen - b.pad).toNat →
      (pixel_read b.pixel i c).isSome = true := by
  obtain ⟨_, hrow, hrows, hcols⟩ := hstore
  intro i c hi hc
  have hil : i < b.pixel.length := by omega
  unfold pixel_read
  rw [List.getElem?_eq_getElem hil]
  simp only
  have := hcols _ (List.getElem_mem hil)
  rw [List.getElem?_eq_getElem (by omega)]
  rfl

/-- The extract loop of `pcm_uncover` returns on every store of `sub` bytes and
every buffer of `S` bytes, whether or not the store holds `8 * S` targets. -/
theorem pcm_uncover_loop_returns (sub ss S : Nat) (samples : List Nat)
    (hsub : sub ≤ samples.length) (hss : 1 ≤ ss) :
    ∀ (fuel t : Nat) (cur : List Nat), cur.length = S → t < 8 * S → 1 ≤ fuel →
      sub + 1 ≤ fuel + t →
      ∃ out, pcm_uncover_loop (sub : Int) (ss : Int) (S : Int) samples fuel
          ((t * ss : Nat) : Int) cur t (t / 8) = some out ∧ out.length = S := by
  intro fuel
  induction fuel with
  | zero => intro t cur _ _ h; omega
  | succ fuel ih =>
    intro t cur hl ht _ hfuel
    unfold pcm_uncover_loop
    by_cases hi : t * ss < sub
    · have hi1 : ((t * ss : Nat) : Int) < (sub : Int) := by exact_mod_cast hi
      have hi2 : ¬ ((t * ss : Nat) : Int) < 0 := by omega
      rw [if_pos hi1, if_neg hi2]
      have hx : t * ss < samples.length := by omega
      have hb : t / 8 < cur.length := by omega
      have hxe : samples[((t * ss : Nat) : Int).toNat]? = some samples[t * ss] := by
        rw [Int.toNat_ofNat]; exact List.getElem?_eq_getElem hx
      have hbe : cur[t / 8]? = some cur[t / 8] := List.getElem?_eq_getElem hb
      rw [hxe, hbe]
      simp only [bytecount_step]
      by_cases hdone : (t + 1) / 8 = S
      · have hd1 : (((t + 1) / 8 : Nat) : Int) = (S : Int) := by rw [hdone]
        rw [if_pos hd1]
        exact ⟨_, rfl, by rw [List.length_set, hl]⟩
      · have hd1 : ¬ (((t + 1) / 8 : Nat) : Int) = (S : Int) := by
          intro h; exact hdone (by exact_mod_cast h)
        rw [if_neg hd1]
        have hcast : ((t * ss : Nat) : Int) + (ss : Int) = (((t + 1) * ss : Nat) : Int) := by
          push_cast; ring
        rw [hcast]
        have htle : t ≤ t * ss := Nat.le_mul_of_pos_right t hss
        exact ih (t + 1) _ (by rw [List.length_set, hl]) (by omega) (by omega) (by omega)
    · have hi1 : ¬ ((t * ss : Nat) : Int) < (sub : Int) := by
        intro h; exact hi (by exact_mod_cast h)
      rw [if_neg hi1]
      exact ⟨cur, rfl, hl⟩

/-- C29: the codec stays in bounds.  In the embedding an access outside a buffer
makes the function return nothing, so a value returned on buffers of exactly the
extent named is the statement that no access leaves it.  On every pixel matrix that
holds the cells with row `< height` and column `< rowlen - pad` (and need hold no
other), every payload buffer of `S >= 1` bytes, whatever the ratio of capacity to
`S`, `bitmap_cover` and `bitmap_uncover` return; on every sample store of exactly
`subchunk2size` bytes with `sample_size >= 1`, `pcm_cover` and `pcm_uncover` return,
for every step budget above `subchunk2size`. -/
theorem codec_stays_in_bounds (bits : Fin 8 → Nat) (b : bitmap) (w : pcm) (p : payload)
    (fuel : Nat) (hS : 1 ≤ p.size) (hp : (p.bytes.length : Int) = p.size) :
    (usable_store b →
      (∃ b1, bitmap_cover b p = some b1) ∧ (∃ q, bitmap_uncover bits b p = some q)) ∧
    ((w.samples.length : Int) = w.subchunk2size → 1 ≤ w.sample_size →
      w.subchunk2size < fuel →
      (∃ w1, pcm_cover fuel w p = some w1) ∧ (∃ q, pcm_uncover fuel w p = some q)) := by
  have hS1 : p.size = ((p.size.toNat : Nat) : Int) := (Int.toNat_of_nonneg (by omega)).symm
  constructor
  · intro hstore
    have hcell := usable_store_cells b hstore
    obtain ⟨hpad, hrow, _, _⟩ := hstore
    constructor
    · obtain ⟨px, k, hc, _⟩ := bitmap_cover_spec b p hpad hrow hS hp hcell
      exact ⟨_, hc⟩
    · have hW : b.rowlen - b.pad = (((b.rowlen - b.pad).toNat : Nat) : Int) :=
        (Int.toNat_of_nonneg (by omega)).symm
      have hR : b.rowlen = ((b.rowlen.toNat : Nat) : Int) :=
        (Int.toNat_of_nonneg (by omega)).symm
      obtain ⟨out, bits1, k, h1, _⟩ :=
        bitmap_uncover_rows_inv (b.rowlen - b.pad).toNat b.rowlen.toNat p.size.toNat
          b.height.toNat b.pixel p.bytes (by omega) (by omega) hcell b.height.toNat 0 bits
          p.bytes (by rw [Nat.zero_mul]; exact bitmap_uncover_inv_init _ _ _ _) (by omega)
          (by omega)
      unfold bitmap_uncover
      rw [← hW, ← hR, ← hS1] at h1
      simp only [Nat.zero_mul, Nat.zero_div] at h1
      simp only [h1]
      exact ⟨_, rfl⟩
  · intro hstore hss hfuel
    constructor
    · obtain ⟨out, T, hc, _⟩ := pcm_cover_spec w p fuel hstore hss hS hp hfuel
      exact ⟨_, hc⟩
    · have hss1 : w.sample_size = ((w.sample_size.toNat : Nat) : Int) :=
        (Int.toNat_of_nonneg (by omega)).symm
      obtain ⟨out, h1, _⟩ :=
        pcm_uncover_loop_returns w.samples.length w.sample_size.toNat p.size.toNat w.samples
          (le_refl _) (by omega) fuel 0 p.bytes (by omega) (by omega) (by omega) (by omega)
      unfold pcm_uncover
      rw [hstore, ← hss1, ← hS1] at h1
      simp only [Nat.zero_mul, Nat.zero_div, Nat.cast_zero] at h1
      rw [h1]
      exact ⟨_, rfl⟩

/-- Witness for C29: a two-byte payload (16 bits) against `bitmap_2x2_usable`, whose
matrix holds only the 12 usable cells, and against `wav_16` (8 targets): the four
functions return. -/
theorem codec_stays_in_bounds_witness :
    ((∃ b1, bitmap_cover bitmap_2x2_usable (payload.mk 2 [0xAA, 0xFF]) = some b1) ∧
      (∃ q, bitmap_uncover (fun _ => 7) bitmap_2x2_usable (payload.mk 2 [0xAA, 0xFF]) =
        some q)) ∧
    ((∃ w1, pcm_cover 17 wav_16 (payload.mk 2 [0xAA, 0xFF]) = some w1) ∧
      (∃ q, pcm_uncover 17 wav_16 (payload.mk 2 [0xAA, 0xFF]) = some q)) := by
  have h := codec_stays_in_bounds (fun _ => 7) bitmap_2x2_usable wav_16
    (payload.mk 2 [0xAA, 0xFF]) 17 (by decide) (by decide)
  exact ⟨h.1 (by decide), h.2 (by decide) (by decide) (by decide)⟩

end Steganographer
